import Mathlib

/-!
# evergreen-ci/lru: the cache (cache.go), its entries (file.go) and the prune loop (prune.go)

Shallow embedding.  Go pointers to `FileObject` are positions in a memory of
allocated objects, so that the table and the heap can hold the same object or
two different objects for one path, as the Go code does.  Go's `int` is taken
as the 64-bit two's-complement integer.  A run-time panic (nil dereference,
index out of range) is an outcome of its own, distinct from a returned error,
and the state reported with it is the state at the moment of the panic.
-/

namespace Lru

/-! ## Machine integers -/

/-- Go `int` arithmetic: the result of an addition or subtraction, reduced to
the 64-bit two's-complement range. -/
def wrapInt (x : Int) : Int := (x + 2 ^ 63) % 2 ^ 64 - 2 ^ 63

/-! ## Entries (file.go) -/

/-- The struct `FileObject` of file.go:11-16.  `Time` is an instant
(`time.Time`), compared with `Before`; it is kept as an integer instant. -/
structure FileObject where
  Size : Int
  Time : Int
  Path : String
  index : Int
deriving DecidableEq, Repr

/-- Errors returned by the cache and the pruner, one constructor for each
`errors.Errorf` / `errors.New` / `errors.Wrap` site of cache.go and prune.go. -/
inductive CacheError where
  | alreadyExists
  | doesNotExist
  | listingEmpty
  | notInCache
  | invalidStat
  | dirSizeFailed
  | retrieveFailed
  | removeFailed
deriving DecidableEq, Repr

/-- How a call ends: it returns normally, returns an error, or panics. -/
inductive Outcome (α : Type) where
  | ok : α → Outcome α
  | error : CacheError → Outcome α
  | panic : Outcome α
deriving DecidableEq, Repr

/-! ## Memory of allocated objects -/

/-- Allocated `FileObject`s; a `*FileObject` is a position in this list, and a
position outside the list is a nil (or dangling) pointer. -/
abbrev Mem := List FileObject

/-- The assignment `p.index = i` through a pointer; `none` when `p` is nil. -/
def setIndex (m : Mem) (p : Nat) (i : Int) : Option Mem :=
  match m[p]? with
  | some f => some (m.set p { f with index := i })
  | none => none

/-! ## The table `map[string]*FileObject` -/

/-- The lookup `c.table[k]` with its `ok` flag. -/
def tableGet : List (String × Nat) → String → Option Nat
  | [], _ => none
  | (k1, v) :: t, k => if k1 = k then some v else tableGet t k

/-- The assignment `c.table[k] = v`: replaces the row of `k`, or adds one. -/
def tablePut : List (String × Nat) → String → Nat → List (String × Nat)
  | [], k, v => [(k, v)]
  | (k1, v1) :: t, k, v => if k1 = k then (k, v) :: t else (k1, v1) :: tablePut t k v

/-- The statement `delete(c.table, k)`. -/
def tableDelete : List (String × Nat) → String → List (String × Nat)
  | [], _ => []
  | (k1, v1) :: t, k => if k1 = k then tableDelete t k else (k1, v1) :: tableDelete t k

/-! ## The heap type `fileObjectHeap` and `container/heap` -/

/-- Modelled from the spec: the method `Less` of the type `fileObjectHeap`,
whose declaration is not among the sources; the heap is "ordered by timestamp",
so slot `i` is less than slot `j` when its entry's time is before the other's.
`none` is an index out of range or a nil entry. -/
def heapLess (m : Mem) (h : List Nat) (i j : Nat) : Option Bool :=
  match h[i]?, h[j]? with
  | some p, some q =>
    match m[p]?, m[q]? with
    | some a, some b => some (decide (a.Time < b.Time))
    | _, _ => none
  | _, _ => none

/-- Modelled from the spec: the method `Swap` of the type `fileObjectHeap`,
whose declaration is not among the sources; it exchanges two slots and, since
"heapIndex always equals the entry's current array position, restored by every
heap operation", records in each moved entry its new slot. -/
def heapSwap (m : Mem) (h : List Nat) (i j : Nat) : Option (Mem × List Nat) :=
  match h[i]?, h[j]? with
  | some p, some q =>
    match setIndex m q i with
    | some m1 =>
      match setIndex m1 p j with
      | some m2 => some (m2, (h.set i q).set j p)
      | none => none
    | none => none
  | _, _ => none

/-- The loop of `up` in Go's `container/heap`: while the entry at `j` is less
than its parent `(j - 1) / 2`, exchange them.  The first argument bounds the
number of iterations; `up` passes `j + 1`, which the loop never exhausts
because `j` strictly decreases. -/
def upLoop : Nat → Mem → List Nat → Nat → Option (Mem × List Nat)
  | 0, m, h, _ => some (m, h)
  | fuel + 1, m, h, j =>
    let i := (j - 1) / 2
    if i = j then some (m, h)
    else
      match heapLess m h j i with
      | none => none
      | some false => some (m, h)
      | some true =>
        match heapSwap m h i j with
        | none => none
        | some (m1, h1) => upLoop fuel m1 h1 i

/-- The function `up` of `container/heap`. -/
def up (m : Mem) (h : List Nat) (j : Nat) : Option (Mem × List Nat) :=
  upLoop (j + 1) m h j

/-- The loop of `down` in Go's `container/heap`, returning also the final
position `i`.  The first argument bounds the number of iterations; `down`
passes `n`, which the loop never exhausts because `i` strictly increases and
stays below `n`. -/
def downLoop : Nat → Mem → List Nat → Nat → Nat → Option (Mem × List Nat × Nat)
  | 0, m, h, i, _ => some (m, h, i)
  | fuel + 1, m, h, i, n =>
    let j1 := 2 * i + 1
    if n ≤ j1 then some (m, h, i)
    else
      let j2 := j1 + 1
      match (if j2 < n then heapLess m h j2 j1 else some false) with
      | none => none
      | some b =>
        let j := if b then j2 else j1
        match heapLess m h j i with
        | none => none
        | some false => some (m, h, i)
        | some true =>
          match heapSwap m h i j with
          | none => none
          | some (m1, h1) => downLoop fuel m1 h1 j n

/-- The function `down(h, i0, n)` of `container/heap`; the Boolean is its
result `i > i0`. -/
def down (m : Mem) (h : List Nat) (i0 n : Nat) : Option (Mem × List Nat × Bool) :=
  match downLoop n m h i0 n with
  | some (m1, h1, i) => some (m1, h1, decide (i0 < i))
  | none => none

/-- The function `heap.Fix(h, i)` of `container/heap`:
`if !down(h, i, h.Len()) { up(h, i) }`.  For a negative `i` the loop of `down`
stops at once (`j1 < 0`) and `up` either stops at once (`i = -1`, whose parent
`(i - 1) / 2` is `-1` again) or indexes the slice at a negative position. -/
def heapFix (m : Mem) (h : List Nat) (i : Int) : Option (Mem × List Nat) :=
  if i < 0 then
    if i = -1 then some (m, h) else none
  else
    match down m h i.toNat h.length with
    | none => none
    | some (m1, h1, true) => some (m1, h1)
    | some (m1, h1, false) => up m1 h1 i.toNat

/-- Modelled from the spec: the method `Push` of the type `fileObjectHeap`,
whose declaration is not among the sources: "push(e): inserts, assigns
heapIndex, restores heap property".  The entry goes to the end of the slice
with its index, and is sifted up. -/
def heapPush (m : Mem) (h : List Nat) (p : Nat) : Option (Mem × List Nat) :=
  match setIndex m p h.length with
  | none => none
  | some m1 => up m1 (h ++ [p]) h.length

/-- Modelled from the spec: the method `Pop` of the type `fileObjectHeap`,
whose declaration is not among the sources: "pop(): removes and returns the
minimum-timestamp entry; undefined on an empty heap".  The root is exchanged
with the last slot, the new root is sifted down over the remaining slots, and
the last slot is cut off and returned. -/
def heapPop (m : Mem) (h : List Nat) : Option (Mem × List Nat × Nat) :=
  match h with
  | [] => none
  | _ :: t =>
    let n := t.length
    match heapSwap m h 0 n with
    | none => none
    | some (m1, h1) =>
      match down m1 h1 0 n with
      | none => none
      | some (m2, h2, _) =>
        match h2[n]? with
        | none => none
        | some p => some (m2, h2.take n, p)

/-! ## The cache (cache.go) -/

/-- The struct `LruCache` of cache.go:21-26 (the mutex is not modelled: calls
are taken one at a time).  `heap` is a pointer: `none` is the nil pointer. -/
structure LruCache where
  size : Int
  heap : Option (List Nat)
  table : List (String × Nat)
deriving DecidableEq, Repr

/-- The program state: the allocated entries and the cache. -/
structure World where
  mem : Mem
  cache : LruCache
deriving DecidableEq, Repr

/-- The constructor `NewCache` (cache.go:31-35): only `table` is set; `size`
is the zero value and `heap` the nil pointer. -/
def NewCache : LruCache := { size := 0, heap := none, table := [] }

/-- The method `Size` (cache.go:38-43). -/
def Size (w : World) : Int := w.cache.size

/-- The method `Count` (cache.go:46-51): `len(*c.heap)` dereferences the heap
pointer. -/
def Count (w : World) : Outcome Int :=
  match w.cache.heap with
  | none => .panic
  | some h => .ok (h.length : Int)

/-- The method `Add` (cache.go:85-99), called with the pointer `p`: the
duplicate check, then `c.size += f.Size`, `c.table[f.Path] = f` and
`c.heap.Push(f)`, in this order.  A nil `f` panics at `f.Path`; a nil `c.heap`
panics at the call of `Push`, after the size and the table were written.  When
a heap method panics part-way, the heap is reported as it was before the
call. -/
def Add (w : World) (p : Nat) : Outcome Unit × World :=
  match w.mem[p]? with
  | none => (.panic, w)
  | some f =>
    match tableGet w.cache.table f.Path with
    | some _ => (.error .alreadyExists, w)
    | none =>
      let c1 : LruCache :=
        { w.cache with size := wrapInt (w.cache.size + f.Size),
                       table := tablePut w.cache.table f.Path p }
      match w.cache.heap with
      | none => (.panic, { w with cache := c1 })
      | some h =>
        match heapPush w.mem h p with
        | none => (.panic, { w with cache := c1 })
        | some (m1, h1) => (.ok (), { mem := m1, cache := { c1 with heap := some h1 } })

/-- The method `Update` (cache.go:101-119), called with the pointer `p`: the
lookup, then `c.size -= existing.Size`, `c.size += f.Size`,
`f.index = existing.index`, `c.table[f.Path] = f` and
`heap.Fix(c.heap, f.index)`, in this order.  The heap itself is not written:
it keeps the pointer it had.  A nil `c.heap` panics inside `heap.Fix`, at
`h.Len()`, after the other writes. -/
def Update (w : World) (p : Nat) : Outcome Unit × World :=
  match w.mem[p]? with
  | none => (.panic, w)
  | some f =>
    match tableGet w.cache.table f.Path with
    | none => (.error .doesNotExist, w)
    | some e =>
      match w.mem[e]? with
      | none => (.panic, w)
      | some existing =>
        let size1 := wrapInt (wrapInt (w.cache.size - existing.Size) + f.Size)
        let m1 := w.mem.set p { f with index := existing.index }
        let c1 : LruCache :=
          { w.cache with size := size1, table := tablePut w.cache.table f.Path p }
        match w.cache.heap with
        | none => (.panic, { mem := m1, cache := c1 })
        | some h =>
          match heapFix m1 h existing.index with
          | none => (.panic, { mem := m1, cache := c1 })
          | some (m2, h2) => (.ok (), { mem := m2, cache := { c1 with heap := some h2 } })

/-- The method `Pop` (cache.go:121-134); on success the pointer it returns.
A nil `c.heap` panics at `c.heap.Len()`; otherwise the entry `f` that
`c.heap.Pop()` hands out gives the size to subtract and the table row to
delete. -/
def Pop (w : World) : Outcome Nat × World :=
  match w.cache.heap with
  | none => (.panic, w)
  | some h =>
    if h.length = 0 then (.error .listingEmpty, w)
    else
      match heapPop w.mem h with
      | none => (.panic, w)
      | some (m1, h1, p) =>
        match m1[p]? with
        | none => (.panic, { mem := m1, cache := { w.cache with heap := some h1 } })
        | some f =>
          (.ok p, { mem := m1,
                    cache := { size := wrapInt (w.cache.size - f.Size),
                               heap := some h1,
                               table := tableDelete w.cache.table f.Path } })

/-- The method `Get` (cache.go:136-146); it writes nothing, so the state it
leaves is the state it was given. -/
def Get (w : World) (path : String) : Outcome Nat × World :=
  match tableGet w.cache.table path with
  | none => (.error .notInCache, w)
  | some p => (.ok p, w)

/-! ## The pruner (prune.go) -/

/-- The method `underQuota` (prune.go:32-46); the log lines are left out. -/
def underQuota (w : World) (maxSize : Int) : Outcome Bool :=
  match Count w with
  | .panic => .panic
  | .error e => .error e
  | .ok n =>
    if n = 0 then .ok true
    else if Size w ≤ maxSize then .ok true
    else .ok false

/-- The method `prunePass` (prune.go:48-64).  The storage is a state of any
type `D`, and `remove d path` is `os.RemoveAll(path)` run in the storage state
`d`: it reports whether it failed, and the storage state it leaves. -/
def prunePass {D : Type} (remove : D → String → Bool × D) (dryRun : Bool)
    (w : World) (d : D) : Outcome Unit × World × D :=
  match Pop w with
  | (.panic, w1) => (.panic, w1, d)
  | (.error _, w1) => (.error .retrieveFailed, w1, d)
  | (.ok p, w1) =>
    match w1.mem[p]? with
    | none => (.panic, w1, d)
    | some f =>
      if dryRun then (.ok (), w1, d)
      else
        match remove d f.Path with
        | (true, d1) => (.error .removeFailed, w1, d1)
        | (false, d1) => (.ok (), w1, d1)

/-- How a run of `Prune` ends: whether it panicked, the errors collected in the
catcher (`Prune` returns nil exactly when there is none), the state of the
cache and of the storage, and the number of entries that `Pop` handed out. -/
structure PruneEnd (D : Type) where
  panicked : Bool
  errors : List CacheError
  world : World
  storage : D
  evictions : Nat

/-- The loop of `Prune` (prune.go:14-24), with the catcher and the number of
evictions so far.  The first argument bounds the number of iterations; `none`
means the bound was reached before the loop ended. -/
def pruneLoop {D : Type} (remove : D → String → Bool × D) (maxSize : Int) (dryRun : Bool) :
    Nat → World → D → List CacheError → Nat → Option (PruneEnd D)
  | 0, _, _, _, _ => none
  | fuel + 1, w, d, errs, k =>
    match underQuota w maxSize with
    | .panic => some ⟨true, errs, w, d, k⟩
    | .error _ => some ⟨true, errs, w, d, k⟩
    | .ok true => some ⟨false, errs, w, d, k⟩
    | .ok false =>
      match prunePass remove dryRun w d with
      | (.panic, w1, d1) => some ⟨true, errs, w1, d1, k⟩
      | (.error e, w1, d1) =>
        pruneLoop remove maxSize dryRun fuel w1 d1 (errs ++ [e])
          (if e = .removeFailed then k + 1 else k)
      | (.ok _, w1, d1) => pruneLoop remove maxSize dryRun fuel w1 d1 errs (k + 1)

/-- The number of slots of the heap, zero for the nil pointer. -/
def heapLen (w : World) : Nat :=
  match w.cache.heap with
  | none => 0
  | some h => h.length

/-- The method `Prune` (prune.go:11-30), run with one iteration more than the
heap has entries. -/
def Prune {D : Type} (remove : D → String → Bool × D) (maxSize : Int) (dryRun : Bool)
    (w : World) (d : D) : Option (PruneEnd D) :=
  pruneLoop remove maxSize dryRun (heapLen w + 1) w d [] 0

/-! ## Sequences of calls -/

/-- A call made by a client of the cache: building an entry
(`&FileObject{...}`), or one of `Add`, `Update`, `Pop` with a pointer. -/
inductive Call where
  | new : FileObject → Call
  | add : Nat → Call
  | update : Nat → Call
  | pop : Call
deriving DecidableEq, Repr

/-- The outcome of a call with its value replaced. -/
def Outcome.map {α β : Type} (g : α → β) : Outcome α → Outcome β
  | .ok a => .ok (g a)
  | .error e => .error e
  | .panic => .panic

/-- One call: its outcome, the entry it handed out (for `Pop`), and the state
it leaves. -/
def exec (w : World) : Call → Outcome (Option Nat) × World
  | .new f => (.ok none, { w with mem := w.mem ++ [f] })
  | .add p => ((Add w p).1.map (fun _ => none), (Add w p).2)
  | .update p => ((Update w p).1.map (fun _ => none), (Update w p).2)
  | .pop => ((Pop w).1.map some, (Pop w).2)

/-- The state after a sequence of calls; a call that panicked leaves the state
it had reached (the caller recovered). -/
def run (w : World) : List Call → World
  | [] => w
  | c :: cs => run (exec w c).2 cs

/-- The program state right after `NewCache()`: nothing allocated yet. -/
def newWorld : World := { mem := [], cache := NewCache }

/-- A cache like `NewCache()` whose `heap` field has been pointed at an empty
`fileObjectHeap` (code of the package can do so: the field is read by the
tests). -/
def heapWorld : World := { mem := [], cache := { NewCache with heap := some [] } }

/-- The size recorded in the object a pointer refers to (zero for nil). -/
def sizeAt (m : Mem) (p : Nat) : Int :=
  match m[p]? with
  | some f => f.Size
  | none => 0

/-- The exact sum of the sizes of the entries the table holds. -/
def tableSizeSum (w : World) : Int :=
  (w.cache.table.map (fun kp => sizeAt w.mem kp.2)).sum

/-- The outcomes of the calls of a sequence, in order. -/
def outcomes (w : World) : List Call → List (Outcome (Option Nat))
  | [] => []
  | c :: cs => (exec w c).1 :: outcomes (exec w c).2 cs

/-- The path recorded in the object a pointer refers to. -/
def pathAt (m : Mem) (p : Nat) : Option String :=
  match m[p]? with
  | some f => some f.Path
  | none => none

/-- The tracked entries as the specification words them, computed from the
calls and their outcomes alone: a path is tracked from a successful `Add` or
`Update` of an entry with that path until a successful `Pop` hands out an entry
with that path, and its entry is the one most recently passed to a successful
`Add` or `Update`.  The argument `g` is the tracking before the calls. -/
def lastPassed (w : World) : List Call → (String → Option Nat) → String → Option Nat
  | [], g => g
  | c :: cs, g =>
    lastPassed (exec w c).2 cs
      (match c, (exec w c).1 with
       | .add p, .ok _ => fun k => if pathAt w.mem p = some k then some p else g k
       | .update p, .ok _ => fun k => if pathAt w.mem p = some k then some p else g k
       | .pop, .ok (some q) => fun k => if pathAt (exec w c).2.mem q = some k then none else g k
       | _, _ => g)

/-- The invariant of the states that `NewCache` leads to: the heap pointer is
still nil, the table holds pointers to allocated entries, and the recorded
size is the sum of the sizes in the table, in `int` arithmetic. -/
def NilInv (w : World) : Prop :=
  w.cache.heap = none ∧ (∀ kp ∈ w.cache.table, kp.2 < w.mem.length)
    ∧ w.cache.size = wrapInt (tableSizeSum w)

/-- The instant recorded in the object a pointer refers to. -/
def timeAt (m : Mem) (p : Nat) : Option Int :=
  match m[p]? with
  | some f => some f.Time
  | none => none

/-- The state after `c := NewCache(); c.Add(&FileObject{Path: "a", Size: 1, Time: 1})`. -/
def addedWorld : World := run newWorld [.new ⟨1, 1, "a", 0⟩, .add 0]

/-- Calls on a cache with a heap: entries a (time 5) and b (time 3) are added,
then a is updated with an entry of time 1. -/
def olderCalls : List Call :=
  [.new ⟨1, 5, "a", 0⟩, .new ⟨1, 3, "b", 0⟩, .new ⟨1, 1, "a", 0⟩, .add 0, .add 1, .update 2]

/-- Calls on a cache with a heap: entries a (time 1) and b (time 2) are added,
b is updated, and the oldest entry is popped. -/
def staleCalls : List Call :=
  [.new ⟨1, 1, "a", 0⟩, .new ⟨1, 2, "b", 0⟩, .new ⟨1, 2, "b", 0⟩, .new ⟨1, 2, "b", 0⟩,
   .add 0, .add 1, .update 2, .pop]

/-- Calls on a cache with a heap: an entry of size 5 is added, updated to size
7, and popped. -/
def resizeCalls : List Call :=
  [.new ⟨5, 1, "a", 0⟩, .new ⟨7, 1, "a", 0⟩, .add 0, .update 1, .pop]

/-- Every slot of the heap points to an allocated entry. -/
def PtrsOK (m : Mem) (h : List Nat) : Prop := ∀ q ∈ h, q < m.length

/-- The cache has a heap, and every slot of it points to an allocated entry. -/
def HeapOK (w : World) : Prop := ∃ h, w.cache.heap = some h ∧ PtrsOK w.mem h

/-- The client builds each entry of a list and calls `Add` with it, one after
another; the outcomes of the calls to `Add`, and the final state. -/
def addEntries : World → List FileObject → List (Outcome Unit) × World
  | w, [] => ([], w)
  | w, f :: fs =>
    ((Add { w with mem := w.mem ++ [f] } w.mem.length).1
        :: (addEntries (Add { w with mem := w.mem ++ [f] } w.mem.length).2 fs).1,
      (addEntries (Add { w with mem := w.mem ++ [f] } w.mem.length).2 fs).2)

/-- Calls on a cache with a heap: entries a and b are added, b is updated, and
the oldest entry (a) is popped. -/
def getCalls : List Call :=
  [.new ⟨5, 1, "a", 0⟩, .new ⟨3, 2, "b", 0⟩, .add 0, .add 1, .new ⟨7, 3, "b", 0⟩,
   .update 2, .pop]

/-- What `AddStat` reads of an `os.FileInfo`: `Size()`, `ModTime()` and
`IsDir()`. -/
structure FileStat where
  size : Int
  modTime : Int
  isDir : Bool
deriving DecidableEq, Repr

/-- The method `AddStat` (cache.go:53-74).  `stat` is `none` for a nil
`os.FileInfo`; `dir` is the result of `dirSize(fn)`, `none` when it fails.  The
entry is allocated before the directory check; `errors.Wrapf` of a nil error
is nil, so past that check the call ends as `Add` does. -/
def AddStat (w : World) (fn : String) (stat : Option FileStat) (dir : Option Int) :
    Outcome Unit × World :=
  match stat with
  | none => (.error .invalidStat, w)
  | some st =>
    if st.isDir then
      match dir with
      | none => (.error .dirSizeFailed, { w with mem := w.mem ++ [⟨st.size, st.modTime, fn, 0⟩] })
      | some sz => Add { w with mem := w.mem ++ [⟨sz, st.modTime, fn, 0⟩] } w.mem.length
    else Add { w with mem := w.mem ++ [⟨st.size, st.modTime, fn, 0⟩] } w.mem.length

/-- A storage that records the paths it is asked to remove, and removes them. -/
def logRemove (d : List String) (path : String) : Bool × List String := (false, d ++ [path])

/-- A storage that records the paths it is asked to remove, and fails each time. -/
def failRemove (d : List String) (path : String) : Bool × List String := (true, d ++ [path])

/-- What is observed of a run of `Prune`: whether it panicked, the errors
collected, the storage, the number of evictions and the cache. -/
def PruneEnd.view {D : Type} (r : Option (PruneEnd D)) :
    Option (Bool × List CacheError × D × Nat × LruCache) :=
  r.map (fun e => (e.panicked, e.errors, e.storage, e.evictions, e.world.cache))

/-- The scenario of the specification: Add("a", size 10, t = 1), then
Add("b", size 20, t = 2). -/
def quotaCalls : List Call :=
  [.new ⟨10, 1, "a", 0⟩, .add 0, .new ⟨20, 2, "b", 0⟩, .add 1]

/-- Calls on a cache with a heap: an entry of size 5 and time 1 is added, and
updated with an entry of size 7 and time 9. -/
def updatedCalls : List Call :=
  [.new ⟨5, 1, "a", 0⟩, .new ⟨7, 9, "a", 0⟩, .add 0, .update 1]

/-- Three entries of times 3, 1 and 2 are added, and three are popped. -/
def sortCalls : List Call :=
  [.new ⟨1, 3, "a", 0⟩, .add 0, .new ⟨1, 1, "b", 0⟩, .add 1, .new ⟨1, 2, "c", 0⟩, .add 2,
   .pop, .pop, .pop]

/-- What an entry records apart from its heap index: size, time and path. -/
def FileObject.body (f : FileObject) : Int × Int × String := (f.Size, f.Time, f.Path)

/-- The two memories hold the same entries up to their heap indices. -/
def SameBodies (m m2 : Mem) : Prop := m2.map FileObject.body = m.map FileObject.body

/-- A removal that also counts its failures: the storage is paired with the
number of removals that have failed so far. -/
def countFailures {D : Type} (remove : D → String → Bool × D) :
    D × Nat → String → Bool × (D × Nat) :=
  fun dn path =>
    ((remove dn.1 path).1,
      ((remove dn.1 path).2, if (remove dn.1 path).1 = true then dn.2 + 1 else dn.2))

/-- The path of the entry a pointer refers to (empty for nil). -/
def pathOf (m : Mem) (q : Nat) : String :=
  match m[q]? with
  | some f => f.Path
  | none => ""

/-- The cache has a heap of allocated entries whose paths are, each once, the
paths of the table rows. -/
def PathsOK (w : World) : Prop :=
  ∃ hp, w.cache.heap = some hp ∧ PtrsOK w.mem hp
    ∧ (hp.map (pathOf w.mem)).Perm (w.cache.table.map Prod.fst)
    ∧ (w.cache.table.map Prod.fst).Nodup

/-- The instant of the entry a pointer refers to (zero for nil). -/
def timeOf (m : Mem) (q : Nat) : Int :=
  match m[q]? with
  | some f => f.Time
  | none => 0

/-- The first `n` slots of `h` form a min-heap for the key `t`: no slot is
less than its parent `(k - 1) / 2`. -/
def IsHeap (t : Nat → Int) (h : List Nat) (n : Nat) : Prop :=
  ∀ k, 0 < k → k < n → t (h.getD ((k - 1) / 2) 0) ≤ t (h.getD k 0)

/-- The heap order holds among the first `n` slots except, possibly, between
the slot `j` and its parent; the children of `j` are not less than the parent
of `j`.  This is what the loop of `up` maintains. -/
def UpInv (t : Nat → Int) (h : List Nat) (n j : Nat) : Prop :=
  (∀ k, 0 < k → k < n → k ≠ j → t (h.getD ((k - 1) / 2) 0) ≤ t (h.getD k 0))
  ∧ (∀ c, 0 < j → c < n → (c - 1) / 2 = j → c ≠ j →
      t (h.getD ((j - 1) / 2) 0) ≤ t (h.getD c 0))

/-- The heap order holds among the first `n` slots except, possibly, between
the slot `i` and its children; the children of `i` are not less than the
parent of `i`.  This is what the loop of `down` maintains. -/
def DownInv (t : Nat → Int) (h : List Nat) (n i : Nat) : Prop :=
  (∀ k, 0 < k → k < n → (k - 1) / 2 ≠ i → t (h.getD ((k - 1) / 2) 0) ≤ t (h.getD k 0))
  ∧ (∀ c, 0 < i → 0 < c → c < n → (c - 1) / 2 = i →
      t (h.getD ((i - 1) / 2) 0) ≤ t (h.getD c 0))

/-- The cache has a heap of allocated entries in heap order of their times. -/
def HeapSorted (w : World) : Prop :=
  ∃ hp, w.cache.heap = some hp ∧ PtrsOK w.mem hp ∧ IsHeap (timeOf w.mem) hp hp.length

/-- The client calls `Pop` up to `n` times, stopping at the first call that
does not succeed: the entries handed out, in order, and the state left. -/
def popMany : Nat → World → List Nat × World
  | 0, w => ([], w)
  | n + 1, w =>
    match (Pop w).1 with
    | .ok q => (q :: (popMany n (Pop w).2).1, (popMany n (Pop w).2).2)
    | _ => ([], (Pop w).2)

/-- Two entries are added whose sizes sum to one more than the largest `int`. -/
def overflowCalls : List Call :=
  [.new ⟨9223372036854775807, 1, "a", 0⟩, .add 0, .new ⟨1, 2, "b", 0⟩, .add 1]

/-- Whether a call is a call of `Update`. -/
def Call.isUpdate : Call → Bool
  | .update _ => true
  | _ => false

/-- The cache has a heap of allocated entries, the table rows point to the
entries of the heap, each under its own path, and the recorded size is the sum
of their sizes in `int` arithmetic. -/
def TableIsHeap (w : World) : Prop :=
  ∃ hp, w.cache.heap = some hp ∧ PtrsOK w.mem hp
    ∧ (w.cache.table.map Prod.snd).Perm hp
    ∧ (∀ kp ∈ w.cache.table, pathOf w.mem kp.2 = kp.1)
    ∧ (w.cache.table.map Prod.fst).Nodup
    ∧ w.cache.size = wrapInt (tableSizeSum w)

/-! ## Arithmetic and table lemmas -/

theorem wrapInt_zero : wrapInt 0 = 0 := by decide

theorem wrapInt_wrapInt_add (a b : Int) : wrapInt (wrapInt a + b) = wrapInt (a + b) := by
  unfold wrapInt; omega

theorem wrapInt_wrapInt_sub (a b : Int) : wrapInt (wrapInt a - b) = wrapInt (a - b) := by
  unfold wrapInt; omega

theorem wrapInt_idem (a : Int) : wrapInt (wrapInt a) = wrapInt a := by
  unfold wrapInt; omega

theorem wrapInt_of_range (a : Int) (h1 : -(2 ^ 63) ≤ a) (h2 : a < 2 ^ 63) : wrapInt a = a := by
  unfold wrapInt; omega

theorem tablePut_of_get_none (t : List (String × Nat)) (k : String) (v : Nat)
    (h : tableGet t k = none) : tablePut t k v = t ++ [(k, v)] := by
  induction t with
  | nil => rfl
  | cons a t ih =>
    obtain ⟨k1, v1⟩ := a
    simp only [tableGet] at h
    by_cases hk : k1 = k
    · simp [hk] at h
    · simp only [hk, if_false] at h
      simp [tablePut, hk, ih h]

theorem tableGet_tablePut (t : List (String × Nat)) (k : String) (v : Nat) (k2 : String) :
    tableGet (tablePut t k v) k2 = if k = k2 then some v else tableGet t k2 := by
  induction t with
  | nil => simp [tablePut, tableGet]
  | cons a t ih =>
    obtain ⟨k1, v1⟩ := a
    by_cases hk : k1 = k
    · subst hk
      by_cases h2 : k1 = k2 <;> simp [tablePut, tableGet, h2]
    · by_cases h2 : k1 = k2
      · subst h2
        have hk2 : ¬ k = k1 := fun h => hk h.symm
        simp [tablePut, tableGet, hk, hk2]
      · simp [tablePut, tableGet, hk, h2, ih]

theorem tableGet_tableDelete (t : List (String × Nat)) (k : String) (k2 : String) :
    tableGet (tableDelete t k) k2 = if k = k2 then none else tableGet t k2 := by
  induction t with
  | nil => simp [tableDelete, tableGet]
  | cons a t ih =>
    obtain ⟨k1, v1⟩ := a
    by_cases hk : k1 = k
    · subst hk
      by_cases h2 : k1 = k2
      · subst h2
        simpa [tableDelete] using ih
      · simp [tableDelete, tableGet, h2, ih]
    · by_cases h2 : k1 = k2
      · subst h2
        have hk2 : ¬ k = k1 := fun h => hk h.symm
        simp [tableDelete, tableGet, hk, hk2]
      · simp [tableDelete, tableGet, hk, h2, ih]

theorem mem_tablePut (t : List (String × Nat)) (k : String) (v : Nat) (kp : String × Nat)
    (h : kp ∈ tablePut t k v) : kp ∈ t ∨ kp = (k, v) := by
  induction t with
  | nil => simp [tablePut] at h; exact Or.inr h
  | cons a t ih =>
    obtain ⟨k1, v1⟩ := a
    by_cases hk : k1 = k
    · simp only [tablePut, hk, if_true, List.mem_cons] at h
      rcases h with h | h
      · exact Or.inr h
      · exact Or.inl (List.mem_cons_of_mem _ h)
    · simp only [tablePut, hk, if_false, List.mem_cons] at h
      rcases h with h | h
      · exact Or.inl (by simp [h])
      · rcases ih h with h1 | h1
        · exact Or.inl (List.mem_cons_of_mem _ h1)
        · exact Or.inr h1

theorem mem_of_tableGet (t : List (String × Nat)) (k : String) (v : Nat)
    (h : tableGet t k = some v) : (k, v) ∈ t := by
  induction t with
  | nil => simp [tableGet] at h
  | cons a t ih =>
    obtain ⟨k1, v1⟩ := a
    by_cases hk : k1 = k
    · simp [tableGet, hk] at h
      simp [hk, h]
    · simp only [tableGet, hk, if_false] at h
      exact List.mem_cons_of_mem _ (ih h)

theorem sum_tablePut (g : Nat → Int) (t : List (String × Nat)) (k : String) (v e : Nat)
    (h : tableGet t k = some e) :
    ((tablePut t k v).map (fun kp => g kp.2)).sum
      = (t.map (fun kp => g kp.2)).sum - g e + g v := by
  induction t with
  | nil => simp [tableGet] at h
  | cons a t ih =>
    obtain ⟨k1, v1⟩ := a
    by_cases hk : k1 = k
    · simp [tableGet, hk] at h
      simp [tablePut, hk, h]
      omega
    · simp only [tableGet, hk, if_false] at h
      simp [tablePut, hk, ih h]
      omega

/-! ## The branches of each call -/

theorem Add_nil_entry (w : World) (p : Nat) (hm : w.mem[p]? = none) :
    Add w p = (.panic, w) := by
  simp [Add, hm]

theorem Add_tracked (w : World) (p : Nat) (f : FileObject) (e : Nat)
    (hm : w.mem[p]? = some f) (ht : tableGet w.cache.table f.Path = some e) :
    Add w p = (.error .alreadyExists, w) := by
  simp [Add, hm, ht]

theorem Add_nil_heap (w : World) (p : Nat) (f : FileObject)
    (hm : w.mem[p]? = some f) (ht : tableGet w.cache.table f.Path = none)
    (hh : w.cache.heap = none) :
    Add w p = (.panic, { w with cache :=
      { w.cache with size := wrapInt (w.cache.size + f.Size),
                     table := tablePut w.cache.table f.Path p } }) := by
  simp [Add, hm, ht, hh]

theorem Add_push_panics (w : World) (p : Nat) (f : FileObject) (h : List Nat)
    (hm : w.mem[p]? = some f) (ht : tableGet w.cache.table f.Path = none)
    (hh : w.cache.heap = some h) (hp : heapPush w.mem h p = none) :
    Add w p = (.panic, { w with cache :=
      { w.cache with size := wrapInt (w.cache.size + f.Size),
                     table := tablePut w.cache.table f.Path p } }) := by
  simp [Add, hm, ht, hh, hp]

theorem Add_pushed (w : World) (p : Nat) (f : FileObject) (h h1 : List Nat) (m1 : Mem)
    (hm : w.mem[p]? = some f) (ht : tableGet w.cache.table f.Path = none)
    (hh : w.cache.heap = some h) (hp : heapPush w.mem h p = some (m1, h1)) :
    Add w p = (.ok (), { mem := m1, cache :=
      { size := wrapInt (w.cache.size + f.Size), heap := some h1,
        table := tablePut w.cache.table f.Path p } }) := by
  simp [Add, hm, ht, hh, hp]

theorem Update_nil_entry (w : World) (p : Nat) (hm : w.mem[p]? = none) :
    Update w p = (.panic, w) := by
  simp [Update, hm]

theorem Update_untracked (w : World) (p : Nat) (f : FileObject)
    (hm : w.mem[p]? = some f) (ht : tableGet w.cache.table f.Path = none) :
    Update w p = (.error .doesNotExist, w) := by
  simp [Update, hm, ht]

theorem Update_nil_existing (w : World) (p : Nat) (f : FileObject) (e : Nat)
    (hm : w.mem[p]? = some f) (ht : tableGet w.cache.table f.Path = some e)
    (he : w.mem[e]? = none) :
    Update w p = (.panic, w) := by
  simp [Update, hm, ht, he]

theorem Update_nil_heap (w : World) (p : Nat) (f : FileObject) (e : Nat) (x : FileObject)
    (hm : w.mem[p]? = some f) (ht : tableGet w.cache.table f.Path = some e)
    (he : w.mem[e]? = some x) (hh : w.cache.heap = none) :
    Update w p = (.panic, { mem := w.mem.set p { f with index := x.index }, cache :=
      { w.cache with size := wrapInt (wrapInt (w.cache.size - x.Size) + f.Size),
                     table := tablePut w.cache.table f.Path p } }) := by
  simp [Update, hm, ht, he, hh]

theorem Update_fix_panics (w : World) (p : Nat) (f : FileObject) (e : Nat) (x : FileObject)
    (h : List Nat)
    (hm : w.mem[p]? = some f) (ht : tableGet w.cache.table f.Path = some e)
    (he : w.mem[e]? = some x) (hh : w.cache.heap = some h)
    (hx : heapFix (w.mem.set p { f with index := x.index }) h x.index = none) :
    Update w p = (.panic, { mem := w.mem.set p { f with index := x.index }, cache :=
      { w.cache with size := wrapInt (wrapInt (w.cache.size - x.Size) + f.Size),
                     table := tablePut w.cache.table f.Path p } }) := by
  simp [Update, hm, ht, he, hh, hx]

theorem Update_fixed (w : World) (p : Nat) (f : FileObject) (e : Nat) (x : FileObject)
    (h h2 : List Nat) (m2 : Mem)
    (hm : w.mem[p]? = some f) (ht : tableGet w.cache.table f.Path = some e)
    (he : w.mem[e]? = some x) (hh : w.cache.heap = some h)
    (hx : heapFix (w.mem.set p { f with index := x.index }) h x.index = some (m2, h2)) :
    Update w p = (.ok (), { mem := m2, cache :=
      { size := wrapInt (wrapInt (w.cache.size - x.Size) + f.Size), heap := some h2,
        table := tablePut w.cache.table f.Path p } }) := by
  simp [Update, hm, ht, he, hh, hx]

theorem Pop_nil_heap (w : World) (hh : w.cache.heap = none) : Pop w = (.panic, w) := by
  simp [Pop, hh]

theorem Pop_empty (w : World) (hh : w.cache.heap = some []) :
    Pop w = (.error .listingEmpty, w) := by
  simp [Pop, hh]

theorem Pop_heap_panics (w : World) (h : List Nat) (hh : w.cache.heap = some h)
    (hne : h ≠ []) (hp : heapPop w.mem h = none) : Pop w = (.panic, w) := by
  simp [Pop, hh, hne, hp]

theorem Pop_nil_item (w : World) (h h1 : List Nat) (m1 : Mem) (q : Nat)
    (hh : w.cache.heap = some h) (hne : h ≠ []) (hp : heapPop w.mem h = some (m1, h1, q))
    (hq : m1[q]? = none) :
    Pop w = (.panic, { mem := m1, cache := { w.cache with heap := some h1 } }) := by
  simp [Pop, hh, hne, hp, hq]

theorem Pop_popped (w : World) (h h1 : List Nat) (m1 : Mem) (q : Nat) (f : FileObject)
    (hh : w.cache.heap = some h) (hne : h ≠ []) (hp : heapPop w.mem h = some (m1, h1, q))
    (hq : m1[q]? = some f) :
    Pop w = (.ok q, { mem := m1, cache :=
      { size := wrapInt (w.cache.size - f.Size), heap := some h1,
        table := tableDelete w.cache.table f.Path } }) := by
  simp [Pop, hh, hne, hp, hq]

/-! ## What each call does to the table -/

theorem Add_error_state (w : World) (p : Nat) (e : CacheError)
    (h : (Add w p).1 = .error e) : (Add w p).2 = w := by
  cases hm : w.mem[p]? with
  | none => rw [Add_nil_entry w p hm]
  | some f =>
    cases ht : tableGet w.cache.table f.Path with
    | some e1 => rw [Add_tracked w p f e1 hm ht]
    | none =>
      cases hh : w.cache.heap with
      | none => rw [Add_nil_heap w p f hm ht hh] at h; simp at h
      | some hp =>
        cases hx : heapPush w.mem hp p with
        | none => rw [Add_push_panics w p f hp hm ht hh hx] at h; simp at h
        | some r =>
          obtain ⟨m1, h1⟩ := r
          rw [Add_pushed w p f hp h1 m1 hm ht hh hx] at h; simp at h

theorem Add_ok_table (w : World) (p : Nat) (u : Unit) (h : (Add w p).1 = .ok u) :
    ∃ f, w.mem[p]? = some f ∧
      (Add w p).2.cache.table = tablePut w.cache.table f.Path p := by
  cases hm : w.mem[p]? with
  | none => rw [Add_nil_entry w p hm] at h; simp at h
  | some f =>
    cases ht : tableGet w.cache.table f.Path with
    | some e1 => rw [Add_tracked w p f e1 hm ht] at h; simp at h
    | none =>
      cases hh : w.cache.heap with
      | none => rw [Add_nil_heap w p f hm ht hh] at h; simp at h
      | some hp =>
        cases hx : heapPush w.mem hp p with
        | none => rw [Add_push_panics w p f hp hm ht hh hx] at h; simp at h
        | some r =>
          obtain ⟨m1, h1⟩ := r
          rw [Add_pushed w p f hp h1 m1 hm ht hh hx]
          exact ⟨f, rfl, rfl⟩

theorem Update_error_state (w : World) (p : Nat) (e : CacheError)
    (h : (Update w p).1 = .error e) : (Update w p).2 = w := by
  cases hm : w.mem[p]? with
  | none => rw [Update_nil_entry w p hm]
  | some f =>
    cases ht : tableGet w.cache.table f.Path with
    | none => rw [Update_untracked w p f hm ht]
    | some e1 =>
      cases he : w.mem[e1]? with
      | none => rw [Update_nil_existing w p f e1 hm ht he]
      | some x =>
        cases hh : w.cache.heap with
        | none => rw [Update_nil_heap w p f e1 x hm ht he hh] at h; simp at h
        | some hp =>
          cases hx : heapFix (w.mem.set p { f with index := x.index }) hp x.index with
          | none => rw [Update_fix_panics w p f e1 x hp hm ht he hh hx] at h; simp at h
          | some r =>
            obtain ⟨m2, h2⟩ := r
            rw [Update_fixed w p f e1 x hp h2 m2 hm ht he hh hx] at h; simp at h

theorem Update_ok_table (w : World) (p : Nat) (u : Unit) (h : (Update w p).1 = .ok u) :
    ∃ f, w.mem[p]? = some f ∧
      (Update w p).2.cache.table = tablePut w.cache.table f.Path p := by
  cases hm : w.mem[p]? with
  | none => rw [Update_nil_entry w p hm] at h; simp at h
  | some f =>
    cases ht : tableGet w.cache.table f.Path with
    | none => rw [Update_untracked w p f hm ht] at h; simp at h
    | some e1 =>
      cases he : w.mem[e1]? with
      | none => rw [Update_nil_existing w p f e1 hm ht he] at h; simp at h
      | some x =>
        cases hh : w.cache.heap with
        | none => rw [Update_nil_heap w p f e1 x hm ht he hh] at h; simp at h
        | some hp =>
          cases hx : heapFix (w.mem.set p { f with index := x.index }) hp x.index with
          | none => rw [Update_fix_panics w p f e1 x hp hm ht he hh hx] at h; simp at h
          | some r =>
            obtain ⟨m2, h2⟩ := r
            rw [Update_fixed w p f e1 x hp h2 m2 hm ht he hh hx]
            exact ⟨f, rfl, rfl⟩

theorem Pop_error_state (w : World) (e : CacheError)
    (h : (Pop w).1 = .error e) : (Pop w).2 = w := by
  cases hh : w.cache.heap with
  | none => rw [Pop_nil_heap w hh]
  | some hp =>
    by_cases hne : hp = []
    · subst hne; rw [Pop_empty w hh]
    · cases hx : heapPop w.mem hp with
      | none => rw [Pop_heap_panics w hp hh hne hx]
      | some r =>
        obtain ⟨m1, h1, q⟩ := r
        cases hq : m1[q]? with
        | none => rw [Pop_nil_item w hp h1 m1 q hh hne hx hq] at h; simp at h
        | some f => rw [Pop_popped w hp h1 m1 q f hh hne hx hq] at h; simp at h

theorem Pop_ok_table (w : World) (q : Nat) (h : (Pop w).1 = .ok q) :
    ∃ f, (Pop w).2.mem[q]? = some f ∧
      (Pop w).2.cache.table = tableDelete w.cache.table f.Path := by
  cases hh : w.cache.heap with
  | none => rw [Pop_nil_heap w hh] at h; simp at h
  | some hp =>
    by_cases hne : hp = []
    · subst hne; rw [Pop_empty w hh] at h; simp at h
    · cases hx : heapPop w.mem hp with
      | none => rw [Pop_heap_panics w hp hh hne hx] at h; simp at h
      | some r =>
        obtain ⟨m1, h1, q1⟩ := r
        cases hq : m1[q1]? with
        | none => rw [Pop_nil_item w hp h1 m1 q1 hh hne hx hq] at h; simp at h
        | some f =>
          rw [Pop_popped w hp h1 m1 q1 f hh hne hx hq] at h ⊢
          simp only [Outcome.ok.injEq] at h
          subst h
          exact ⟨f, hq, rfl⟩

/-! ## From `NewCache` the heap pointer stays nil -/

theorem sizeAt_append (m : Mem) (f : FileObject) (q : Nat) (hq : q < m.length) :
    sizeAt (m ++ [f]) q = sizeAt m q := by
  simp [sizeAt, List.getElem?_append_left hq]

theorem sizeAt_set_index (m : Mem) (p : Nat) (f : FileObject) (i : Int) (q : Nat)
    (hm : m[p]? = some f) :
    sizeAt (m.set p { f with index := i }) q = sizeAt m q := by
  unfold sizeAt
  by_cases hpq : p = q
  · subst hpq
    have hlt : p < m.length := by
      rcases Nat.lt_or_ge p m.length with h | h
      · exact h
      · rw [List.getElem?_eq_none h] at hm; simp at hm
    simp [List.getElem?_set_self hlt, hm]
  · simp [List.getElem?_set_ne hpq]

theorem sizeAt_of_get (m : Mem) (p : Nat) (f : FileObject) (hm : m[p]? = some f) :
    sizeAt m p = f.Size := by
  simp [sizeAt, hm]

theorem lt_length_of_get (m : Mem) (p : Nat) (f : FileObject) (hm : m[p]? = some f) :
    p < m.length := by
  rcases Nat.lt_or_ge p m.length with h | h
  · exact h
  · rw [List.getElem?_eq_none h] at hm; simp at hm

theorem sum_sizes_congr (g1 g2 : Nat → Int) (t : List (String × Nat))
    (h : ∀ kp ∈ t, g1 kp.2 = g2 kp.2) :
    (t.map (fun kp => g1 kp.2)).sum = (t.map (fun kp => g2 kp.2)).sum := by
  induction t with
  | nil => rfl
  | cons a t ih =>
    simp only [List.map_cons, List.sum_cons]
    rw [h a (List.mem_cons_self _ _), ih (fun kp hkp => h kp (List.mem_cons_of_mem _ hkp))]

theorem NilInv_new (w : World) (f : FileObject) (h : NilInv w) :
    NilInv { w with mem := w.mem ++ [f] } := by
  obtain ⟨h1, h2, h3⟩ := h
  refine ⟨h1, ?_, ?_⟩
  · intro kp hkp
    have := h2 kp hkp
    simp only [List.length_append, List.length_singleton]
    omega
  · show w.cache.size = wrapInt ((w.cache.table.map (fun kp => sizeAt (w.mem ++ [f]) kp.2)).sum)
    rw [sum_sizes_congr (sizeAt (w.mem ++ [f])) (sizeAt w.mem) w.cache.table
      (fun kp hkp => sizeAt_append w.mem f kp.2 (h2 kp hkp))]
    exact h3

theorem NilInv_Add (w : World) (p : Nat) (h : NilInv w) : NilInv (Add w p).2 := by
  obtain ⟨h1, h2, h3⟩ := h
  cases hm : w.mem[p]? with
  | none => rw [Add_nil_entry w p hm]; exact ⟨h1, h2, h3⟩
  | some f =>
    cases ht : tableGet w.cache.table f.Path with
    | some e1 => rw [Add_tracked w p f e1 hm ht]; exact ⟨h1, h2, h3⟩
    | none =>
      rw [Add_nil_heap w p f hm ht h1]
      refine ⟨h1, ?_, ?_⟩
      · intro kp hkp
        rcases mem_tablePut _ _ _ _ hkp with hk | hk
        · exact h2 kp hk
        · rw [hk]; exact lt_length_of_get w.mem p f hm
      · show wrapInt (w.cache.size + f.Size)
          = wrapInt (((tablePut w.cache.table f.Path p).map (fun kp => sizeAt w.mem kp.2)).sum)
        rw [tablePut_of_get_none _ _ _ ht, h3]
        simp only [List.map_append, List.sum_append, List.map_cons, List.map_nil,
          List.sum_cons, List.sum_nil, add_zero, sizeAt_of_get w.mem p f hm]
        exact wrapInt_wrapInt_add _ _

theorem NilInv_Update (w : World) (p : Nat) (h : NilInv w) : NilInv (Update w p).2 := by
  obtain ⟨h1, h2, h3⟩ := h
  cases hm : w.mem[p]? with
  | none => rw [Update_nil_entry w p hm]; exact ⟨h1, h2, h3⟩
  | some f =>
    cases ht : tableGet w.cache.table f.Path with
    | none => rw [Update_untracked w p f hm ht]; exact ⟨h1, h2, h3⟩
    | some e1 =>
      cases he : w.mem[e1]? with
      | none => rw [Update_nil_existing w p f e1 hm ht he]; exact ⟨h1, h2, h3⟩
      | some x =>
        rw [Update_nil_heap w p f e1 x hm ht he h1]
        refine ⟨h1, ?_, ?_⟩
        · intro kp hkp
          simp only [List.length_set]
          rcases mem_tablePut _ _ _ _ hkp with hk | hk
          · exact h2 kp hk
          · rw [hk]; exact lt_length_of_get w.mem p f hm
        · show wrapInt (wrapInt (w.cache.size - x.Size) + f.Size)
            = wrapInt (((tablePut w.cache.table f.Path p).map
                (fun kp => sizeAt (w.mem.set p { f with index := x.index }) kp.2)).sum)
          rw [sum_sizes_congr (sizeAt (w.mem.set p { f with index := x.index })) (sizeAt w.mem)
            _ (fun kp _ => sizeAt_set_index w.mem p f x.index kp.2 hm)]
          rw [sum_tablePut (sizeAt w.mem) _ _ _ _ ht, h3, sizeAt_of_get w.mem p f hm,
            sizeAt_of_get w.mem e1 x he, wrapInt_wrapInt_sub, wrapInt_wrapInt_add]
          rfl

theorem NilInv_exec (w : World) (c : Call) (h : NilInv w) : NilInv (exec w c).2 := by
  cases c with
  | new f => exact NilInv_new w f h
  | add p => exact NilInv_Add w p h
  | update p => exact NilInv_Update w p h
  | pop => show NilInv (Pop w).2; rw [Pop_nil_heap w h.1]; exact h

theorem NilInv_run (cs : List Call) (w : World) (h : NilInv w) : NilInv (run w cs) := by
  induction cs generalizing w with
  | nil => exact h
  | cons c cs ih => exact ih _ (NilInv_exec w c h)

theorem NilInv_newWorld : NilInv newWorld := by
  refine ⟨rfl, ?_, ?_⟩
  · intro kp hkp; simp [newWorld, NewCache] at hkp
  · simp [newWorld, NewCache, tableSizeSum, wrapInt_zero]

/-! ## The table follows the successful calls -/

theorem pathAt_of_get (m : Mem) (p : Nat) (f : FileObject) (hm : m[p]? = some f) :
    pathAt m p = some f.Path := by
  simp [pathAt, hm]

theorem tableGet_exec_eq (w : World) (c : Call) (g : String → Option Nat)
    (hg : ∀ k, tableGet w.cache.table k = g k) (hnp : (exec w c).1 ≠ .panic) (k : String) :
    tableGet (exec w c).2.cache.table k =
      (match c, (exec w c).1 with
       | .add p, .ok _ => fun k => if pathAt w.mem p = some k then some p else g k
       | .update p, .ok _ => fun k => if pathAt w.mem p = some k then some p else g k
       | .pop, .ok (some q) => fun k => if pathAt (exec w c).2.mem q = some k then none else g k
       | _, _ => g) k := by
  cases c with
  | new f => simp [exec, hg]
  | add p =>
    cases ho : (Add w p).1 with
    | panic => simp [exec, ho, Outcome.map] at hnp
    | error e =>
      have hs := Add_error_state w p e ho
      simp [exec, ho, Outcome.map, hs, hg]
    | ok u =>
      obtain ⟨f, hm, ht⟩ := Add_ok_table w p u ho
      simp [exec, ho, Outcome.map, ht, tableGet_tablePut, pathAt_of_get w.mem p f hm, hg]
  | update p =>
    cases ho : (Update w p).1 with
    | panic => simp [exec, ho, Outcome.map] at hnp
    | error e =>
      have hs := Update_error_state w p e ho
      simp [exec, ho, Outcome.map, hs, hg]
    | ok u =>
      obtain ⟨f, hm, ht⟩ := Update_ok_table w p u ho
      simp [exec, ho, Outcome.map, ht, tableGet_tablePut, pathAt_of_get w.mem p f hm, hg]
  | pop =>
    cases ho : (Pop w).1 with
    | panic => simp [exec, ho, Outcome.map] at hnp
    | error e =>
      have hs := Pop_error_state w e ho
      simp [exec, ho, Outcome.map, hs, hg]
    | ok q =>
      obtain ⟨f, hm, ht⟩ := Pop_ok_table w q ho
      simp [exec, ho, Outcome.map, ht, tableGet_tableDelete, pathAt_of_get _ q f hm, hg]

theorem tableGet_run_eq_lastPassed (cs : List Call) (w : World) (g : String → Option Nat)
    (hg : ∀ k, tableGet w.cache.table k = g k)
    (hnp : ∀ o ∈ outcomes w cs, o ≠ .panic) (k : String) :
    tableGet (run w cs).cache.table k = lastPassed w cs g k := by
  induction cs generalizing w g with
  | nil => exact hg k
  | cons c cs ih =>
    have h1 : (exec w c).1 ≠ .panic := hnp _ (by simp [outcomes])
    have h2 : ∀ o ∈ outcomes (exec w c).2 cs, o ≠ .panic :=
      fun o ho => hnp o (by simp [outcomes, ho])
    exact ih (exec w c).2 _ (fun k1 => tableGet_exec_eq w c g hg h1 k1) h2

/-! ## The heap operations on a heap of allocated entries -/

theorem get_of_lt {α : Type} (l : List α) (i : Nat) (hi : i < l.length) :
    ∃ a, l[i]? = some a := ⟨l[i], List.getElem?_eq_getElem hi⟩

theorem setIndex_some (m : Mem) (p : Nat) (i : Int) (hp : p < m.length) :
    ∃ m1, setIndex m p i = some m1 := by
  obtain ⟨f, hf⟩ := get_of_lt m p hp
  simp only [setIndex, hf]
  exact ⟨_, rfl⟩

theorem setIndex_length (m m1 : Mem) (p : Nat) (i : Int) (h : setIndex m p i = some m1) :
    m1.length = m.length := by
  unfold setIndex at h
  cases hm : m[p]? with
  | none => simp [hm] at h
  | some f => simp [hm] at h; subst h; simp

theorem heapSwap_spec (m m2 : Mem) (h h2 : List Nat) (i j : Nat)
    (hs : heapSwap m h i j = some (m2, h2)) :
    h2.length = h.length ∧ m2.length = m.length ∧ (∀ q ∈ h2, q ∈ h) := by
  unfold heapSwap at hs
  cases hi : h[i]? with
  | none => simp [hi] at hs
  | some p =>
    cases hj : h[j]? with
    | none => simp [hi, hj] at hs
    | some q =>
      cases h1 : setIndex m q i with
      | none => simp [hi, hj, h1] at hs
      | some m1 =>
        cases h2e : setIndex m1 p j with
        | none => simp [hi, hj, h1, h2e] at hs
        | some m3 =>
          simp [hi, hj, h1, h2e] at hs
          obtain ⟨hm, hh⟩ := hs
          subst hm; subst hh
          refine ⟨by simp, ?_, ?_⟩
          · rw [setIndex_length _ _ _ _ h2e, setIndex_length _ _ _ _ h1]
          · intro x hx
            rcases List.mem_or_eq_of_mem_set hx with hx1 | hx1
            · rcases List.mem_or_eq_of_mem_set hx1 with hx2 | hx2
              · exact hx2
              · rw [hx2]; exact List.getElem?_mem hj
            · rw [hx1]; exact List.getElem?_mem hi

theorem heapSwap_some (m : Mem) (h : List Nat) (i j : Nat) (hok : PtrsOK m h)
    (hi : i < h.length) (hj : j < h.length) : ∃ r, heapSwap m h i j = some r := by
  obtain ⟨p, hp⟩ := get_of_lt h i hi
  obtain ⟨q, hq⟩ := get_of_lt h j hj
  obtain ⟨m1, e1⟩ := setIndex_some m q i (hok _ (List.getElem?_mem hq))
  obtain ⟨m2, e2⟩ := setIndex_some m1 p j
    (by rw [setIndex_length _ _ _ _ e1]; exact hok _ (List.getElem?_mem hp))
  simp only [heapSwap, hp, hq, e1, e2]
  exact ⟨_, rfl⟩

theorem heapLess_some (m : Mem) (h : List Nat) (i j : Nat) (hok : PtrsOK m h)
    (hi : i < h.length) (hj : j < h.length) : ∃ b, heapLess m h i j = some b := by
  obtain ⟨p, hp⟩ := get_of_lt h i hi
  obtain ⟨q, hq⟩ := get_of_lt h j hj
  obtain ⟨a, ha⟩ := get_of_lt m p (hok _ (List.getElem?_mem hp))
  obtain ⟨b, hb⟩ := get_of_lt m q (hok _ (List.getElem?_mem hq))
  simp only [heapLess, hp, hq, ha, hb]
  exact ⟨_, rfl⟩

theorem PtrsOK_swap (m m2 : Mem) (h h2 : List Nat) (i j : Nat) (hok : PtrsOK m h)
    (hs : heapSwap m h i j = some (m2, h2)) : PtrsOK m2 h2 := by
  obtain ⟨_, hm, hsub⟩ := heapSwap_spec m m2 h h2 i j hs
  intro q hq
  rw [hm]
  exact hok q (hsub q hq)

theorem upLoop_spec (fuel : Nat) (m m2 : Mem) (h h2 : List Nat) (j : Nat)
    (hs : upLoop fuel m h j = some (m2, h2)) :
    h2.length = h.length ∧ m2.length = m.length ∧ (∀ q ∈ h2, q ∈ h) := by
  induction fuel generalizing m h j with
  | zero =>
    simp [upLoop] at hs
    obtain ⟨hm, hh⟩ := hs
    subst hm; subst hh
    exact ⟨rfl, rfl, fun q hq => hq⟩
  | succ fuel ih =>
    unfold upLoop at hs
    simp only at hs
    by_cases hij : (j - 1) / 2 = j
    · simp [hij] at hs
      obtain ⟨hm, hh⟩ := hs
      subst hm; subst hh
      exact ⟨rfl, rfl, fun q hq => hq⟩
    · simp only [hij, if_false] at hs
      cases hl : heapLess m h j ((j - 1) / 2) with
      | none => simp [hl] at hs
      | some b =>
        cases b with
        | false =>
          simp [hl] at hs
          obtain ⟨hm, hh⟩ := hs
          subst hm; subst hh
          exact ⟨rfl, rfl, fun q hq => hq⟩
        | true =>
          cases hw : heapSwap m h ((j - 1) / 2) j with
          | none => simp [hl, hw] at hs
          | some r =>
            obtain ⟨m1, h1⟩ := r
            simp only [hl, hw] at hs
            obtain ⟨a1, a2, a3⟩ := heapSwap_spec m m1 h h1 _ _ hw
            obtain ⟨b1, b2, b3⟩ := ih m1 h1 _ hs
            exact ⟨b1.trans a1, b2.trans a2, fun q hq => a3 q (b3 q hq)⟩

theorem upLoop_some (fuel : Nat) (m : Mem) (h : List Nat) (j : Nat) (hok : PtrsOK m h)
    (hj : j < h.length) : ∃ r, upLoop fuel m h j = some r := by
  induction fuel generalizing m h j with
  | zero => exact ⟨_, rfl⟩
  | succ fuel ih =>
    unfold upLoop
    simp only
    by_cases hij : (j - 1) / 2 = j
    · simp [hij]
    · simp only [hij, if_false]
      have hi : (j - 1) / 2 < h.length := by omega
      obtain ⟨b, hb⟩ := heapLess_some m h j _ hok hj hi
      cases b with
      | false => simp [hb]
      | true =>
        obtain ⟨r, hr⟩ := heapSwap_some m h _ j hok hi hj
        obtain ⟨m1, h1⟩ := r
        simp only [hb, hr]
        have hl := (heapSwap_spec m m1 h h1 _ _ hr).1
        exact ih m1 h1 _ (PtrsOK_swap m m1 h h1 _ _ hok hr) (by rw [hl]; exact hi)

theorem downLoop_spec (fuel : Nat) (m m2 : Mem) (h h2 : List Nat) (i n i2 : Nat)
    (hs : downLoop fuel m h i n = some (m2, h2, i2)) :
    h2.length = h.length ∧ m2.length = m.length ∧ (∀ q ∈ h2, q ∈ h) := by
  induction fuel generalizing m h i with
  | zero =>
    simp [downLoop] at hs
    obtain ⟨hm, hh, _⟩ := hs
    subst hm; subst hh
    exact ⟨rfl, rfl, fun q hq => hq⟩
  | succ fuel ih =>
    unfold downLoop at hs
    simp only at hs
    by_cases hn : n ≤ 2 * i + 1
    · simp [hn] at hs
      obtain ⟨hm, hh, _⟩ := hs
      subst hm; subst hh
      exact ⟨rfl, rfl, fun q hq => hq⟩
    · simp only [hn, if_false] at hs
      cases hl1 : (if 2 * i + 1 + 1 < n then heapLess m h (2 * i + 1 + 1) (2 * i + 1)
          else some false) with
      | none => simp [hl1] at hs
      | some b =>
        simp only [hl1] at hs
        cases hl : heapLess m h (if b = true then 2 * i + 1 + 1 else 2 * i + 1) i with
        | none => simp [hl] at hs
        | some b2 =>
          cases b2 with
          | false =>
            simp [hl] at hs
            obtain ⟨hm, hh, _⟩ := hs
            subst hm; subst hh
            exact ⟨rfl, rfl, fun q hq => hq⟩
          | true =>
            cases hw : heapSwap m h i (if b = true then 2 * i + 1 + 1 else 2 * i + 1) with
            | none => simp [hl, hw] at hs
            | some r =>
              obtain ⟨m1, h1⟩ := r
              simp only [hl, hw] at hs
              obtain ⟨a1, a2, a3⟩ := heapSwap_spec m m1 h h1 _ _ hw
              obtain ⟨b1, b2, b3⟩ := ih m1 h1 _ hs
              exact ⟨b1.trans a1, b2.trans a2, fun q hq => a3 q (b3 q hq)⟩

theorem downLoop_some (fuel : Nat) (m : Mem) (h : List Nat) (i n : Nat) (hok : PtrsOK m h)
    (hn : n ≤ h.length) : ∃ r, downLoop fuel m h i n = some r := by
  induction fuel generalizing m h i with
  | zero => exact ⟨_, rfl⟩
  | succ fuel ih =>
    unfold downLoop
    simp only
    by_cases hn1 : n ≤ 2 * i + 1
    · simp [hn1]
    · simp only [hn1, if_false]
      have hj1 : 2 * i + 1 < h.length := by omega
      have hi : i < h.length := by omega
      have hb : ∃ b, (if 2 * i + 1 + 1 < n then heapLess m h (2 * i + 1 + 1) (2 * i + 1)
          else some false) = some b := by
        by_cases h2 : 2 * i + 1 + 1 < n
        · simp only [h2, if_true]
          exact heapLess_some m h _ _ hok (by omega) hj1
        · simp [h2]
      obtain ⟨b, hb⟩ := hb
      simp only [hb]
      have hj : (if b = true then 2 * i + 1 + 1 else 2 * i + 1) < h.length := by
        cases b with
        | false => simpa using hj1
        | true =>
          by_cases h2 : 2 * i + 1 + 1 < n
          · simp; omega
          · simp [h2] at hb
      obtain ⟨b2, hb2⟩ := heapLess_some m h _ i hok hj hi
      cases b2 with
      | false => simp [hb2]
      | true =>
        obtain ⟨r, hr⟩ := heapSwap_some m h i _ hok hi hj
        obtain ⟨m1, h1⟩ := r
        simp only [hb2, hr]
        have hl := (heapSwap_spec m m1 h h1 _ _ hr).1
        exact ih m1 h1 _ (PtrsOK_swap m m1 h h1 _ _ hok hr) (by rw [hl]; exact hn)

theorem down_spec (m m2 : Mem) (h h2 : List Nat) (i n : Nat) (b : Bool)
    (hs : down m h i n = some (m2, h2, b)) :
    h2.length = h.length ∧ m2.length = m.length ∧ (∀ q ∈ h2, q ∈ h) := by
  unfold down at hs
  cases hd : downLoop n m h i n with
  | none => simp [hd] at hs
  | some r =>
    obtain ⟨m1, h1, i1⟩ := r
    simp [hd] at hs
    obtain ⟨e1, e2, _⟩ := hs
    subst e1; subst e2
    exact downLoop_spec n m m1 h h1 i n i1 hd

theorem down_some (m : Mem) (h : List Nat) (i n : Nat) (hok : PtrsOK m h)
    (hn : n ≤ h.length) : ∃ r, down m h i n = some r := by
  obtain ⟨r, hr⟩ := downLoop_some n m h i n hok hn
  obtain ⟨m1, h1, i1⟩ := r
  simp only [down, hr]
  exact ⟨_, rfl⟩

theorem heapPop_spec (m m2 : Mem) (h h2 : List Nat) (p : Nat)
    (hs : heapPop m h = some (m2, h2, p)) :
    h2.length + 1 = h.length ∧ m2.length = m.length ∧ (∀ q ∈ h2, q ∈ h) ∧ p ∈ h := by
  cases h with
  | nil => simp [heapPop] at hs
  | cons a t =>
    unfold heapPop at hs
    simp only at hs
    cases hw : heapSwap m (a :: t) 0 t.length with
    | none => simp [hw] at hs
    | some r =>
      obtain ⟨m1, h1⟩ := r
      simp only [hw] at hs
      cases hd : down m1 h1 0 t.length with
      | none => simp [hd] at hs
      | some r2 =>
        obtain ⟨m3, h3, b⟩ := r2
        simp only [hd] at hs
        cases hg : h3[t.length]? with
        | none => simp [hg] at hs
        | some x =>
          simp [hg] at hs
          obtain ⟨e1, e2, e3⟩ := hs
          subst e1; subst e2; subst e3
          obtain ⟨a1, a2, a3⟩ := heapSwap_spec m m1 (a :: t) h1 _ _ hw
          obtain ⟨b1, b2, b3⟩ := down_spec m1 m3 h1 h3 0 t.length b hd
          refine ⟨?_, b2.trans a2, ?_, ?_⟩
          · simp only [List.length_take, List.length_cons]
            rw [b1, a1]; simp
          · intro q hq
            exact a3 q (b3 q (List.mem_of_mem_take hq))
          · exact a3 x (b3 x (List.getElem?_mem hg))

theorem heapPop_some (m : Mem) (h : List Nat) (hok : PtrsOK m h) (hne : h ≠ []) :
    ∃ r, heapPop m h = some r := by
  cases h with
  | nil => exact absurd rfl hne
  | cons a t =>
    unfold heapPop
    simp only
    obtain ⟨r, hr⟩ := heapSwap_some m (a :: t) 0 t.length hok (by simp) (by simp)
    obtain ⟨m1, h1⟩ := r
    simp only [hr]
    obtain ⟨a1, _, _⟩ := heapSwap_spec m m1 (a :: t) h1 _ _ hr
    have hok1 := PtrsOK_swap m m1 (a :: t) h1 _ _ hok hr
    obtain ⟨r2, hr2⟩ := down_some m1 h1 0 t.length hok1 (by rw [a1]; simp)
    obtain ⟨m3, h3, b⟩ := r2
    simp only [hr2]
    obtain ⟨b1, _, _⟩ := down_spec m1 m3 h1 h3 0 t.length b hr2
    obtain ⟨x, hx⟩ := get_of_lt h3 t.length (by rw [b1, a1]; simp)
    simp only [hx]
    exact ⟨_, rfl⟩

theorem heapPush_spec (m m2 : Mem) (h h2 : List Nat) (p : Nat)
    (hs : heapPush m h p = some (m2, h2)) :
    h2.length = h.length + 1 ∧ m2.length = m.length ∧ (∀ q ∈ h2, q ∈ h ∨ q = p) := by
  unfold heapPush at hs
  cases hi : setIndex m p h.length with
  | none => simp [hi] at hs
  | some m1 =>
    simp only [hi] at hs
    obtain ⟨a1, a2, a3⟩ := upLoop_spec _ m1 m2 (h ++ [p]) h2 _ hs
    refine ⟨by rw [a1]; simp, a2.trans (setIndex_length _ _ _ _ hi), ?_⟩
    intro q hq
    have := a3 q hq
    simpa using this

theorem heapPush_some (m : Mem) (h : List Nat) (p : Nat) (hok : PtrsOK m h)
    (hp : p < m.length) : ∃ r, heapPush m h p = some r := by
  obtain ⟨m1, h1⟩ := setIndex_some m p h.length hp
  simp only [heapPush, h1]
  have hl := setIndex_length _ _ _ _ h1
  refine upLoop_some _ m1 (h ++ [p]) h.length ?_ (by simp)
  intro q hq
  rw [hl]
  rcases List.mem_append.mp hq with hq1 | hq1
  · exact hok q hq1
  · simp at hq1; rw [hq1]; exact hp

theorem heapFix_spec (m m2 : Mem) (h h2 : List Nat) (i : Int)
    (hs : heapFix m h i = some (m2, h2)) :
    h2.length = h.length ∧ m2.length = m.length ∧ (∀ q ∈ h2, q ∈ h) := by
  unfold heapFix at hs
  by_cases hneg : i < 0
  · by_cases h1 : i = -1
    · simp [hneg, h1] at hs
      obtain ⟨e1, e2⟩ := hs
      subst e1; subst e2
      exact ⟨rfl, rfl, fun q hq => hq⟩
    · simp [hneg, h1] at hs
  · simp only [hneg, if_false] at hs
    cases hd : down m h i.toNat h.length with
    | none => simp [hd] at hs
    | some r =>
      obtain ⟨m1, h1, b⟩ := r
      obtain ⟨a1, a2, a3⟩ := down_spec m m1 h h1 _ _ b hd
      cases b with
      | true =>
        simp [hd] at hs
        obtain ⟨e1, e2⟩ := hs
        subst e1; subst e2
        exact ⟨a1, a2, a3⟩
      | false =>
        simp only [hd] at hs
        obtain ⟨b1, b2, b3⟩ := upLoop_spec _ m1 m2 h1 h2 _ hs
        exact ⟨b1.trans a1, b2.trans a2, fun q hq => a3 q (b3 q hq)⟩

/-! ## The iteration bounds of `up` and `down` are never reached -/

theorem upLoop_fuel (j : Nat) : ∀ (f : Nat) (m : Mem) (h : List Nat), j + 1 ≤ f →
    upLoop f m h j = upLoop (j + 1) m h j := by
  induction j using Nat.strong_induction_on with
  | _ j ih =>
    intro f m h hf
    cases f with
    | zero => omega
    | succ f =>
      simp only [upLoop]
      by_cases hij : (j - 1) / 2 = j
      · simp [hij]
      · simp only [hij, if_false]
        cases heapLess m h j ((j - 1) / 2) with
        | none => rfl
        | some b =>
          cases b with
          | false => rfl
          | true =>
            cases heapSwap m h ((j - 1) / 2) j with
            | none => rfl
            | some r =>
              obtain ⟨m1, h1⟩ := r
              have hlt : (j - 1) / 2 < j := by omega
              simp only
              rw [ih _ hlt f m1 h1 (by omega), ih _ hlt j m1 h1 (by omega)]

theorem downLoop_fuel_aux (k : Nat) : ∀ (i n f : Nat) (m : Mem) (h : List Nat),
    n - i = k → n - i ≤ f → downLoop f m h i n = downLoop (n - i) m h i n := by
  induction k using Nat.strong_induction_on with
  | _ k ih =>
    intro i n f m h hk hf
    by_cases hn : n ≤ 2 * i + 1
    · have e1 : ∀ g : Nat, downLoop g m h i n = some (m, h, i) := by
        intro g
        cases g with
        | zero => rfl
        | succ g => simp [downLoop, hn]
      rw [e1 f, e1 (n - i)]
    · obtain ⟨f1, hf1⟩ : ∃ f1, f = f1 + 1 := ⟨f - 1, by omega⟩
      obtain ⟨g1, hg1⟩ : ∃ g1, n - i = g1 + 1 := ⟨n - i - 1, by omega⟩
      rw [hf1, hg1]
      simp only [downLoop, hn, if_false]
      cases (if 2 * i + 1 + 1 < n then heapLess m h (2 * i + 1 + 1) (2 * i + 1)
          else some false) with
      | none => rfl
      | some b =>
        simp only
        have hj : i < (if b = true then 2 * i + 1 + 1 else 2 * i + 1) := by
          cases b <;> simp <;> omega
        have hj2 : (if b = true then 2 * i + 1 + 1 else 2 * i + 1) ≤ 2 * i + 2 := by
          cases b <;> simp
        cases heapLess m h (if b = true then 2 * i + 1 + 1 else 2 * i + 1) i with
        | none => rfl
        | some b2 =>
          cases b2 with
          | false => rfl
          | true =>
            cases heapSwap m h i (if b = true then 2 * i + 1 + 1 else 2 * i + 1) with
            | none => rfl
            | some r =>
              obtain ⟨m1, h1⟩ := r
              simp only
              rw [ih (n - (if b = true then 2 * i + 1 + 1 else 2 * i + 1)) (by omega) _ n f1 m1 h1
                    rfl (by omega),
                  ih (n - (if b = true then 2 * i + 1 + 1 else 2 * i + 1)) (by omega) _ n g1 m1 h1
                    rfl (by omega)]

theorem downLoop_fuel (i n f : Nat) (m : Mem) (h : List Nat) (hf : n ≤ f) :
    downLoop f m h i n = downLoop n m h i n := by
  rw [downLoop_fuel_aux (n - i) i n f m h rfl (by omega),
    downLoop_fuel_aux (n - i) i n n m h rfl (by omega)]

/-! ## A cache with a heap -/

theorem HeapOK_new (w : World) (f : FileObject) (h : HeapOK w) :
    HeapOK { w with mem := w.mem ++ [f] } := by
  obtain ⟨hp, h1, h2⟩ := h
  refine ⟨hp, h1, fun q hq => ?_⟩
  have := h2 q hq
  simp only [List.length_append, List.length_singleton]
  omega

theorem Add_of_HeapOK (w : World) (p : Nat) (f : FileObject) (hp : List Nat)
    (hm : w.mem[p]? = some f) (ht : tableGet w.cache.table f.Path = none)
    (hh : w.cache.heap = some hp) (hok : PtrsOK w.mem hp) :
    ∃ m1 h1, Add w p = (.ok (), { mem := m1, cache :=
        { size := wrapInt (w.cache.size + f.Size), heap := some h1,
          table := tablePut w.cache.table f.Path p } })
      ∧ h1.length = hp.length + 1 ∧ m1.length = w.mem.length ∧ PtrsOK m1 h1 := by
  obtain ⟨r, hr⟩ := heapPush_some w.mem hp p hok (lt_length_of_get w.mem p f hm)
  obtain ⟨m1, h1⟩ := r
  obtain ⟨a1, a2, a3⟩ := heapPush_spec w.mem m1 hp h1 p hr
  refine ⟨m1, h1, Add_pushed w p f hp h1 m1 hm ht hh hr, a1, a2, ?_⟩
  intro q hq
  rw [a2]
  rcases a3 q hq with h3 | h3
  · exact hok q h3
  · rw [h3]; exact lt_length_of_get w.mem p f hm

theorem HeapOK_Add (w : World) (p : Nat) (h : HeapOK w) : HeapOK (Add w p).2 := by
  obtain ⟨hp, h1, h2⟩ := h
  cases hm : w.mem[p]? with
  | none => rw [Add_nil_entry w p hm]; exact ⟨hp, h1, h2⟩
  | some f =>
    cases ht : tableGet w.cache.table f.Path with
    | some e1 => rw [Add_tracked w p f e1 hm ht]; exact ⟨hp, h1, h2⟩
    | none =>
      obtain ⟨m1, h3, e, _, _, hok⟩ := Add_of_HeapOK w p f hp hm ht h1 h2
      rw [e]
      exact ⟨h3, rfl, hok⟩

theorem HeapOK_Update (w : World) (p : Nat) (h : HeapOK w) : HeapOK (Update w p).2 := by
  obtain ⟨hp, h1, h2⟩ := h
  cases hm : w.mem[p]? with
  | none => rw [Update_nil_entry w p hm]; exact ⟨hp, h1, h2⟩
  | some f =>
    cases ht : tableGet w.cache.table f.Path with
    | none => rw [Update_untracked w p f hm ht]; exact ⟨hp, h1, h2⟩
    | some e1 =>
      cases he : w.mem[e1]? with
      | none => rw [Update_nil_existing w p f e1 hm ht he]; exact ⟨hp, h1, h2⟩
      | some x =>
        have hok1 : PtrsOK (w.mem.set p { f with index := x.index }) hp := by
          intro q hq
          simp only [List.length_set]
          exact h2 q hq
        cases hx : heapFix (w.mem.set p { f with index := x.index }) hp x.index with
        | none =>
          rw [Update_fix_panics w p f e1 x hp hm ht he h1 hx]
          exact ⟨hp, h1, hok1⟩
        | some r =>
          obtain ⟨m2, hp2⟩ := r
          rw [Update_fixed w p f e1 x hp hp2 m2 hm ht he h1 hx]
          obtain ⟨_, a2, a3⟩ := heapFix_spec _ m2 hp hp2 _ hx
          refine ⟨hp2, rfl, fun q hq => ?_⟩
          show q < m2.length
          rw [a2]
          exact hok1 q (a3 q hq)

theorem Pop_of_HeapOK (w : World) (hp : List Nat) (hh : w.cache.heap = some hp)
    (hok : PtrsOK w.mem hp) (hne : hp ≠ []) :
    ∃ m1 h1 q f, Pop w = (.ok q, { mem := m1, cache :=
        { size := wrapInt (w.cache.size - f.Size), heap := some h1,
          table := tableDelete w.cache.table f.Path } })
      ∧ m1[q]? = some f ∧ h1.length + 1 = hp.length ∧ PtrsOK m1 h1 := by
  obtain ⟨r, hr⟩ := heapPop_some w.mem hp hok hne
  obtain ⟨m1, h1, q⟩ := r
  obtain ⟨a1, a2, a3, a4⟩ := heapPop_spec w.mem m1 hp h1 q hr
  obtain ⟨f, hf⟩ := get_of_lt m1 q (by rw [a2]; exact hok q a4)
  refine ⟨m1, h1, q, f, Pop_popped w hp h1 m1 q f hh hne hr hf, hf, a1, ?_⟩
  intro x hx
  rw [a2]
  exact hok x (a3 x hx)

theorem HeapOK_Pop (w : World) (h : HeapOK w) : HeapOK (Pop w).2 := by
  obtain ⟨hp, h1, h2⟩ := h
  by_cases hne : hp = []
  · subst hne; rw [Pop_empty w h1]; exact ⟨[], h1, h2⟩
  · obtain ⟨m1, h3, q, f, e, _, _, hok⟩ := Pop_of_HeapOK w hp h1 h2 hne
    rw [e]
    exact ⟨h3, rfl, hok⟩

theorem HeapOK_exec (w : World) (c : Call) (h : HeapOK w) : HeapOK (exec w c).2 := by
  cases c with
  | new f => exact HeapOK_new w f h
  | add p => exact HeapOK_Add w p h
  | update p => exact HeapOK_Update w p h
  | pop => exact HeapOK_Pop w h

theorem HeapOK_run (cs : List Call) (w : World) (h : HeapOK w) : HeapOK (run w cs) := by
  induction cs generalizing w with
  | nil => exact h
  | cons c cs ih => exact ih _ (HeapOK_exec w c h)

theorem HeapOK_heapWorld : HeapOK heapWorld :=
  ⟨[], rfl, fun q hq => by simp at hq⟩

/-- On a cache with a heap, adding entries with pairwise distinct paths, none
of them tracked before, succeeds every time, and raises the count by their
number and the size by the sum of their sizes. -/
theorem addEntries_of_HeapOK (fs : List FileObject) : ∀ (w : World) (hp : List Nat),
    w.cache.heap = some hp → PtrsOK w.mem hp → wrapInt w.cache.size = w.cache.size →
    (∀ f ∈ fs, tableGet w.cache.table f.Path = none) → (fs.map FileObject.Path).Nodup →
    (addEntries w fs).1 = List.replicate fs.length (.ok ())
      ∧ Count (addEntries w fs).2 = .ok ((hp.length + fs.length : Nat) : Int)
      ∧ Size (addEntries w fs).2 = wrapInt (w.cache.size + (fs.map FileObject.Size).sum) := by
  induction fs with
  | nil =>
    intro w hp hh _ hsz _ _
    refine ⟨rfl, by simp [addEntries, Count, hh], ?_⟩
    simp [addEntries, Size, hsz]
  | cons f fs ih =>
    intro w hp hh hok _ hnt hnd
    have hm : ({ w with mem := w.mem ++ [f] } : World).mem[w.mem.length]? = some f := by
      simp
    have hok1 : PtrsOK (w.mem ++ [f]) hp := by
      intro q hq
      have := hok q hq
      simp only [List.length_append, List.length_singleton]
      omega
    obtain ⟨m1, h1, e, a1, a2, a3⟩ := Add_of_HeapOK { w with mem := w.mem ++ [f] } w.mem.length f
      hp hm (hnt f (List.mem_cons_self _ _)) hh hok1
    simp only [List.map_cons, List.nodup_cons] at hnd
    have hnt1 : ∀ g ∈ fs, tableGet (tablePut w.cache.table f.Path w.mem.length) g.Path = none := by
      intro g hg
      rw [tableGet_tablePut]
      have hne : ¬ f.Path = g.Path := fun hfg => hnd.1 (by rw [hfg]; exact List.mem_map_of_mem _ hg)
      simp only [hne, if_false]
      exact hnt g (List.mem_cons_of_mem _ hg)
    have ih1 := ih { mem := m1, cache :=
        { size := wrapInt (w.cache.size + f.Size), heap := some h1,
          table := tablePut w.cache.table f.Path w.mem.length } } h1 rfl a3
        (wrapInt_idem _) hnt1 hnd.2
    simp only [addEntries, e]
    obtain ⟨i1, i2, i3⟩ := ih1
    refine ⟨by rw [i1]; rfl, ?_, ?_⟩
    · rw [i2, a1]; simp only [List.length_cons]; congr 2; omega
    · rw [i3]
      simp only [List.map_cons, List.sum_cons]
      rw [wrapInt_wrapInt_add]
      congr 1; omega

/-- On a cache like the one `NewCache` returns but with a heap, adding entries
with pairwise distinct paths succeeds every time; afterwards `Count()` is their
number and `Size()` the sum of their sizes. -/
theorem addEntries_heapWorld (fs : List FileObject) (hnd : (fs.map FileObject.Path).Nodup) :
    (addEntries heapWorld fs).1 = List.replicate fs.length (.ok ())
      ∧ Count (addEntries heapWorld fs).2 = .ok (fs.length : Int)
      ∧ Size (addEntries heapWorld fs).2 = wrapInt ((fs.map FileObject.Size).sum) := by
  have h := addEntries_of_HeapOK fs heapWorld [] rfl (fun q hq => by simp at hq)
    (by decide) (fun f _ => rfl) hnd
  simpa [heapWorld, NewCache] using h

/-! ## The prune loop ends -/

theorem heapLen_of (w : World) (hp : List Nat) (hh : w.cache.heap = some hp) :
    heapLen w = hp.length := by
  simp [heapLen, hh]

theorem underQuota_nil (w : World) (maxSize : Int) (hh : w.cache.heap = none) :
    underQuota w maxSize = .panic := by
  simp [underQuota, Count, hh]

theorem underQuota_empty (w : World) (maxSize : Int) (hh : w.cache.heap = some []) :
    underQuota w maxSize = .ok true := by
  simp [underQuota, Count, hh]

theorem underQuota_under (w : World) (maxSize : Int) (hp : List Nat)
    (hh : w.cache.heap = some hp) (hs : Size w ≤ maxSize) :
    underQuota w maxSize = .ok true := by
  simp [underQuota, Count, hh, hs]

theorem underQuota_over (w : World) (maxSize : Int) (hp : List Nat)
    (hh : w.cache.heap = some hp) (hne : hp ≠ []) (hs : ¬ Size w ≤ maxSize) :
    underQuota w maxSize = .ok false := by
  simp [underQuota, Count, hh, hs, hne]

theorem prunePass_of_Pop_panic {D : Type} (remove : D → String → Bool × D) (dryRun : Bool)
    (w w1 : World) (d : D) (h : Pop w = (.panic, w1)) :
    prunePass remove dryRun w d = (.panic, w1, d) := by
  simp [prunePass, h]

theorem prunePass_dry {D : Type} (remove : D → String → Bool × D)
    (w w1 : World) (d : D) (q : Nat) (f : FileObject) (h : Pop w = (.ok q, w1))
    (hq : w1.mem[q]? = some f) :
    prunePass remove true w d = (.ok (), w1, d) := by
  simp [prunePass, h, hq]

theorem prunePass_removed {D : Type} (remove : D → String → Bool × D)
    (w w1 : World) (d d1 : D) (q : Nat) (f : FileObject) (h : Pop w = (.ok q, w1))
    (hq : w1.mem[q]? = some f) (hr : remove d f.Path = (false, d1)) :
    prunePass remove false w d = (.ok (), w1, d1) := by
  simp [prunePass, h, hq, hr]

theorem prunePass_remove_failed {D : Type} (remove : D → String → Bool × D)
    (w w1 : World) (d d1 : D) (q : Nat) (f : FileObject) (h : Pop w = (.ok q, w1))
    (hq : w1.mem[q]? = some f) (hr : remove d f.Path = (true, d1)) :
    prunePass remove false w d = (.error .removeFailed, w1, d1) := by
  simp [prunePass, h, hq, hr]

theorem pruneLoop_ends {D : Type} (remove : D → String → Bool × D) (maxSize : Int)
    (dryRun : Bool) (fuel : Nat) : ∀ (w : World) (d : D) (errs : List CacheError) (k : Nat),
    heapLen w < fuel →
    ∃ r, pruneLoop remove maxSize dryRun fuel w d errs k = some r
      ∧ r.evictions ≤ k + heapLen w
      ∧ (r.panicked = false → (Size r.world ≤ maxSize ∨ Count r.world = .ok 0))
      ∧ (HeapOK w → r.panicked = false) := by
  induction fuel with
  | zero => intro w d errs k hf; omega
  | succ fuel ih =>
    intro w d errs k hf
    cases hh : w.cache.heap with
    | none =>
      refine ⟨⟨true, errs, w, d, k⟩, by simp [pruneLoop, underQuota_nil w maxSize hh], by simp,
        by simp, ?_⟩
      rintro ⟨hp, h1, _⟩
      rw [hh] at h1; simp at h1
    | some hp =>
      by_cases hne : hp = []
      · subst hne
        refine ⟨⟨false, errs, w, d, k⟩, by simp [pruneLoop, underQuota_empty w maxSize hh],
          by simp, fun _ => Or.inr (by simp [Count, hh]), fun _ => rfl⟩
      · by_cases hs : Size w ≤ maxSize
        · refine ⟨⟨false, errs, w, d, k⟩,
            by simp [pruneLoop, underQuota_under w maxSize hp hh hs],
            by simp, fun _ => Or.inl hs, fun _ => rfl⟩
        · have hq := underQuota_over w maxSize hp hh hne hs
          cases hx : heapPop w.mem hp with
          | none =>
            have hP := Pop_heap_panics w hp hh hne hx
            refine ⟨⟨true, errs, w, d, k⟩,
              by simp [pruneLoop, hq, prunePass_of_Pop_panic remove dryRun w w d hP],
              by simp, by simp, ?_⟩
            rintro ⟨hp1, h1, h2⟩
            rw [hh] at h1; simp at h1; subst h1
            obtain ⟨r, hr⟩ := heapPop_some w.mem hp h2 hne
            rw [hx] at hr; simp at hr
          | some r0 =>
            obtain ⟨m1, h1, q⟩ := r0
            obtain ⟨a1, a2, a3, a4⟩ := heapPop_spec w.mem m1 hp h1 q hx
            cases hg : m1[q]? with
            | none =>
              have hP := Pop_nil_item w hp h1 m1 q hh hne hx hg
              refine ⟨⟨true, errs, { mem := m1, cache := { w.cache with heap := some h1 } }, d, k⟩,
                by simp [pruneLoop, hq, prunePass_of_Pop_panic remove dryRun w _ d hP],
                by simp, by simp, ?_⟩
              rintro ⟨hp1, e1, h2⟩
              rw [hh] at e1; simp at e1; subst e1
              obtain ⟨f, hf1⟩ := get_of_lt m1 q (by rw [a2]; exact h2 q a4)
              rw [hg] at hf1; simp at hf1
            | some f =>
              have hP := Pop_popped w hp h1 m1 q f hh hne hx hg
              have hlen : heapLen ({ mem := m1, cache :=
                  { size := wrapInt (w.cache.size - f.Size), heap := some h1,
                    table := tableDelete w.cache.table f.Path } } : World) = h1.length := rfl
              have hlw : heapLen w = hp.length := heapLen_of w hp hh
              have hok1 : HeapOK w → HeapOK ({ mem := m1, cache :=
                  { size := wrapInt (w.cache.size - f.Size), heap := some h1,
                    table := tableDelete w.cache.table f.Path } } : World) := by
                rintro ⟨hp1, e1, h2⟩
                rw [hh] at e1; simp at e1; subst e1
                exact ⟨h1, rfl, fun x hx1 => by
                  show x < m1.length
                  rw [a2]; exact h2 x (a3 x hx1)⟩
              cases dryRun with
              | true =>
                have hpp := prunePass_dry remove w _ d q f hP hg
                obtain ⟨r, e, b1, b2, b3⟩ := ih _ d errs (k + 1) (by rw [hlen]; omega)
                refine ⟨r, by simp only [pruneLoop, hq, hpp]; exact e, ?_, b2,
                  fun hw => b3 (hok1 hw)⟩
                rw [hlen] at b1; omega
              | false =>
                cases hrm : remove d f.Path with
                | mk b d1 =>
                  cases b with
                  | false =>
                    have hpp := prunePass_removed remove w _ d d1 q f hP hg hrm
                    obtain ⟨r, e, b1, b2, b3⟩ := ih _ d1 errs (k + 1) (by rw [hlen]; omega)
                    refine ⟨r, by simp only [pruneLoop, hq, hpp]; exact e, ?_, b2,
                      fun hw => b3 (hok1 hw)⟩
                    rw [hlen] at b1; omega
                  | true =>
                    have hpp := prunePass_remove_failed remove w _ d d1 q f hP hg hrm
                    obtain ⟨r, e, b1, b2, b3⟩ := ih _ d1 (errs ++ [.removeFailed]) (k + 1)
                      (by rw [hlen]; omega)
                    refine ⟨r, by simp only [pruneLoop, hq, hpp]; simpa using e, ?_, b2,
                      fun hw => b3 (hok1 hw)⟩
                    rw [hlen] at b1; omega

theorem pruneLoop_more {D : Type} (remove : D → String → Bool × D) (maxSize : Int)
    (dryRun : Bool) (fuel : Nat) : ∀ (w : World) (d : D) (errs : List CacheError) (k : Nat)
    (r : PruneEnd D), pruneLoop remove maxSize dryRun fuel w d errs k = some r →
    pruneLoop remove maxSize dryRun (fuel + 1) w d errs k = some r := by
  induction fuel with
  | zero => intro w d errs k r h; simp [pruneLoop] at h
  | succ fuel ih =>
    intro w d errs k r h
    rw [pruneLoop] at h ⊢
    cases hq : underQuota w maxSize with
    | panic => simpa [hq] using h
    | error e => simpa [hq] using h
    | ok b =>
      cases b with
      | true => simpa [hq] using h
      | false =>
        simp only [hq] at h ⊢
        cases hpp : prunePass remove dryRun w d with
        | mk o r1 =>
          obtain ⟨w1, d1⟩ := r1
          cases o with
          | panic => simpa [hpp] using h
          | error e =>
            simp only [hpp] at h ⊢
            exact ih _ _ _ _ _ h
          | ok u =>
            simp only [hpp] at h ⊢
            exact ih _ _ _ _ _ h

/-- On a cache whose heap points to allocated entries only, `Prune` returns
(it neither panics nor reaches its iteration bound) after at most `Count()`
evictions, with `Size() <= maxSize` or `Count() == 0`; a larger iteration bound
gives the same result. -/
theorem Prune_with_heap_ends {D : Type} (remove : D → String → Bool × D) (maxSize : Int)
    (dryRun : Bool) (w : World) (d : D) (hw : HeapOK w) :
    ∃ r, Prune remove maxSize dryRun w d = some r
      ∧ pruneLoop remove maxSize dryRun (heapLen w + 2) w d [] 0 = some r
      ∧ r.panicked = false ∧ r.evictions ≤ heapLen w
      ∧ (Size r.world ≤ maxSize ∨ Count r.world = .ok 0) := by
  obtain ⟨r, e, b1, b2, b3⟩ :=
    pruneLoop_ends remove maxSize dryRun (heapLen w + 1) w d [] 0 (by omega)
  exact ⟨r, e, pruneLoop_more remove maxSize dryRun _ w d [] 0 r e, b3 hw, by omega,
    b2 (b3 hw)⟩

/-- In every state reached from a cache with an empty heap by building entries
and calling `Add`, `Update` and `Pop`, `Prune` returns after at most `Count()`
evictions, with `Size() <= maxSize` or `Count() == 0`. -/
theorem Prune_from_heapWorld_ends {D : Type} (remove : D → String → Bool × D) (maxSize : Int)
    (dryRun : Bool) (cs : List Call) (d : D) :
    ∃ r, Prune remove maxSize dryRun (run heapWorld cs) d = some r
      ∧ r.panicked = false ∧ r.evictions ≤ heapLen (run heapWorld cs)
      ∧ (Size r.world ≤ maxSize ∨ Count r.world = .ok 0) := by
  obtain ⟨r, e, _, b1, b2, b3⟩ := Prune_with_heap_ends remove maxSize dryRun (run heapWorld cs) d
    (HeapOK_run cs heapWorld HeapOK_heapWorld)
  exact ⟨r, e, b1, b2, b3⟩

/-! ## Calls that never succeed on the nil heap -/

theorem Add_not_ok_of_nil_heap (w : World) (p : Nat) (hn : w.cache.heap = none) :
    (Add w p).1 ≠ .ok () := by
  cases hm : w.mem[p]? with
  | none => rw [Add_nil_entry _ p hm]; simp
  | some f =>
    cases ht : tableGet w.cache.table f.Path with
    | some e1 => rw [Add_tracked _ p f e1 hm ht]; simp
    | none => rw [Add_nil_heap _ p f hm ht hn]; simp

theorem addEntries_of_NilInv (fs : List FileObject) : ∀ w : World, NilInv w →
    (∀ o ∈ (addEntries w fs).1, o ≠ .ok ()) ∧ NilInv (addEntries w fs).2 := by
  induction fs with
  | nil =>
    intro w hw
    exact ⟨fun o ho => by simp [addEntries] at ho, hw⟩
  | cons f fs ih =>
    intro w hw
    have h1 : NilInv ({ w with mem := w.mem ++ [f] } : World) := NilInv_new w f hw
    have h2 := NilInv_Add _ w.mem.length h1
    obtain ⟨i1, i2⟩ := ih _ h2
    refine ⟨fun o ho => ?_, i2⟩
    simp only [addEntries, List.mem_cons] at ho
    rcases ho with ho | ho
    · rw [ho]; exact Add_not_ok_of_nil_heap _ _ h1.1
    · exact i1 o ho

/-! ## The heap operations write indices only -/

theorem SameBodies_refl (m : Mem) : SameBodies m m := rfl

theorem SameBodies_trans (m m1 m2 : Mem) (h1 : SameBodies m m1) (h2 : SameBodies m1 m2) :
    SameBodies m m2 := by
  unfold SameBodies at *
  rw [h2, h1]

theorem SameBodies_length (m m2 : Mem) (h : SameBodies m m2) : m2.length = m.length := by
  have := congrArg List.length h
  simpa using this

theorem SameBodies_get (m m2 : Mem) (h : SameBodies m m2) (q : Nat) :
    (m2[q]?).map FileObject.body = (m[q]?).map FileObject.body := by
  have := congrArg (fun l => l[q]?) h
  simpa [List.getElem?_map] using this

theorem SameBodies_set (m : Mem) (p : Nat) (f : FileObject) (i : Int) (hm : m[p]? = some f) :
    SameBodies m (m.set p { f with index := i }) := by
  unfold SameBodies
  apply List.ext_getElem?
  intro q
  simp only [List.getElem?_map]
  by_cases hpq : p = q
  · subst hpq
    rw [List.getElem?_set_self (lt_length_of_get m p f hm), hm]
    rfl
  · rw [List.getElem?_set_ne hpq]

theorem SameBodies_setIndex (m m1 : Mem) (p : Nat) (i : Int) (h : setIndex m p i = some m1) :
    SameBodies m m1 := by
  unfold setIndex at h
  cases hm : m[p]? with
  | none => simp [hm] at h
  | some f =>
    simp only [hm, Option.some.injEq] at h
    subst h
    exact SameBodies_set m p f i hm

theorem SameBodies_pathAt (m m2 : Mem) (h : SameBodies m m2) (q : Nat) :
    pathAt m2 q = pathAt m q := by
  have := SameBodies_get m m2 h q
  unfold pathAt
  cases h1 : m2[q]? <;> cases h2 : m[q]? <;> simp [h1, h2, FileObject.body] at this ⊢
  exact this.2.2

theorem SameBodies_timeAt (m m2 : Mem) (h : SameBodies m m2) (q : Nat) :
    timeAt m2 q = timeAt m q := by
  have := SameBodies_get m m2 h q
  unfold timeAt
  cases h1 : m2[q]? <;> cases h2 : m[q]? <;> simp [h1, h2, FileObject.body] at this ⊢
  exact this.2.1

theorem SameBodies_sizeAt (m m2 : Mem) (h : SameBodies m m2) (q : Nat) :
    sizeAt m2 q = sizeAt m q := by
  have := SameBodies_get m m2 h q
  unfold sizeAt
  cases h1 : m2[q]? <;> cases h2 : m[q]? <;> simp [h1, h2, FileObject.body] at this ⊢
  exact this.1

theorem heapSwap_bodies (m m2 : Mem) (h h2 : List Nat) (i j : Nat)
    (hs : heapSwap m h i j = some (m2, h2)) : SameBodies m m2 := by
  unfold heapSwap at hs
  cases hi : h[i]? with
  | none => simp [hi] at hs
  | some p =>
    cases hj : h[j]? with
    | none => simp [hi, hj] at hs
    | some q =>
      cases h1 : setIndex m q i with
      | none => simp [hi, hj, h1] at hs
      | some m1 =>
        cases h2e : setIndex m1 p j with
        | none => simp [hi, hj, h1, h2e] at hs
        | some m3 =>
          simp [hi, hj, h1, h2e] at hs
          obtain ⟨hm, _⟩ := hs
          subst hm
          exact SameBodies_trans _ _ _ (SameBodies_setIndex _ _ _ _ h1)
            (SameBodies_setIndex _ _ _ _ h2e)

theorem upLoop_bodies (fuel : Nat) (m m2 : Mem) (h h2 : List Nat) (j : Nat)
    (hs : upLoop fuel m h j = some (m2, h2)) : SameBodies m m2 := by
  induction fuel generalizing m h j with
  | zero =>
    simp [upLoop] at hs
    rw [hs.1]; exact SameBodies_refl _
  | succ fuel ih =>
    unfold upLoop at hs
    simp only at hs
    by_cases hij : (j - 1) / 2 = j
    · simp [hij] at hs
      rw [hs.1]; exact SameBodies_refl _
    · simp only [hij, if_false] at hs
      cases hl : heapLess m h j ((j - 1) / 2) with
      | none => simp [hl] at hs
      | some b =>
        cases b with
        | false =>
          simp [hl] at hs
          rw [hs.1]; exact SameBodies_refl _
        | true =>
          cases hw : heapSwap m h ((j - 1) / 2) j with
          | none => simp [hl, hw] at hs
          | some r =>
            obtain ⟨m1, h1⟩ := r
            simp only [hl, hw] at hs
            exact SameBodies_trans _ _ _ (heapSwap_bodies m m1 h h1 _ _ hw) (ih m1 h1 _ hs)

theorem downLoop_bodies (fuel : Nat) (m m2 : Mem) (h h2 : List Nat) (i n i2 : Nat)
    (hs : downLoop fuel m h i n = some (m2, h2, i2)) : SameBodies m m2 := by
  induction fuel generalizing m h i with
  | zero =>
    simp [downLoop] at hs
    rw [hs.1]; exact SameBodies_refl _
  | succ fuel ih =>
    unfold downLoop at hs
    simp only at hs
    by_cases hn : n ≤ 2 * i + 1
    · simp [hn] at hs
      rw [hs.1]; exact SameBodies_refl _
    · simp only [hn, if_false] at hs
      cases hl1 : (if 2 * i + 1 + 1 < n then heapLess m h (2 * i + 1 + 1) (2 * i + 1)
          else some false) with
      | none => simp [hl1] at hs
      | some b =>
        simp only [hl1] at hs
        cases hl : heapLess m h (if b = true then 2 * i + 1 + 1 else 2 * i + 1) i with
        | none => simp [hl] at hs
        | some b2 =>
          cases b2 with
          | false =>
            simp [hl] at hs
            rw [hs.1]; exact SameBodies_refl _
          | true =>
            cases hw : heapSwap m h i (if b = true then 2 * i + 1 + 1 else 2 * i + 1) with
            | none => simp [hl, hw] at hs
            | some r =>
              obtain ⟨m1, h1⟩ := r
              simp only [hl, hw] at hs
              exact SameBodies_trans _ _ _ (heapSwap_bodies m m1 h h1 _ _ hw) (ih m1 h1 _ hs)

theorem down_bodies (m m2 : Mem) (h h2 : List Nat) (i n : Nat) (b : Bool)
    (hs : down m h i n = some (m2, h2, b)) : SameBodies m m2 := by
  unfold down at hs
  cases hd : downLoop n m h i n with
  | none => simp [hd] at hs
  | some r =>
    obtain ⟨m1, h1, i1⟩ := r
    simp [hd] at hs
    obtain ⟨e1, e2, _⟩ := hs
    subst e1; subst e2
    exact downLoop_bodies n m m1 h h1 i n i1 hd

theorem heapPush_bodies (m m2 : Mem) (h h2 : List Nat) (p : Nat)
    (hs : heapPush m h p = some (m2, h2)) : SameBodies m m2 := by
  unfold heapPush at hs
  cases hi : setIndex m p h.length with
  | none => simp [hi] at hs
  | some m1 =>
    simp only [hi] at hs
    exact SameBodies_trans _ _ _ (SameBodies_setIndex _ _ _ _ hi) (upLoop_bodies _ _ _ _ _ _ hs)

theorem heapPop_bodies (m m2 : Mem) (h h2 : List Nat) (p : Nat)
    (hs : heapPop m h = some (m2, h2, p)) : SameBodies m m2 := by
  cases h with
  | nil => simp [heapPop] at hs
  | cons a t =>
    unfold heapPop at hs
    simp only at hs
    cases hw : heapSwap m (a :: t) 0 t.length with
    | none => simp [hw] at hs
    | some r =>
      obtain ⟨m1, h1⟩ := r
      simp only [hw] at hs
      cases hd : down m1 h1 0 t.length with
      | none => simp [hd] at hs
      | some r2 =>
        obtain ⟨m3, h3, b⟩ := r2
        simp only [hd] at hs
        cases hg : h3[t.length]? with
        | none => simp [hg] at hs
        | some x =>
          simp [hg] at hs
          obtain ⟨e1, _, _⟩ := hs
          subst e1
          exact SameBodies_trans _ _ _ (heapSwap_bodies _ _ _ _ _ _ hw)
            (down_bodies _ _ _ _ _ _ _ hd)

theorem heapFix_bodies (m m2 : Mem) (h h2 : List Nat) (i : Int)
    (hs : heapFix m h i = some (m2, h2)) : SameBodies m m2 := by
  unfold heapFix at hs
  by_cases hneg : i < 0
  · by_cases h1 : i = -1
    · simp [hneg, h1] at hs
      rw [hs.1]; exact SameBodies_refl _
    · simp [hneg, h1] at hs
  · simp only [hneg, if_false] at hs
    cases hd : down m h i.toNat h.length with
    | none => simp [hd] at hs
    | some r =>
      obtain ⟨m1, h1, b⟩ := r
      have a := down_bodies m m1 h h1 _ _ b hd
      cases b with
      | true =>
        simp [hd] at hs
        rw [← hs.1]; exact a
      | false =>
        simp only [hd] at hs
        exact SameBodies_trans _ _ _ a (upLoop_bodies _ _ _ _ _ _ hs)

/-! ## `AddStat` -/

theorem Add_error_tracked (w : World) (p : Nat) (e : CacheError)
    (h : (Add w p).1 = .error e) :
    ∃ f e1, w.mem[p]? = some f ∧ tableGet w.cache.table f.Path = some e1 := by
  cases hm : w.mem[p]? with
  | none => rw [Add_nil_entry w p hm] at h; simp at h
  | some f =>
    cases ht : tableGet w.cache.table f.Path with
    | some e1 => exact ⟨f, e1, rfl, ht⟩
    | none =>
      cases hh : w.cache.heap with
      | none => rw [Add_nil_heap w p f hm ht hh] at h; simp at h
      | some hp =>
        cases hx : heapPush w.mem hp p with
        | none => rw [Add_push_panics w p f hp hm ht hh hx] at h; simp at h
        | some r =>
          obtain ⟨m1, h1⟩ := r
          rw [Add_pushed w p f hp h1 m1 hm ht hh hx] at h; simp at h

theorem AddStat_of_stat (w : World) (fn : String) (st : FileStat) (dir : Option Int)
    (hd : st.isDir = false ∨ dir.isSome = true) :
    AddStat w fn (some st) dir =
      Add { w with mem := w.mem ++
          [⟨if st.isDir then dir.getD 0 else st.size, st.modTime, fn, 0⟩] } w.mem.length := by
  cases hi : st.isDir with
  | false => simp [AddStat, hi]
  | true =>
    cases dir with
    | none => simp [hi] at hd
    | some sz => simp [AddStat, hi]

theorem Add_with_heap (w : World) (p : Nat) (f : FileObject) (hp : List Nat)
    (hm : w.mem[p]? = some f) (ht : tableGet w.cache.table f.Path = none)
    (hh : w.cache.heap = some hp) (hok : PtrsOK w.mem hp) :
    ∃ m1 h1, heapPush w.mem hp p = some (m1, h1)
      ∧ Add w p = (.ok (), { mem := m1, cache :=
        { size := wrapInt (w.cache.size + f.Size), heap := some h1,
          table := tablePut w.cache.table f.Path p } })
      ∧ h1.length = hp.length + 1 ∧ SameBodies w.mem m1 ∧ PtrsOK m1 h1 := by
  obtain ⟨r, hr⟩ := heapPush_some w.mem hp p hok (lt_length_of_get w.mem p f hm)
  obtain ⟨m1, h1⟩ := r
  obtain ⟨a1, a2, a3⟩ := heapPush_spec w.mem m1 hp h1 p hr
  refine ⟨m1, h1, hr, Add_pushed w p f hp h1 m1 hm ht hh hr, a1,
    heapPush_bodies w.mem m1 hp h1 p hr, ?_⟩
  intro q hq
  rw [a2]
  rcases a3 q hq with h3 | h3
  · exact hok q h3
  · rw [h3]; exact lt_length_of_get w.mem p f hm

/-- In every state, `AddStat` returns an error exactly when the stat is absent,
or it is the stat of a directory whose size computation fails, or the path is
already tracked; in each of these cases the cache is left as it was. -/
theorem AddStat_error_iff (w : World) (fn : String) (stat : Option FileStat)
    (dir : Option Int) :
    ((∃ e, (AddStat w fn stat dir).1 = .error e) ↔
        (stat = none ∨ (∃ st, stat = some st ∧ st.isDir = true ∧ dir = none)
          ∨ tableGet w.cache.table fn ≠ none))
    ∧ ((∃ e, (AddStat w fn stat dir).1 = .error e) →
        (AddStat w fn stat dir).2.cache = w.cache) := by
  cases stat with
  | none => simp [AddStat]
  | some st =>
    by_cases hd : st.isDir = true ∧ dir = none
    · obtain ⟨h1, h2⟩ := hd
      subst h2
      simp [AddStat, h1]
    · have hd1 : st.isDir = false ∨ dir.isSome = true := by
        cases hi : st.isDir with
        | false => exact Or.inl rfl
        | true =>
          cases dir with
          | none => exact absurd ⟨hi, rfl⟩ hd
          | some sz => exact Or.inr rfl
      rw [AddStat_of_stat w fn st dir hd1]
      have hm : ({ w with mem := w.mem ++
          [⟨if st.isDir then dir.getD 0 else st.size, st.modTime, fn, 0⟩] } : World).mem[
            w.mem.length]? = some ⟨if st.isDir then dir.getD 0 else st.size, st.modTime, fn, 0⟩ := by
        simp
      constructor
      · constructor
        · rintro ⟨e, he⟩
          obtain ⟨f, e1, h1, h2⟩ := Add_error_tracked _ _ e he
          rw [hm] at h1
          simp only [Option.some.injEq] at h1
          subst h1
          refine Or.inr (Or.inr ?_)
          simp only at h2
          rw [h2]; simp
        · rintro (h | h | h)
          · simp at h
          · obtain ⟨st1, h1, h2, h3⟩ := h
            simp only [Option.some.injEq] at h1
            subst h1
            exact absurd ⟨h2, h3⟩ hd
          · cases ht : tableGet w.cache.table fn with
            | none => exact absurd ht h
            | some e1 =>
              exact ⟨.alreadyExists, by rw [Add_tracked _ _ _ e1 hm ht]⟩
      · rintro ⟨e, he⟩
        rw [Add_error_state _ _ e he]

/-- On a cache with a heap, `AddStat` with a stat (of a plain file, or of a
directory whose size was computed) and an untracked path returns nil and adds
exactly one entry: the table gains the row of the path, whose entry has the
stat's size (for a directory the computed size), the stat's modification time
and the path, and `Count()` and `Size()` grow by one and by that size. -/
theorem AddStat_with_heap (w : World) (fn : String) (st : FileStat) (dir : Option Int)
    (hp : List Nat) (hh : w.cache.heap = some hp) (hok : PtrsOK w.mem hp)
    (hd : st.isDir = false ∨ dir.isSome = true) (ht : tableGet w.cache.table fn = none) :
    (AddStat w fn (some st) dir).1 = .ok ()
    ∧ (AddStat w fn (some st) dir).2.cache.table = tablePut w.cache.table fn w.mem.length
    ∧ ((AddStat w fn (some st) dir).2.mem[w.mem.length]?).map FileObject.body
        = some (if st.isDir then dir.getD 0 else st.size, st.modTime, fn)
    ∧ Count (AddStat w fn (some st) dir).2 = .ok ((hp.length + 1 : Nat) : Int)
    ∧ Size (AddStat w fn (some st) dir).2
        = wrapInt (w.cache.size + (if st.isDir then dir.getD 0 else st.size)) := by
  rw [AddStat_of_stat w fn st dir hd]
  have hm : ({ w with mem := w.mem ++
      [⟨if st.isDir then dir.getD 0 else st.size, st.modTime, fn, 0⟩] } : World).mem[
        w.mem.length]? = some ⟨if st.isDir then dir.getD 0 else st.size, st.modTime, fn, 0⟩ := by
    simp
  have hok1 : PtrsOK (w.mem ++
      [⟨if st.isDir then dir.getD 0 else st.size, st.modTime, fn, 0⟩]) hp := by
    intro q hq
    have := hok q hq
    simp only [List.length_append, List.length_singleton]
    omega
  obtain ⟨m1, h1, _, e, a1, a2, _⟩ := Add_with_heap _ w.mem.length _ hp hm ht hh hok1
  rw [e]
  refine ⟨rfl, rfl, ?_, by simp [Count, a1], rfl⟩
  have hb := SameBodies_get _ _ a2 w.mem.length
  simp only at hb
  rw [hb, hm]
  rfl

/-! ## What `Prune` does to the cache does not depend on the storage -/

theorem prunePass_eq {D : Type} (remove : D → String → Bool × D) (dryRun : Bool)
    (w : World) (d : D) :
    prunePass remove dryRun w d =
      (match (Pop w).1 with
       | .panic => (.panic, (Pop w).2, d)
       | .error _ => (.error .retrieveFailed, (Pop w).2, d)
       | .ok p =>
         match (Pop w).2.mem[p]? with
         | none => (.panic, (Pop w).2, d)
         | some f =>
           if dryRun then (.ok (), (Pop w).2, d)
           else if (remove d f.Path).1 = true then (.error .removeFailed, (Pop w).2, (remove d f.Path).2)
           else (.ok (), (Pop w).2, (remove d f.Path).2)) := by
  unfold prunePass
  generalize Pop w = x
  obtain ⟨o, w1⟩ := x
  cases o with
  | panic => rfl
  | error e => rfl
  | ok p =>
    simp only
    cases w1.mem[p]? with
    | none => rfl
    | some f =>
      simp only
      cases dryRun with
      | true => rfl
      | false =>
        simp only [Bool.false_eq_true, if_false]
        generalize remove d f.Path = y
        obtain ⟨b, d1⟩ := y
        cases b <;> rfl

theorem Pop_error_empty (w : World) (e : CacheError) (h : (Pop w).1 = .error e) :
    w.cache.heap = some [] := by
  cases hh : w.cache.heap with
  | none => rw [Pop_nil_heap w hh] at h; simp at h
  | some hp =>
    by_cases hne : hp = []
    · rw [hne]
    · cases hx : heapPop w.mem hp with
      | none => rw [Pop_heap_panics w hp hh hne hx] at h; simp at h
      | some r =>
        obtain ⟨m1, h1, q⟩ := r
        cases hq : m1[q]? with
        | none => rw [Pop_nil_item w hp h1 m1 q hh hne hx hq] at h; simp at h
        | some f => rw [Pop_popped w hp h1 m1 q f hh hne hx hq] at h; simp at h

theorem underQuota_false_pop (w : World) (maxSize : Int)
    (h : underQuota w maxSize = .ok false) : ∀ e, (Pop w).1 ≠ .error e := by
  intro e he
  have := Pop_error_empty w e he
  rw [underQuota_empty w maxSize this] at h
  simp at h

/-- Two runs of the prune loop from the same cache, with any two storages, any
two removal behaviours and either value of `dryRun`, end alike (both panic or
both return) with the same cache and the same number of evictions. -/
theorem pruneLoop_same_cache {D E : Type} (r1 : D → String → Bool × D)
    (r2 : E → String → Bool × E) (maxSize : Int) (dry1 dry2 : Bool) (fuel : Nat) :
    ∀ (w : World) (d : D) (e : E) (errs1 errs2 : List CacheError) (k : Nat),
    (pruneLoop r1 maxSize dry1 fuel w d errs1 k).map
        (fun r => (r.panicked, r.world, r.evictions))
      = (pruneLoop r2 maxSize dry2 fuel w e errs2 k).map
        (fun r => (r.panicked, r.world, r.evictions)) := by
  induction fuel with
  | zero => intro w d e errs1 errs2 k; rfl
  | succ fuel ih =>
    intro w d e errs1 errs2 k
    simp only [pruneLoop]
    cases hq : underQuota w maxSize with
    | panic => rfl
    | error x => rfl
    | ok b =>
      cases b with
      | true => rfl
      | false =>
        simp only [prunePass_eq]
        cases hp : (Pop w).1 with
        | panic => rfl
        | error x => exact ih _ _ _ _ _ _
        | ok p =>
          simp only
          cases (Pop w).2.mem[p]? with
          | none => rfl
          | some f =>
            simp only
            cases dry1 <;> cases dry2 <;>
              by_cases h1 : (r1 d f.Path).1 = true <;>
              by_cases h2 : (r2 e f.Path).1 = true <;>
              simp only [h1, h2, if_true, if_false, Bool.false_eq_true] <;>
              exact ih _ _ _ _ _ _

/-- A dry run of the prune loop leaves the storage and the catcher as they
were. -/
theorem pruneLoop_dry_run {D : Type} (remove : D → String → Bool × D) (maxSize : Int)
    (fuel : Nat) : ∀ (w : World) (d : D) (errs : List CacheError) (k : Nat) (r : PruneEnd D),
    pruneLoop remove maxSize true fuel w d errs k = some r →
    r.storage = d ∧ r.errors = errs := by
  induction fuel with
  | zero => intro w d errs k r h; simp [pruneLoop] at h
  | succ fuel ih =>
    intro w d errs k r h
    simp only [pruneLoop] at h
    cases hq : underQuota w maxSize with
    | panic => simp [hq] at h; subst h; exact ⟨rfl, rfl⟩
    | error x => simp [hq] at h; subst h; exact ⟨rfl, rfl⟩
    | ok b =>
      cases b with
      | true => simp [hq] at h; subst h; exact ⟨rfl, rfl⟩
      | false =>
        simp only [hq, prunePass_eq] at h
        cases hp : (Pop w).1 with
        | panic => simp [hp] at h; subst h; exact ⟨rfl, rfl⟩
        | error x => exact absurd hp (underQuota_false_pop w maxSize hq x)
        | ok p =>
          simp only [hp] at h
          cases hm : (Pop w).2.mem[p]? with
          | none => simp [hm] at h; subst h; exact ⟨rfl, rfl⟩
          | some f =>
            simp only [hm, if_true] at h
            exact ih _ _ _ _ _ h

/-- In a run of the prune loop that deletes, with a removal that counts its
failures, the catcher gains one error for each failed removal, and nothing
else. -/
theorem pruneLoop_errors {D : Type} (remove : D → String → Bool × D) (maxSize : Int)
    (fuel : Nat) : ∀ (w : World) (d : D) (n : Nat) (errs : List CacheError) (k : Nat)
    (r : PruneEnd (D × Nat)),
    pruneLoop (countFailures remove) maxSize false fuel w (d, n) errs k = some r →
    n ≤ r.storage.2 ∧ r.errors = errs ++ List.replicate (r.storage.2 - n) .removeFailed := by
  induction fuel with
  | zero => intro w d n errs k r h; simp [pruneLoop] at h
  | succ fuel ih =>
    intro w d n errs k r h
    simp only [pruneLoop] at h
    cases hq : underQuota w maxSize with
    | panic => simp [hq] at h; subst h; simp
    | error x => simp [hq] at h; subst h; simp
    | ok b =>
      cases b with
      | true => simp [hq] at h; subst h; simp
      | false =>
        simp only [hq, prunePass_eq] at h
        cases hp : (Pop w).1 with
        | panic => simp [hp] at h; subst h; simp
        | error x => exact absurd hp (underQuota_false_pop w maxSize hq x)
        | ok p =>
          simp only [hp] at h
          cases hm : (Pop w).2.mem[p]? with
          | none => simp [hm] at h; subst h; simp
          | some f =>
            simp only [hm, Bool.false_eq_true, if_false] at h
            by_cases hf : (remove d f.Path).1 = true
            · simp only [countFailures, hf, if_true] at h
              obtain ⟨a1, a2⟩ := ih _ _ _ _ _ _ h
              refine ⟨by omega, ?_⟩
              rw [a2, List.append_assoc]
              congr 1
              have : r.storage.2 - n = (r.storage.2 - (n + 1)) + 1 := by omega
              rw [this, List.replicate_succ]
              rfl
            · simp only [countFailures, hf, if_false] at h
              exact ih _ _ _ _ _ _ h

/-- On a cache whose heap points to allocated entries only, `Prune(maxSize,
true)` returns, with an empty catcher (it returns nil) and the storage as it
was, and `Prune(maxSize, false)`, with any storage and removal behaviour,
returns with the same cache. -/
theorem Prune_dry_run_with_heap {D E : Type} (r1 : D → String → Bool × D)
    (r2 : E → String → Bool × E) (maxSize : Int) (w : World) (d : D) (e : E)
    (hw : HeapOK w) :
    ∃ a b, Prune r1 maxSize true w d = some a ∧ Prune r2 maxSize false w e = some b
      ∧ a.panicked = false ∧ a.errors = [] ∧ a.storage = d
      ∧ b.panicked = false ∧ b.world = a.world ∧ b.evictions = a.evictions := by
  obtain ⟨a, ha, _, a1, _, _⟩ := Prune_with_heap_ends r1 maxSize true w d hw
  obtain ⟨b, hb, _, b1, _, _⟩ := Prune_with_heap_ends r2 maxSize false w e hw
  obtain ⟨c1, c2⟩ := pruneLoop_dry_run r1 maxSize _ w d [] 0 a ha
  have hs := pruneLoop_same_cache r1 r2 maxSize true false (heapLen w + 1) w d e [] [] 0
  unfold Prune at ha hb
  rw [ha, hb] at hs
  simp only [Option.map_some', Option.some.injEq, Prod.mk.injEq] at hs
  exact ⟨a, b, ha, hb, a1, c2, c1, b1, hs.2.1.symm, hs.2.2.symm⟩

/-- With a removal that never fails the catcher stays as it was. -/
theorem pruneLoop_no_failure {D : Type} (remove : D → String → Bool × D)
    (hr : ∀ d p, (remove d p).1 = false) (maxSize : Int) (dryRun : Bool)
    (fuel : Nat) : ∀ (w : World) (d : D) (errs : List CacheError) (k : Nat) (r : PruneEnd D),
    pruneLoop remove maxSize dryRun fuel w d errs k = some r → r.errors = errs := by
  induction fuel with
  | zero => intro w d errs k r h; simp [pruneLoop] at h
  | succ fuel ih =>
    intro w d errs k r h
    simp only [pruneLoop] at h
    cases hq : underQuota w maxSize with
    | panic => simp [hq] at h; subst h; rfl
    | error x => simp [hq] at h; subst h; rfl
    | ok b =>
      cases b with
      | true => simp [hq] at h; subst h; rfl
      | false =>
        simp only [hq, prunePass_eq] at h
        cases hp : (Pop w).1 with
        | panic => simp [hp] at h; subst h; rfl
        | error x => exact absurd hp (underQuota_false_pop w maxSize hq x)
        | ok p =>
          simp only [hp] at h
          cases hm : (Pop w).2.mem[p]? with
          | none => simp [hm] at h; subst h; rfl
          | some f =>
            simp only [hm, hr, Bool.false_eq_true, if_false] at h
            cases dryRun with
            | true => simp only [if_true] at h; exact ih _ _ _ _ _ h
            | false => simp only [Bool.false_eq_true, if_false] at h; exact ih _ _ _ _ _ h

/-- On a cache whose heap points to allocated entries only, `Prune(maxSize,
false)` returns whatever the removals do; the catcher holds one error for each
failed removal and nothing else, so that it is empty (`Prune` returns nil)
exactly when no removal failed; and the cache is left as by a run in which
every removal succeeds. -/
theorem Prune_errors_with_heap {D : Type} (remove : D → String → Bool × D) (maxSize : Int)
    (w : World) (d : D) (hw : HeapOK w) :
    ∃ a b, Prune (countFailures remove) maxSize false w (d, 0) = some a
      ∧ Prune logRemove maxSize false w [] = some b
      ∧ a.panicked = false
      ∧ a.errors = List.replicate a.storage.2 .removeFailed
      ∧ (a.errors = [] ↔ a.storage.2 = 0)
      ∧ b.errors = [] ∧ a.world = b.world ∧ a.evictions = b.evictions := by
  obtain ⟨a, ha, _, a1, _, _⟩ :=
    Prune_with_heap_ends (countFailures remove) maxSize false w (d, 0) hw
  obtain ⟨b, hb, _, b1, _, _⟩ := Prune_with_heap_ends logRemove maxSize false w [] hw
  obtain ⟨_, c2⟩ := pruneLoop_errors remove maxSize _ w d 0 [] 0 a ha
  have hs := pruneLoop_same_cache (countFailures remove) logRemove maxSize false false
    (heapLen w + 1) w (d, 0) [] [] [] 0
  unfold Prune at ha hb
  rw [ha, hb] at hs
  simp only [Option.map_some', Option.some.injEq, Prod.mk.injEq] at hs
  simp only [Nat.sub_zero, List.nil_append] at c2
  refine ⟨a, b, ha, hb, a1, c2, ?_, ?_, hs.2.1, hs.2.2⟩
  · rw [c2]
    constructor
    · intro h
      have := congrArg List.length h
      simpa using this
    · intro h
      rw [h]; rfl
  · exact pruneLoop_no_failure logRemove (fun _ _ => rfl) maxSize false _ w [] [] 0 b hb

/-! ## The heap operations permute the heap -/

theorem swap_perm (h : List Nat) (i j p q : Nat) (hi : h[i]? = some p) (hj : h[j]? = some q) :
    ((h.set i q).set j p).Perm h := by
  have hil : i < h.length := by
    rcases Nat.lt_or_ge i h.length with x | x
    · exact x
    · rw [List.getElem?_eq_none x] at hi; simp at hi
  have hjl : j < h.length := by
    rcases Nat.lt_or_ge j h.length with x | x
    · exact x
    · rw [List.getElem?_eq_none x] at hj; simp at hj
  have hpi : h[i] = p := by
    rw [List.getElem?_eq_getElem hil] at hi; simpa using hi
  have hqj : h[j] = q := by
    rw [List.getElem?_eq_getElem hjl] at hj; simpa using hj
  rw [List.perm_iff_count]
  intro a
  have hjl1 : j < (h.set i q).length := by simpa using hjl
  have e1 : (h.set i q)[j] = q := by
    rw [List.getElem_set]
    split
    · rfl
    · exact hqj
  rw [List.count_set _ _ _ _ hjl1, List.count_set _ _ _ _ hil, e1, hpi]
  have hp : p ∈ h := List.getElem?_mem hi
  have hc : (if (p == a) = true then 1 else 0) ≤ List.count a h := by
    by_cases hpa : p = a
    · subst hpa
      simp only [beq_self_eq_true, if_true]
      exact List.count_pos_iff.mpr hp
    · simp [hpa]
  omega

theorem heapSwap_perm (m m2 : Mem) (h h2 : List Nat) (i j : Nat)
    (hs : heapSwap m h i j = some (m2, h2)) : h2.Perm h := by
  unfold heapSwap at hs
  cases hi : h[i]? with
  | none => simp [hi] at hs
  | some p =>
    cases hj : h[j]? with
    | none => simp [hi, hj] at hs
    | some q =>
      cases h1 : setIndex m q i with
      | none => simp [hi, hj, h1] at hs
      | some m1 =>
        cases h2e : setIndex m1 p j with
        | none => simp [hi, hj, h1, h2e] at hs
        | some m3 =>
          simp [hi, hj, h1, h2e] at hs
          obtain ⟨_, hh⟩ := hs
          subst hh
          exact swap_perm h i j p q hi hj

theorem upLoop_perm (fuel : Nat) (m m2 : Mem) (h h2 : List Nat) (j : Nat)
    (hs : upLoop fuel m h j = some (m2, h2)) : h2.Perm h := by
  induction fuel generalizing m h j with
  | zero =>
    simp [upLoop] at hs
    rw [hs.2]
  | succ fuel ih =>
    unfold upLoop at hs
    simp only at hs
    by_cases hij : (j - 1) / 2 = j
    · simp [hij] at hs
      rw [hs.2]
    · simp only [hij, if_false] at hs
      cases hl : heapLess m h j ((j - 1) / 2) with
      | none => simp [hl] at hs
      | some b =>
        cases b with
        | false =>
          simp [hl] at hs
          rw [hs.2]
        | true =>
          cases hw : heapSwap m h ((j - 1) / 2) j with
          | none => simp [hl, hw] at hs
          | some r =>
            obtain ⟨m1, h1⟩ := r
            simp only [hl, hw] at hs
            exact (ih m1 h1 _ hs).trans (heapSwap_perm m m1 h h1 _ _ hw)

theorem downLoop_perm (fuel : Nat) (m m2 : Mem) (h h2 : List Nat) (i n i2 : Nat)
    (hs : downLoop fuel m h i n = some (m2, h2, i2)) : h2.Perm h := by
  induction fuel generalizing m h i with
  | zero =>
    simp [downLoop] at hs
    rw [hs.2.1]
  | succ fuel ih =>
    unfold downLoop at hs
    simp only at hs
    by_cases hn : n ≤ 2 * i + 1
    · simp [hn] at hs
      rw [hs.2.1]
    · simp only [hn, if_false] at hs
      cases hl1 : (if 2 * i + 1 + 1 < n then heapLess m h (2 * i + 1 + 1) (2 * i + 1)
          else some false) with
      | none => simp [hl1] at hs
      | some b =>
        simp only [hl1] at hs
        cases hl : heapLess m h (if b = true then 2 * i + 1 + 1 else 2 * i + 1) i with
        | none => simp [hl] at hs
        | some b2 =>
          cases b2 with
          | false =>
            simp [hl] at hs
            rw [hs.2.1]
          | true =>
            cases hw : heapSwap m h i (if b = true then 2 * i + 1 + 1 else 2 * i + 1) with
            | none => simp [hl, hw] at hs
            | some r =>
              obtain ⟨m1, h1⟩ := r
              simp only [hl, hw] at hs
              exact (ih m1 h1 _ hs).trans (heapSwap_perm m m1 h h1 _ _ hw)

theorem down_perm (m m2 : Mem) (h h2 : List Nat) (i n : Nat) (b : Bool)
    (hs : down m h i n = some (m2, h2, b)) : h2.Perm h := by
  unfold down at hs
  cases hd : downLoop n m h i n with
  | none => simp [hd] at hs
  | some r =>
    obtain ⟨m1, h1, i1⟩ := r
    simp [hd] at hs
    obtain ⟨e1, e2, _⟩ := hs
    subst e1; subst e2
    exact downLoop_perm n m m1 h h1 i n i1 hd

theorem heapPush_perm (m m2 : Mem) (h h2 : List Nat) (p : Nat)
    (hs : heapPush m h p = some (m2, h2)) : h2.Perm (h ++ [p]) := by
  unfold heapPush at hs
  cases hi : setIndex m p h.length with
  | none => simp [hi] at hs
  | some m1 =>
    simp only [hi] at hs
    exact upLoop_perm _ _ _ _ _ _ hs

theorem take_append_last (l : List Nat) (n x : Nat) (hl : l.length = n + 1)
    (hx : l[n]? = some x) : l = l.take n ++ [x] := by
  apply List.ext_getElem?
  intro k
  rcases Nat.lt_trichotomy k n with hk | hk | hk
  · rw [List.getElem?_append_left (by simp; omega), List.getElem?_take_of_lt hk]
  · subst hk
    rw [List.getElem?_append_right (by simp), hx]
    simp [hl]
  · rw [List.getElem?_eq_none (by omega), List.getElem?_eq_none (by simp; omega)]

theorem heapPop_perm (m m2 : Mem) (h h2 : List Nat) (p : Nat)
    (hs : heapPop m h = some (m2, h2, p)) : (p :: h2).Perm h := by
  cases h with
  | nil => simp [heapPop] at hs
  | cons a t =>
    unfold heapPop at hs
    simp only at hs
    cases hw : heapSwap m (a :: t) 0 t.length with
    | none => simp [hw] at hs
    | some r =>
      obtain ⟨m1, h1⟩ := r
      simp only [hw] at hs
      cases hd : down m1 h1 0 t.length with
      | none => simp [hd] at hs
      | some r2 =>
        obtain ⟨m3, h3, b⟩ := r2
        simp only [hd] at hs
        cases hg : h3[t.length]? with
        | none => simp [hg] at hs
        | some x =>
          simp [hg] at hs
          obtain ⟨_, e2, e3⟩ := hs
          subst e2; subst e3
          have p1 := heapSwap_perm m m1 (a :: t) h1 _ _ hw
          have p2 := down_perm m1 m3 h1 h3 0 t.length b hd
          have hl : h3.length = t.length + 1 := by
            rw [p2.length_eq, p1.length_eq]; simp
          have e := take_append_last h3 t.length x hl hg
          have p3 : (x :: h3.take t.length).Perm h3 := by
            conv_rhs => rw [e]
            exact @List.perm_append_comm _ [x] (h3.take t.length)
          exact p3.trans (p2.trans p1)

theorem heapFix_perm (m m2 : Mem) (h h2 : List Nat) (i : Int)
    (hs : heapFix m h i = some (m2, h2)) : h2.Perm h := by
  unfold heapFix at hs
  by_cases hneg : i < 0
  · by_cases h1 : i = -1
    · simp [hneg, h1] at hs
      rw [hs.2]
    · simp [hneg, h1] at hs
  · simp only [hneg, if_false] at hs
    cases hd : down m h i.toNat h.length with
    | none => simp [hd] at hs
    | some r =>
      obtain ⟨m1, h1, b⟩ := r
      have a := down_perm m m1 h h1 _ _ b hd
      cases b with
      | true =>
        simp [hd] at hs
        rw [← hs.2]; exact a
      | false =>
        simp only [hd] at hs
        exact (upLoop_perm _ _ _ _ _ _ hs).trans a

/-! ## With a heap, the table and the heap hold the same paths -/

theorem pathOf_of_get (m : Mem) (q : Nat) (f : FileObject) (h : m[q]? = some f) :
    pathOf m q = f.Path := by
  simp [pathOf, h]

theorem pathOf_append (m : Mem) (f : FileObject) (q : Nat) (hq : q < m.length) :
    pathOf (m ++ [f]) q = pathOf m q := by
  simp [pathOf, List.getElem?_append_left hq]

theorem pathOf_of_bodies (m m2 : Mem) (h : SameBodies m m2) (q : Nat) :
    pathOf m2 q = pathOf m q := by
  have := SameBodies_get m m2 h q
  unfold pathOf
  cases h1 : m2[q]? <;> cases h2 : m[q]? <;> simp [h1, h2, FileObject.body] at this ⊢
  exact this.2.2

theorem keys_tablePut_new (t : List (String × Nat)) (k : String) (v : Nat)
    (h : tableGet t k = none) : (tablePut t k v).map Prod.fst = t.map Prod.fst ++ [k] := by
  rw [tablePut_of_get_none t k v h]
  simp

theorem keys_tablePut_old (t : List (String × Nat)) (k : String) (v e : Nat)
    (h : tableGet t k = some e) : (tablePut t k v).map Prod.fst = t.map Prod.fst := by
  induction t with
  | nil => simp [tableGet] at h
  | cons a t ih =>
    obtain ⟨k1, v1⟩ := a
    by_cases hk : k1 = k
    · simp [tablePut, hk]
    · simp only [tableGet, hk, if_false] at h
      simp [tablePut, hk, ih h]

theorem not_mem_keys_of_get_none (t : List (String × Nat)) (k : String)
    (h : tableGet t k = none) : k ∉ t.map Prod.fst := by
  induction t with
  | nil => simp
  | cons a t ih =>
    obtain ⟨k1, v1⟩ := a
    by_cases hk : k1 = k
    · simp [tableGet, hk] at h
    · simp only [tableGet, hk, if_false] at h
      simp only [List.map_cons, List.mem_cons, not_or]
      exact ⟨fun x => hk x.symm, ih h⟩

theorem tableDelete_of_not_mem (t : List (String × Nat)) (k : String)
    (h : k ∉ t.map Prod.fst) : tableDelete t k = t := by
  induction t with
  | nil => rfl
  | cons a t ih =>
    obtain ⟨k1, v1⟩ := a
    simp only [List.map_cons, List.mem_cons, not_or] at h
    have hk : ¬ k1 = k := fun x => h.1 x.symm
    simp [tableDelete, hk, ih h.2]

theorem keys_tableDelete (t : List (String × Nat)) (k : String)
    (hn : (t.map Prod.fst).Nodup) :
    (tableDelete t k).map Prod.fst = (t.map Prod.fst).erase k := by
  induction t with
  | nil => rfl
  | cons a t ih =>
    obtain ⟨k1, v1⟩ := a
    simp only [List.map_cons, List.nodup_cons] at hn
    by_cases hk : k1 = k
    · subst hk
      simp [tableDelete, tableDelete_of_not_mem t k1 hn.1]
    · simp only [tableDelete, hk, if_false, List.map_cons]
      rw [List.erase_cons_tail (by simpa using hk), ih hn.2]

theorem Pop_with_heap (w : World) (hp : List Nat) (hh : w.cache.heap = some hp)
    (hok : PtrsOK w.mem hp) (hne : hp ≠ []) :
    ∃ m1 h1 q f, heapPop w.mem hp = some (m1, h1, q)
      ∧ Pop w = (.ok q, { mem := m1, cache :=
        { size := wrapInt (w.cache.size - f.Size), heap := some h1,
          table := tableDelete w.cache.table f.Path } })
      ∧ m1[q]? = some f ∧ PtrsOK m1 h1 := by
  obtain ⟨r, hr⟩ := heapPop_some w.mem hp hok hne
  obtain ⟨m1, h1, q⟩ := r
  obtain ⟨a1, a2, a3, a4⟩ := heapPop_spec w.mem m1 hp h1 q hr
  obtain ⟨f, hf⟩ := get_of_lt m1 q (by rw [a2]; exact hok q a4)
  refine ⟨m1, h1, q, f, hr, Pop_popped w hp h1 m1 q f hh hne hr hf, hf, ?_⟩
  intro x hx
  rw [a2]
  exact hok x (a3 x hx)

theorem map_pathOf_congr (m m2 : Mem) (h : List Nat)
    (hc : ∀ q ∈ h, pathOf m2 q = pathOf m q) : h.map (pathOf m2) = h.map (pathOf m) :=
  List.map_congr_left hc

theorem PathsOK_new (w : World) (f : FileObject) (h : PathsOK w) :
    PathsOK { w with mem := w.mem ++ [f] } := by
  obtain ⟨hp, h1, h2, h3, h4⟩ := h
  refine ⟨hp, h1, ?_, ?_, h4⟩
  · intro q hq
    have := h2 q hq
    simp only [List.length_append, List.length_singleton]
    omega
  · show (hp.map (pathOf (w.mem ++ [f]))).Perm _
    rw [map_pathOf_congr w.mem (w.mem ++ [f]) hp (fun q hq => pathOf_append w.mem f q (h2 q hq))]
    exact h3

theorem PathsOK_Add (w : World) (p : Nat) (h : PathsOK w) : PathsOK (Add w p).2 := by
  obtain ⟨hp, h1, h2, h3, h4⟩ := h
  cases hm : w.mem[p]? with
  | none => rw [Add_nil_entry w p hm]; exact ⟨hp, h1, h2, h3, h4⟩
  | some f =>
    cases ht : tableGet w.cache.table f.Path with
    | some e1 => rw [Add_tracked w p f e1 hm ht]; exact ⟨hp, h1, h2, h3, h4⟩
    | none =>
      obtain ⟨m1, hp1, hpush, e, _, hb, hok⟩ := Add_with_heap w p f hp hm ht h1 h2
      rw [e]
      refine ⟨hp1, rfl, hok, ?_, ?_⟩
      · show (hp1.map (pathOf m1)).Perm ((tablePut w.cache.table f.Path p).map Prod.fst)
        rw [keys_tablePut_new _ _ _ ht,
          map_pathOf_congr w.mem m1 hp1 (fun q _ => pathOf_of_bodies w.mem m1 hb q)]
        have hperm := (heapPush_perm w.mem m1 hp hp1 p hpush).map (pathOf w.mem)
        rw [List.map_append, List.map_cons, List.map_nil, pathOf_of_get w.mem p f hm] at hperm
        exact hperm.trans (List.Perm.append_right _ h3)
      · show ((tablePut w.cache.table f.Path p).map Prod.fst).Nodup
        rw [keys_tablePut_new _ _ _ ht]
        rw [List.nodup_append]
        refine ⟨h4, by simp, ?_⟩
        intro a ha hb2
        simp only [List.mem_singleton] at hb2
        subst hb2
        exact not_mem_keys_of_get_none _ _ ht ha

theorem PathsOK_Update (w : World) (p : Nat) (h : PathsOK w) : PathsOK (Update w p).2 := by
  obtain ⟨hp, h1, h2, h3, h4⟩ := h
  cases hm : w.mem[p]? with
  | none => rw [Update_nil_entry w p hm]; exact ⟨hp, h1, h2, h3, h4⟩
  | some f =>
    cases ht : tableGet w.cache.table f.Path with
    | none => rw [Update_untracked w p f hm ht]; exact ⟨hp, h1, h2, h3, h4⟩
    | some e1 =>
      cases he : w.mem[e1]? with
      | none => rw [Update_nil_existing w p f e1 hm ht he]; exact ⟨hp, h1, h2, h3, h4⟩
      | some x =>
        have hb0 : SameBodies w.mem (w.mem.set p { f with index := x.index }) :=
          SameBodies_set w.mem p f x.index hm
        have hok1 : PtrsOK (w.mem.set p { f with index := x.index }) hp := by
          intro q hq
          simp only [List.length_set]
          exact h2 q hq
        have hk := keys_tablePut_old w.cache.table f.Path p e1 ht
        cases hx : heapFix (w.mem.set p { f with index := x.index }) hp x.index with
        | none =>
          rw [Update_fix_panics w p f e1 x hp hm ht he h1 hx]
          refine ⟨hp, h1, hok1, ?_, ?_⟩
          · show (hp.map (pathOf (w.mem.set p { f with index := x.index }))).Perm
              ((tablePut w.cache.table f.Path p).map Prod.fst)
            rw [hk, map_pathOf_congr w.mem _ hp (fun q _ => pathOf_of_bodies _ _ hb0 q)]
            exact h3
          · show ((tablePut w.cache.table f.Path p).map Prod.fst).Nodup
            rw [hk]; exact h4
        | some r =>
          obtain ⟨m2, hp2⟩ := r
          rw [Update_fixed w p f e1 x hp hp2 m2 hm ht he h1 hx]
          obtain ⟨_, a2, a3⟩ := heapFix_spec _ m2 hp hp2 _ hx
          have hb1 := SameBodies_trans _ _ _ hb0 (heapFix_bodies _ m2 hp hp2 _ hx)
          refine ⟨hp2, rfl, ?_, ?_, ?_⟩
          · intro q hq
            show q < m2.length
            rw [a2]
            exact hok1 q (a3 q hq)
          · show (hp2.map (pathOf m2)).Perm ((tablePut w.cache.table f.Path p).map Prod.fst)
            rw [hk, map_pathOf_congr w.mem m2 hp2 (fun q _ => pathOf_of_bodies _ _ hb1 q)]
            exact ((heapFix_perm _ m2 hp hp2 _ hx).map (pathOf w.mem)).trans h3
          · show ((tablePut w.cache.table f.Path p).map Prod.fst).Nodup
            rw [hk]; exact h4

theorem PathsOK_Pop (w : World) (h : PathsOK w) : PathsOK (Pop w).2 := by
  obtain ⟨hp, h1, h2, h3, h4⟩ := h
  by_cases hne : hp = []
  · subst hne; rw [Pop_empty w h1]; exact ⟨[], h1, h2, h3, h4⟩
  · obtain ⟨m1, hp1, q, f, hpop, e, hf, hok⟩ := Pop_with_heap w hp h1 h2 hne
    rw [e]
    have hb := heapPop_bodies w.mem m1 hp hp1 q hpop
    have hperm := ((heapPop_perm w.mem m1 hp hp1 q hpop).map (pathOf w.mem)).trans h3
    have hq : pathOf w.mem q = f.Path := by
      rw [← pathOf_of_bodies w.mem m1 hb q]; exact pathOf_of_get m1 q f hf
    rw [List.map_cons, hq] at hperm
    obtain ⟨_, hperm2⟩ := List.cons_perm_iff_perm_erase.mp hperm
    refine ⟨hp1, rfl, hok, ?_, ?_⟩
    · show (hp1.map (pathOf m1)).Perm ((tableDelete w.cache.table f.Path).map Prod.fst)
      rw [keys_tableDelete _ _ h4,
        map_pathOf_congr w.mem m1 hp1 (fun x _ => pathOf_of_bodies w.mem m1 hb x)]
      exact hperm2
    · show ((tableDelete w.cache.table f.Path).map Prod.fst).Nodup
      rw [keys_tableDelete _ _ h4]
      exact h4.erase _

theorem PathsOK_exec (w : World) (c : Call) (h : PathsOK w) : PathsOK (exec w c).2 := by
  cases c with
  | new f => exact PathsOK_new w f h
  | add p => exact PathsOK_Add w p h
  | update p => exact PathsOK_Update w p h
  | pop => exact PathsOK_Pop w h

theorem PathsOK_run (cs : List Call) (w : World) (h : PathsOK w) : PathsOK (run w cs) := by
  induction cs generalizing w with
  | nil => exact h
  | cons c cs ih => exact ih _ (PathsOK_exec w c h)

theorem PathsOK_heapWorld : PathsOK heapWorld :=
  ⟨[], rfl, fun q hq => by simp at hq, List.Perm.refl _, List.nodup_nil⟩

/-- In every state reached from a cache with an empty heap by building entries
and calling `Add`, `Update` and `Pop`, the paths of the heap's entries are the
paths of the table rows, each of them once, and `Count()` is the number of
table rows. -/
theorem paths_agree_from_heapWorld (cs : List Call) :
    ∃ hp, (run heapWorld cs).cache.heap = some hp
      ∧ (hp.map (pathOf (run heapWorld cs).mem)).Perm
          ((run heapWorld cs).cache.table.map Prod.fst)
      ∧ (hp.map (pathOf (run heapWorld cs).mem)).Nodup
      ∧ Count (run heapWorld cs) = .ok ((run heapWorld cs).cache.table.length : Int) := by
  obtain ⟨hp, h1, _, h3, h4⟩ := PathsOK_run cs heapWorld PathsOK_heapWorld
  refine ⟨hp, h1, h3, h3.nodup_iff.mpr h4, ?_⟩
  have hl := h3.length_eq
  simp only [List.length_map] at hl
  simp [Count, h1, hl]

/-- On a cache with an empty heap, entries with pairwise distinct paths can be
added in any order: in every order all calls of `Add` succeed, and `Count()`
and `Size()` end at the number of entries and the sum of their sizes. -/
theorem addEntries_heapWorld_any_order (fs gs : List FileObject) (hperm : gs.Perm fs)
    (hnd : (fs.map FileObject.Path).Nodup) :
    (addEntries heapWorld gs).1 = List.replicate fs.length (.ok ())
      ∧ Count (addEntries heapWorld gs).2 = .ok (fs.length : Int)
      ∧ Size (addEntries heapWorld gs).2 = wrapInt ((fs.map FileObject.Size).sum) := by
  have hnd2 : (gs.map FileObject.Path).Nodup :=
    (hperm.map FileObject.Path).nodup_iff.mpr hnd
  obtain ⟨a1, a2, a3⟩ := addEntries_heapWorld gs hnd2
  rw [hperm.length_eq] at a1 a2
  rw [(hperm.map FileObject.Size).sum_eq] at a3
  exact ⟨a1, a2, a3⟩

/-! ## The heap order -/

theorem timeOf_of_bodies (m m2 : Mem) (h : SameBodies m m2) (q : Nat) :
    timeOf m2 q = timeOf m q := by
  have := SameBodies_get m m2 h q
  unfold timeOf
  cases h1 : m2[q]? <;> cases h2 : m[q]? <;> simp [h1, h2, FileObject.body] at this ⊢
  exact this.2.1

theorem getD_of_get (h : List Nat) (i p : Nat) (hi : h[i]? = some p) : h.getD i 0 = p := by
  simp [List.getD_eq_getElem?_getD, hi]

theorem swap_getD (h : List Nat) (i j p q k : Nat) (hi : h[i]? = some p)
    (hj : h[j]? = some q) :
    ((h.set i q).set j p).getD k 0 = if k = j then p else if k = i then q else h.getD k 0 := by
  have hil : i < h.length := by
    rcases Nat.lt_or_ge i h.length with x | x
    · exact x
    · rw [List.getElem?_eq_none x] at hi; simp at hi
  have hjl : j < h.length := by
    rcases Nat.lt_or_ge j h.length with x | x
    · exact x
    · rw [List.getElem?_eq_none x] at hj; simp at hj
  simp only [List.getD_eq_getElem?_getD, List.getElem?_set, List.length_set]
  by_cases hkj : k = j
  · subst hkj; simp [hjl]
  · have hjk : ¬ j = k := fun x => hkj x.symm
    by_cases hki : k = i
    · subst hki; simp [hjk, hkj, hil]
    · have hik : ¬ i = k := fun x => hki x.symm
      simp [hjk, hkj, hik, hki]

theorem heapLess_decode (m : Mem) (h : List Nat) (i j : Nat) (b : Bool)
    (hl : heapLess m h i j = some b) :
    ∃ p q, h[i]? = some p ∧ h[j]? = some q ∧ b = decide (timeOf m p < timeOf m q) := by
  unfold heapLess at hl
  cases hi : h[i]? with
  | none => simp [hi] at hl
  | some p =>
    cases hj : h[j]? with
    | none => simp [hi, hj] at hl
    | some q =>
      cases ha : m[p]? with
      | none => simp [hi, hj, ha] at hl
      | some a =>
        cases hb : m[q]? with
        | none => simp [hi, hj, ha, hb] at hl
        | some c =>
          simp only [hi, hj, ha, hb, Option.some.injEq] at hl
          exact ⟨p, q, rfl, rfl, by simp [timeOf, ha, hb, hl]⟩

theorem heapLess_getD (m : Mem) (h : List Nat) (i j : Nat) (b : Bool)
    (hl : heapLess m h i j = some b) :
    b = decide (timeOf m (h.getD i 0) < timeOf m (h.getD j 0)) := by
  obtain ⟨p, q, hi, hj, hb⟩ := heapLess_decode m h i j b hl
  rw [getD_of_get h i p hi, getD_of_get h j q hj]
  exact hb

theorem heapSwap_decode (m m2 : Mem) (h h2 : List Nat) (i j : Nat)
    (hs : heapSwap m h i j = some (m2, h2)) :
    ∃ p q, h[i]? = some p ∧ h[j]? = some q ∧ h2 = (h.set i q).set j p := by
  unfold heapSwap at hs
  cases hi : h[i]? with
  | none => simp [hi] at hs
  | some p =>
    cases hj : h[j]? with
    | none => simp [hi, hj] at hs
    | some q =>
      cases h1 : setIndex m q i with
      | none => simp [hi, hj, h1] at hs
      | some m1 =>
        cases h2e : setIndex m1 p j with
        | none => simp [hi, hj, h1, h2e] at hs
        | some m3 =>
          simp [hi, hj, h1, h2e] at hs
          exact ⟨p, q, rfl, rfl, hs.2.symm⟩

theorem heapSwap_getD (m m2 : Mem) (h h2 : List Nat) (i j : Nat)
    (hs : heapSwap m h i j = some (m2, h2)) (k : Nat) :
    h2.getD k 0 = if k = j then h.getD i 0 else if k = i then h.getD j 0 else h.getD k 0 := by
  obtain ⟨p, q, hi, hj, e⟩ := heapSwap_decode m m2 h h2 i j hs
  rw [e, swap_getD h i j p q k hi hj, getD_of_get h i p hi, getD_of_get h j q hj]

theorem IsHeap_of_UpInv_root (t : Nat → Int) (h : List Nat) (n : Nat)
    (hu : UpInv t h n 0) : IsHeap t h n := by
  intro k hk hkn
  exact hu.1 k hk hkn (by omega)

theorem IsHeap_of_UpInv_le (t : Nat → Int) (h : List Nat) (n j : Nat)
    (hu : UpInv t h n j) (hle : t (h.getD ((j - 1) / 2) 0) ≤ t (h.getD j 0)) :
    IsHeap t h n := by
  intro k hk hkn
  by_cases hkj : k = j
  · subst hkj; exact hle
  · exact hu.1 k hk hkn hkj

theorem UpInv_swap (t : Nat → Int) (h h2 : List Nat) (n j : Nat)
    (hg : ∀ k, h2.getD k 0 = if k = j then h.getD ((j - 1) / 2) 0
      else if k = (j - 1) / 2 then h.getD j 0 else h.getD k 0)
    (hj : (j - 1) / 2 ≠ j) (hjn : j < n)
    (hu : UpInv t h n j) (hlt : t (h.getD j 0) < t (h.getD ((j - 1) / 2) 0)) :
    UpInv t h2 n ((j - 1) / 2) := by
  have hj0 : 0 < j := by omega
  have hij : (j - 1) / 2 < j := by omega
  constructor
  · intro k hk hkn hki
    by_cases hkj : k = j
    · subst hkj
      rw [hg k, hg ((k - 1) / 2)]
      simp only [if_true, hj, if_false]
      omega
    · by_cases hpj : (k - 1) / 2 = j
      · rw [hg k, hg ((k - 1) / 2)]
        simp only [hkj, hki, hpj, if_true, if_false]
        exact hu.2 k hj0 hkn hpj hkj
      · by_cases hpi : (k - 1) / 2 = (j - 1) / 2
        · rw [hg k, hg ((k - 1) / 2)]
          simp only [hkj, hki, hpi, hj, if_true, if_false]
          have := hu.1 k hk hkn hkj
          rw [hpi] at this
          omega
        · rw [hg k, hg ((k - 1) / 2)]
          simp only [hkj, hki, hpj, hpi, if_false]
          exact hu.1 k hk hkn hkj
  · intro c hi0 hcn hpc hci
    have hppj : ((j - 1) / 2 - 1) / 2 ≠ j := by omega
    have hppi : ((j - 1) / 2 - 1) / 2 ≠ (j - 1) / 2 := by omega
    have h1 := hu.1 ((j - 1) / 2) hi0 (by omega) (by omega)
    rw [hg c, hg (((j - 1) / 2 - 1) / 2)]
    simp only [hppj, hppi, hci, if_false]
    by_cases hcj : c = j
    · simp only [hcj, if_true]
      exact h1
    · simp only [hcj, if_false]
      have h2 := hu.1 c (by omega) hcn hcj
      rw [hpc] at h2
      omega

theorem upLoop_heap (t : Nat → Int) (n : Nat) (fuel : Nat) :
    ∀ (m m2 : Mem) (h h2 : List Nat) (j : Nat), (∀ q, timeOf m q = t q) →
    upLoop fuel m h j = some (m2, h2) → j < fuel → j < n → UpInv t h n j →
    IsHeap t h2 n := by
  induction fuel with
  | zero => intro m m2 h h2 j _ _ hf; omega
  | succ fuel ih =>
    intro m m2 h h2 j ht hs hf hjn hu
    unfold upLoop at hs
    simp only at hs
    by_cases hij : (j - 1) / 2 = j
    · simp [hij] at hs
      rw [← hs.2]
      have hj0 : j = 0 := by omega
      subst hj0
      exact IsHeap_of_UpInv_root t h n hu
    · simp only [hij, if_false] at hs
      cases hl : heapLess m h j ((j - 1) / 2) with
      | none => simp [hl] at hs
      | some b =>
        have hb := heapLess_getD m h j _ b hl
        rw [ht, ht] at hb
        cases b with
        | false =>
          simp [hl] at hs
          rw [← hs.2]
          have hle : t (h.getD ((j - 1) / 2) 0) ≤ t (h.getD j 0) := by
            have := hb.symm
            simp only [decide_eq_false_iff_not, not_lt] at this
            exact this
          exact IsHeap_of_UpInv_le t h n j hu hle
        | true =>
          have hlt : t (h.getD j 0) < t (h.getD ((j - 1) / 2) 0) := by
            have := hb.symm
            simpa using this
          cases hw : heapSwap m h ((j - 1) / 2) j with
          | none => simp [hl, hw] at hs
          | some r =>
            obtain ⟨m1, h1⟩ := r
            simp only [hl, hw] at hs
            have hbod := heapSwap_bodies m m1 h h1 _ _ hw
            have ht1 : ∀ q, timeOf m1 q = t q := fun q => by
              rw [timeOf_of_bodies m m1 hbod q]; exact ht q
            have hu1 := UpInv_swap t h h1 n j (heapSwap_getD m m1 h h1 _ _ hw) hij hjn hu hlt
            exact ih m1 m2 h1 h2 _ ht1 hs (by omega) (by omega) hu1

theorem IsHeap_of_DownInv_leaf (t : Nat → Int) (h : List Nat) (n i : Nat)
    (hd : DownInv t h n i) (hn : n ≤ 2 * i + 1) : IsHeap t h n := by
  intro k hk hkn
  exact hd.1 k hk hkn (by omega)

theorem IsHeap_of_DownInv_le (t : Nat → Int) (h : List Nat) (n i : Nat)
    (hd : DownInv t h n i)
    (h1 : 2 * i + 1 < n → t (h.getD i 0) ≤ t (h.getD (2 * i + 1) 0))
    (h2 : 2 * i + 2 < n → t (h.getD i 0) ≤ t (h.getD (2 * i + 2) 0)) : IsHeap t h n := by
  intro k hk hkn
  by_cases hp : (k - 1) / 2 = i
  · have hk2 : k = 2 * i + 1 ∨ k = 2 * i + 2 := by omega
    rw [hp]
    rcases hk2 with hk2 | hk2
    · rw [hk2]; exact h1 (by omega)
    · rw [hk2]; exact h2 (by omega)
  · exact hd.1 k hk hkn hp

theorem DownInv_swap (t : Nat → Int) (h h2 : List Nat) (n i j : Nat)
    (hg : ∀ k, h2.getD k 0 = if k = j then h.getD i 0
      else if k = i then h.getD j 0 else h.getD k 0)
    (hj : j = 2 * i + 1 ∨ j = 2 * i + 2) (hjn : j < n)
    (hd : DownInv t h n i) (hlt : t (h.getD j 0) < t (h.getD i 0))
    (hmin1 : 2 * i + 1 < n → t (h.getD j 0) ≤ t (h.getD (2 * i + 1) 0))
    (hmin2 : 2 * i + 2 < n → t (h.getD j 0) ≤ t (h.getD (2 * i + 2) 0)) :
    DownInv t h2 n j := by
  have hij : i < j := by omega
  have hpj : (j - 1) / 2 = i := by omega
  constructor
  · intro k hk hkn hpk
    by_cases hkj : k = j
    · subst hkj
      rw [hg k, hg ((k - 1) / 2), hpj]
      have hik : ¬ i = k := by omega
      simp only [if_true, hik, if_false]
      omega
    · by_cases hki : k = i
      · subst hki
        have hpp1 : ¬ (k - 1) / 2 = j := by omega
        have hpp2 : ¬ (k - 1) / 2 = k := by omega
        rw [hg k, hg ((k - 1) / 2)]
        simp only [hkj, hpp1, hpp2, if_true, if_false]
        exact hd.2 j hk (by omega) hjn hpj
      · by_cases hpi : (k - 1) / 2 = i
        · have hk2 : k = 2 * i + 1 ∨ k = 2 * i + 2 := by omega
          have hij2 : ¬ i = j := by omega
          rw [hg k, hg ((k - 1) / 2), hpi]
          simp only [hkj, hki, hij2, if_true, if_false]
          rcases hk2 with hk2 | hk2
          · rw [hk2]; exact hmin1 (by omega)
          · rw [hk2]; exact hmin2 (by omega)
        · rw [hg k, hg ((k - 1) / 2)]
          simp only [hkj, hki, hpk, hpi, if_false]
          exact hd.1 k hk hkn hpi
  · intro c _ hc0 hcn hpc
    have hcj : ¬ c = j := by omega
    have hci : ¬ c = i := by omega
    have hij2 : ¬ i = j := by omega
    rw [hg c, hg ((j - 1) / 2), hpj]
    simp only [hcj, hci, hij2, if_true, if_false]
    have := hd.1 c hc0 hcn (by omega)
    rw [hpc] at this
    exact this

theorem downLoop_heap (t : Nat → Int) (n : Nat) (fuel : Nat) :
    ∀ (m m2 : Mem) (h h2 : List Nat) (i i2 : Nat), (∀ q, timeOf m q = t q) →
    downLoop fuel m h i n = some (m2, h2, i2) → n ≤ i + fuel → DownInv t h n i →
    IsHeap t h2 n ∧ (∀ k, n ≤ k → h2.getD k 0 = h.getD k 0) := by
  induction fuel with
  | zero =>
    intro m m2 h h2 i i2 _ hs hf hd
    simp [downLoop] at hs
    rw [← hs.2.1]
    exact ⟨IsHeap_of_DownInv_leaf t h n i hd (by omega), fun _ _ => rfl⟩
  | succ fuel ih =>
    intro m m2 h h2 i i2 ht hs hf hd
    unfold downLoop at hs
    simp only at hs
    by_cases hn : n ≤ 2 * i + 1
    · simp [hn] at hs
      rw [← hs.2.1]
      exact ⟨IsHeap_of_DownInv_leaf t h n i hd hn, fun _ _ => rfl⟩
    · simp only [hn, if_false] at hs
      cases hl1 : (if 2 * i + 1 + 1 < n then heapLess m h (2 * i + 1 + 1) (2 * i + 1)
          else some false) with
      | none => simp [hl1] at hs
      | some b =>
        simp only [hl1] at hs
        have hb : (b = true → 2 * i + 2 < n ∧ t (h.getD (2 * i + 2) 0) < t (h.getD (2 * i + 1) 0))
            ∧ (b = false → 2 * i + 2 < n →
                t (h.getD (2 * i + 1) 0) ≤ t (h.getD (2 * i + 2) 0)) := by
          by_cases h2n : 2 * i + 1 + 1 < n
          · simp only [h2n, if_true] at hl1
            have := heapLess_getD m h _ _ b hl1
            rw [ht, ht] at this
            constructor
            · intro hbt
              rw [hbt] at this
              exact ⟨h2n, by simpa using this.symm⟩
            · intro hbf _
              rw [hbf] at this
              have := this.symm
              simp only [decide_eq_false_iff_not, not_lt] at this
              exact this
          · simp only [h2n, if_false, Option.some.injEq] at hl1
            constructor
            · intro hbt; rw [hbt] at hl1; simp at hl1
            · intro _ h2; exact absurd h2 h2n
        have hj : (if b = true then 2 * i + 1 + 1 else 2 * i + 1) = 2 * i + 1
            ∨ (if b = true then 2 * i + 1 + 1 else 2 * i + 1) = 2 * i + 2 := by
          cases b <;> simp
        have hjn : (if b = true then 2 * i + 1 + 1 else 2 * i + 1) < n := by
          cases b with
          | false => simp; omega
          | true => simp; exact (hb.1 rfl).1
        have hmin1 : 2 * i + 1 < n →
            t (h.getD (if b = true then 2 * i + 1 + 1 else 2 * i + 1) 0)
              ≤ t (h.getD (2 * i + 1) 0) := by
          intro _
          cases b with
          | false => exact le_refl _
          | true => exact le_of_lt (hb.1 rfl).2
        have hmin2 : 2 * i + 2 < n →
            t (h.getD (if b = true then 2 * i + 1 + 1 else 2 * i + 1) 0)
              ≤ t (h.getD (2 * i + 2) 0) := by
          intro h2
          cases b with
          | false => exact hb.2 rfl h2
          | true => exact le_refl _
        cases hl : heapLess m h (if b = true then 2 * i + 1 + 1 else 2 * i + 1) i with
        | none => simp [hl] at hs
        | some b2 =>
          have hb2 := heapLess_getD m h _ _ b2 hl
          rw [ht, ht] at hb2
          cases b2 with
          | false =>
            simp [hl] at hs
            rw [← hs.2.1]
            have hle : t (h.getD i 0)
                ≤ t (h.getD (if b = true then 2 * i + 1 + 1 else 2 * i + 1) 0) := by
              have := hb2.symm
              simp only [decide_eq_false_iff_not, not_lt] at this
              exact this
            exact ⟨IsHeap_of_DownInv_le t h n i hd (fun x => le_trans hle (hmin1 x))
              (fun x => le_trans hle (hmin2 x)), fun _ _ => rfl⟩
          | true =>
            have hlt : t (h.getD (if b = true then 2 * i + 1 + 1 else 2 * i + 1) 0)
                < t (h.getD i 0) := by
              have := hb2.symm
              simpa using this
            cases hw : heapSwap m h i (if b = true then 2 * i + 1 + 1 else 2 * i + 1) with
            | none => simp [hl, hw] at hs
            | some r =>
              obtain ⟨m1, h1⟩ := r
              simp only [hl, hw] at hs
              have hbod := heapSwap_bodies m m1 h h1 _ _ hw
              have ht1 : ∀ q, timeOf m1 q = t q := fun q => by
                rw [timeOf_of_bodies m m1 hbod q]; exact ht q
              have hg := heapSwap_getD m m1 h h1 _ _ hw
              have hd1 := DownInv_swap t h h1 n i _ hg hj hjn hd hlt hmin1 hmin2
              obtain ⟨r1, r2⟩ := ih m1 m2 h1 h2 _ i2 ht1 hs (by omega) hd1
              refine ⟨r1, fun k hk => ?_⟩
              rw [r2 k hk, hg k]
              have e1 : ¬ k = (if b = true then 2 * i + 1 + 1 else 2 * i + 1) := by omega
              have e2 : ¬ k = i := by omega
              simp only [e1, e2, if_false]

theorem down_heap (t : Nat → Int) (n : Nat) (m m2 : Mem) (h h2 : List Nat) (i : Nat)
    (b : Bool) (ht : ∀ q, timeOf m q = t q) (hs : down m h i n = some (m2, h2, b))
    (hd : DownInv t h n i) :
    IsHeap t h2 n ∧ (∀ k, n ≤ k → h2.getD k 0 = h.getD k 0) := by
  unfold down at hs
  cases hx : downLoop n m h i n with
  | none => simp [hx] at hs
  | some r =>
    obtain ⟨m1, h1, i1⟩ := r
    simp [hx] at hs
    obtain ⟨e1, e2, _⟩ := hs
    subst e1; subst e2
    exact downLoop_heap t n n m m1 h h1 i i1 ht hx (by omega) hd

theorem UpInv_of_IsHeap (t : Nat → Int) (h : List Nat) (n j : Nat) (hh : IsHeap t h n) :
    UpInv t h n j := by
  constructor
  · intro k hk hkn _
    exact hh k hk hkn
  · intro c hj hcn hpc _
    have h1 := hh c (by omega) hcn
    have h2 := hh j hj (by omega)
    rw [hpc] at h1
    exact le_trans h2 h1

theorem DownInv_of_IsHeap (t : Nat → Int) (h : List Nat) (n i : Nat) (hh : IsHeap t h n) :
    DownInv t h n i := by
  constructor
  · intro k hk hkn _
    exact hh k hk hkn
  · intro c hi hc hcn hpc
    have h1 := hh c hc hcn
    have h2 := hh i hi (by omega)
    rw [hpc] at h1
    exact le_trans h2 h1

theorem lt_of_get_some (h : List Nat) (i p : Nat) (hi : h[i]? = some p) : i < h.length := by
  rcases Nat.lt_or_ge i h.length with x | x
  · exact x
  · rw [List.getElem?_eq_none x] at hi; simp at hi

theorem getD_append_left (h : List Nat) (p k : Nat) (hk : k < h.length) :
    (h ++ [p]).getD k 0 = h.getD k 0 := by
  simp [List.getD_eq_getElem?_getD, List.getElem?_append_left hk]

theorem getD_take (h : List Nat) (n k : Nat) (hk : k < n) :
    (h.take n).getD k 0 = h.getD k 0 := by
  simp [List.getD_eq_getElem?_getD, List.getElem?_take_of_lt hk]

theorem IsHeap_congr (t t2 : Nat → Int) (h : List Nat) (n : Nat) (hn : n ≤ h.length)
    (hc : ∀ q ∈ h, t2 q = t q) (hh : IsHeap t h n) : IsHeap t2 h n := by
  intro k hk hkn
  have h1 : h.getD k 0 ∈ h := by
    rw [List.getD_eq_getElem?_getD, List.getElem?_eq_getElem (by omega)]
    exact List.getElem_mem _
  have h2 : h.getD ((k - 1) / 2) 0 ∈ h := by
    rw [List.getD_eq_getElem?_getD, List.getElem?_eq_getElem (by omega)]
    exact List.getElem_mem _
  rw [hc _ h1, hc _ h2]
  exact hh k hk hkn

theorem IsHeap_root_le (t : Nat → Int) (h : List Nat) (n : Nat) (hh : IsHeap t h n) :
    ∀ k, k < n → t (h.getD 0 0) ≤ t (h.getD k 0) := by
  intro k
  induction k using Nat.strong_induction_on with
  | _ k ih =>
    intro hkn
    by_cases hk : k = 0
    · subst hk; exact le_refl _
    · have h1 := hh k (by omega) hkn
      have h2 := ih ((k - 1) / 2) (by omega) (by omega)
      exact le_trans h2 h1

theorem IsHeap_root_min (t : Nat → Int) (h : List Nat) (hh : IsHeap t h h.length) :
    ∀ q ∈ h, t (h.getD 0 0) ≤ t q := by
  intro q hq
  obtain ⟨k, hk⟩ := List.mem_iff_getElem?.mp hq
  have := IsHeap_root_le t h h.length hh k (lt_of_get_some h k q hk)
  rw [getD_of_get h k q hk] at this
  exact this

theorem heapPush_heap (t : Nat → Int) (m m2 : Mem) (h h2 : List Nat) (p : Nat)
    (ht : ∀ q, timeOf m q = t q) (hs : heapPush m h p = some (m2, h2))
    (hh : IsHeap t h h.length) : IsHeap t h2 h2.length := by
  have hlen := (heapPush_spec m m2 h h2 p hs).1
  unfold heapPush at hs
  cases hi : setIndex m p h.length with
  | none => simp [hi] at hs
  | some m1 =>
    simp only [hi] at hs
    have ht1 : ∀ q, timeOf m1 q = t q := fun q => by
      rw [timeOf_of_bodies m m1 (SameBodies_setIndex _ _ _ _ hi) q]; exact ht q
    have hu : UpInv t (h ++ [p]) (h.length + 1) h.length := by
      constructor
      · intro k hk hkn hkl
        rw [getD_append_left h p k (by omega), getD_append_left h p _ (by omega)]
        exact hh k hk (by omega)
      · intro c _ hcn hpc _
        omega
    rw [hlen]
    exact upLoop_heap t (h.length + 1) _ m1 m2 (h ++ [p]) h2 h.length ht1 hs (by omega)
      (by omega) hu

theorem heapPop_heap (t : Nat → Int) (m m2 : Mem) (h h2 : List Nat) (p : Nat)
    (ht : ∀ q, timeOf m q = t q) (hs : heapPop m h = some (m2, h2, p))
    (hh : IsHeap t h h.length) :
    IsHeap t h2 h2.length ∧ p = h.getD 0 0 ∧ (∀ q ∈ h, t p ≤ t q) := by
  have hlen := (heapPop_spec m m2 h h2 p hs).1
  cases h with
  | nil => simp [heapPop] at hs
  | cons a tl =>
    unfold heapPop at hs
    simp only at hs
    cases hw : heapSwap m (a :: tl) 0 tl.length with
    | none => simp [hw] at hs
    | some r =>
      obtain ⟨m1, h1⟩ := r
      simp only [hw] at hs
      cases hd : down m1 h1 0 tl.length with
      | none => simp [hd] at hs
      | some r2 =>
        obtain ⟨m3, h3, b⟩ := r2
        simp only [hd] at hs
        cases hg : h3[tl.length]? with
        | none => simp [hg] at hs
        | some x =>
          simp [hg] at hs
          obtain ⟨_, e2, e3⟩ := hs
          subst e2; subst e3
          have ht1 : ∀ q, timeOf m1 q = t q := fun q => by
            rw [timeOf_of_bodies m m1 (heapSwap_bodies _ _ _ _ _ _ hw) q]; exact ht q
          have hsw := heapSwap_getD m m1 (a :: tl) h1 0 tl.length hw
          have hdi : DownInv t h1 tl.length 0 := by
            constructor
            · intro k hk hkn hpk
              rw [hsw k, hsw ((k - 1) / 2)]
              have e1 : ¬ k = tl.length := by omega
              have e2 : ¬ k = 0 := by omega
              have e3 : ¬ (k - 1) / 2 = tl.length := by omega
              simp only [e1, e2, e3, hpk, if_false]
              exact hh k hk (by simp; omega)
            · intro c h0 _ _ _
              omega
          obtain ⟨r1, r2⟩ := down_heap t tl.length m1 m3 h1 h3 0 b ht1 hd hdi
          have hx : x = (a :: tl).getD 0 0 := by
            have := getD_of_get h3 tl.length x hg
            rw [r2 tl.length (le_refl _), hsw tl.length] at this
            simp only [if_true] at this
            exact this.symm
          have hl2 : (h3.take tl.length).length = tl.length := by
            simp only [List.length_cons] at hlen
            omega
          refine ⟨?_, hx, ?_⟩
          · rw [hl2]
            intro k hk hkn
            rw [getD_take h3 _ k hkn, getD_take h3 _ _ (by omega)]
            exact r1 k hk hkn
          · rw [hx]
            exact IsHeap_root_min t (a :: tl) hh

theorem upLoop_length_of_some (fuel : Nat) (m m2 : Mem) (h h2 : List Nat) (j : Nat)
    (hs : upLoop (fuel + 1) m h j = some (m2, h2)) : j < h.length ∨ (j = 0 ∧ h2 = h) := by
  unfold upLoop at hs
  simp only at hs
  by_cases hij : (j - 1) / 2 = j
  · simp [hij] at hs
    exact Or.inr ⟨by omega, hs.2.symm⟩
  · simp only [hij, if_false] at hs
    cases hl : heapLess m h j ((j - 1) / 2) with
    | none => simp [hl] at hs
    | some b =>
      obtain ⟨p, q, hp, _, _⟩ := heapLess_decode m h j _ b hl
      exact Or.inl (lt_of_get_some h j p hp)

theorem heapFix_heap (t : Nat → Int) (m m2 : Mem) (h h2 : List Nat) (i : Int)
    (ht : ∀ q, timeOf m q = t q) (hs : heapFix m h i = some (m2, h2))
    (hh : IsHeap t h h.length) : IsHeap t h2 h2.length := by
  have hlen := (heapFix_spec m m2 h h2 i hs).1
  rw [hlen]
  unfold heapFix at hs
  by_cases hneg : i < 0
  · by_cases h1 : i = -1
    · simp [hneg, h1] at hs
      rw [← hs.2]; exact hh
    · simp [hneg, h1] at hs
  · simp only [hneg, if_false] at hs
    cases hd : down m h i.toNat h.length with
    | none => simp [hd] at hs
    | some r =>
      obtain ⟨m1, h1, b⟩ := r
      obtain ⟨r1, _⟩ := down_heap t h.length m m1 h h1 i.toNat b ht hd
        (DownInv_of_IsHeap t h h.length _ hh)
      have hl1 := (down_spec m m1 h h1 _ _ b hd).1
      have ht1 : ∀ q, timeOf m1 q = t q := fun q => by
        rw [timeOf_of_bodies m m1 (down_bodies _ _ _ _ _ _ _ hd) q]; exact ht q
      cases b with
      | true =>
        simp [hd] at hs
        rw [← hs.2]; exact r1
      | false =>
        simp only [hd] at hs
        unfold up at hs
        rcases upLoop_length_of_some _ m1 m2 h1 h2 _ hs with hj | hj
        · exact upLoop_heap t h.length _ m1 m2 h1 h2 _ ht1 hs (by omega) (by omega)
            (UpInv_of_IsHeap t h1 h.length _ r1)
        · rw [hj.2]; exact r1

/-! ## With a heap, `Pop` hands out the oldest entry of the heap -/

theorem timeOf_append (m : Mem) (f : FileObject) (q : Nat) (hq : q < m.length) :
    timeOf (m ++ [f]) q = timeOf m q := by
  simp [timeOf, List.getElem?_append_left hq]

theorem HeapSorted_new (w : World) (f : FileObject) (h : HeapSorted w) :
    HeapSorted { w with mem := w.mem ++ [f] } := by
  obtain ⟨hp, h1, h2, h3⟩ := h
  refine ⟨hp, h1, ?_, ?_⟩
  · intro q hq
    have := h2 q hq
    simp only [List.length_append, List.length_singleton]
    omega
  · exact IsHeap_congr (timeOf w.mem) _ hp hp.length (le_refl _)
      (fun q hq => timeOf_append w.mem f q (h2 q hq)) h3

theorem HeapSorted_Add (w : World) (p : Nat) (h : HeapSorted w) : HeapSorted (Add w p).2 := by
  obtain ⟨hp, h1, h2, h3⟩ := h
  cases hm : w.mem[p]? with
  | none => rw [Add_nil_entry w p hm]; exact ⟨hp, h1, h2, h3⟩
  | some f =>
    cases ht : tableGet w.cache.table f.Path with
    | some e1 => rw [Add_tracked w p f e1 hm ht]; exact ⟨hp, h1, h2, h3⟩
    | none =>
      obtain ⟨m1, hp1, hpush, e, _, hb, hok⟩ := Add_with_heap w p f hp hm ht h1 h2
      rw [e]
      refine ⟨hp1, rfl, hok, ?_⟩
      show IsHeap (timeOf m1) hp1 hp1.length
      have hq : ∀ q, timeOf w.mem q = timeOf m1 q := fun q =>
        (timeOf_of_bodies w.mem m1 hb q).symm
      have h4 : IsHeap (timeOf m1) hp hp.length := by
        intro k hk hkn
        rw [← hq, ← hq]; exact h3 k hk hkn
      exact heapPush_heap (timeOf m1) w.mem m1 hp hp1 p hq hpush h4

theorem HeapSorted_Update (w : World) (p : Nat) (h : HeapSorted w) :
    HeapSorted (Update w p).2 := by
  obtain ⟨hp, h1, h2, h3⟩ := h
  cases hm : w.mem[p]? with
  | none => rw [Update_nil_entry w p hm]; exact ⟨hp, h1, h2, h3⟩
  | some f =>
    cases ht : tableGet w.cache.table f.Path with
    | none => rw [Update_untracked w p f hm ht]; exact ⟨hp, h1, h2, h3⟩
    | some e1 =>
      cases he : w.mem[e1]? with
      | none => rw [Update_nil_existing w p f e1 hm ht he]; exact ⟨hp, h1, h2, h3⟩
      | some x =>
        have hb0 : SameBodies w.mem (w.mem.set p { f with index := x.index }) :=
          SameBodies_set w.mem p f x.index hm
        have hok1 : PtrsOK (w.mem.set p { f with index := x.index }) hp := by
          intro q hq
          simp only [List.length_set]
          exact h2 q hq
        have h5 : IsHeap (timeOf (w.mem.set p { f with index := x.index })) hp hp.length := by
          intro k hk hkn
          rw [timeOf_of_bodies _ _ hb0, timeOf_of_bodies _ _ hb0]; exact h3 k hk hkn
        cases hx : heapFix (w.mem.set p { f with index := x.index }) hp x.index with
        | none =>
          rw [Update_fix_panics w p f e1 x hp hm ht he h1 hx]
          exact ⟨hp, h1, hok1, h5⟩
        | some r =>
          obtain ⟨m2, hp2⟩ := r
          rw [Update_fixed w p f e1 x hp hp2 m2 hm ht he h1 hx]
          obtain ⟨_, a2, a3⟩ := heapFix_spec _ m2 hp hp2 _ hx
          have hb1 := heapFix_bodies _ m2 hp hp2 _ hx
          refine ⟨hp2, rfl, ?_, ?_⟩
          · intro q hq
            show q < m2.length
            rw [a2]
            exact hok1 q (a3 q hq)
          · show IsHeap (timeOf m2) hp2 hp2.length
            have hq : ∀ q, timeOf (w.mem.set p { f with index := x.index }) q = timeOf m2 q :=
              fun q => (timeOf_of_bodies _ m2 hb1 q).symm
            have h6 : IsHeap (timeOf m2) hp hp.length := by
              intro k hk hkn
              rw [← hq, ← hq]; exact h5 k hk hkn
            exact heapFix_heap (timeOf m2) _ m2 hp hp2 _ hq hx h6

/-- On a cache whose heap is in heap order and not empty, `Pop` succeeds and
the entry it hands out is an entry of the heap that is not younger than any
entry of the heap; the cache it leaves has a heap in heap order, holding the
other entries. -/
theorem Pop_of_HeapSorted (w : World) (hp : List Nat) (hh : w.cache.heap = some hp)
    (hok : PtrsOK w.mem hp) (hs : IsHeap (timeOf w.mem) hp hp.length) (hne : hp ≠ []) :
    ∃ q f hp1, (Pop w).1 = .ok q ∧ (Pop w).2.cache.heap = some hp1
      ∧ (Pop w).2.mem[q]? = some f
      ∧ (Pop w).2.cache.size = wrapInt (w.cache.size - f.Size)
      ∧ (Pop w).2.cache.table = tableDelete w.cache.table f.Path
      ∧ (q :: hp1).Perm hp
      ∧ (∀ x ∈ hp, timeOf w.mem q ≤ timeOf w.mem x)
      ∧ SameBodies w.mem (Pop w).2.mem
      ∧ HeapSorted (Pop w).2 := by
  obtain ⟨m1, hp1, q, f, hpop, e, hf, hok1⟩ := Pop_with_heap w hp hh hok hne
  have hb := heapPop_bodies w.mem m1 hp hp1 q hpop
  obtain ⟨r1, _, r3⟩ := heapPop_heap (timeOf w.mem) w.mem m1 hp hp1 q (fun _ => rfl) hpop hs
  rw [e]
  refine ⟨q, f, hp1, rfl, rfl, hf, rfl, rfl, heapPop_perm w.mem m1 hp hp1 q hpop, r3, hb,
    hp1, rfl, hok1, ?_⟩
  show IsHeap (timeOf m1) hp1 hp1.length
  intro k hk hkn
  rw [timeOf_of_bodies w.mem m1 hb, timeOf_of_bodies w.mem m1 hb]
  exact r1 k hk hkn

theorem HeapSorted_Pop (w : World) (h : HeapSorted w) : HeapSorted (Pop w).2 := by
  obtain ⟨hp, h1, h2, h3⟩ := h
  by_cases hne : hp = []
  · subst hne; rw [Pop_empty w h1]; exact ⟨[], h1, h2, h3⟩
  · obtain ⟨_, _, _, _, _, _, _, _, _, _, _, r⟩ := Pop_of_HeapSorted w hp h1 h2 h3 hne
    exact r

theorem HeapSorted_exec (w : World) (c : Call) (h : HeapSorted w) :
    HeapSorted (exec w c).2 := by
  cases c with
  | new f => exact HeapSorted_new w f h
  | add p => exact HeapSorted_Add w p h
  | update p => exact HeapSorted_Update w p h
  | pop => exact HeapSorted_Pop w h

theorem HeapSorted_run (cs : List Call) (w : World) (h : HeapSorted w) :
    HeapSorted (run w cs) := by
  induction cs generalizing w with
  | nil => exact h
  | cons c cs ih => exact ih _ (HeapSorted_exec w c h)

theorem HeapSorted_heapWorld : HeapSorted heapWorld :=
  ⟨[], rfl, fun q hq => by simp at hq, fun k _ hk => by simp at hk⟩

/-- In every state reached from a cache with an empty heap by building entries
and calling `Add`, `Update` and `Pop`, if the heap is not empty then `Pop`
succeeds and hands out an entry of the heap that is not younger than any
entry of the heap. -/
theorem pop_oldest_of_heap_from_heapWorld (cs : List Call) (hp : List Nat)
    (hh : (run heapWorld cs).cache.heap = some hp) (hne : hp ≠ []) :
    ∃ q, (Pop (run heapWorld cs)).1 = .ok q ∧ q ∈ hp
      ∧ ∀ x ∈ hp, timeOf (run heapWorld cs).mem q ≤ timeOf (run heapWorld cs).mem x := by
  obtain ⟨hp1, h1, h2, h3⟩ := HeapSorted_run cs heapWorld HeapSorted_heapWorld
  rw [hh] at h1
  simp only [Option.some.injEq] at h1
  subst h1
  obtain ⟨q, f, hp2, e, _, _, _, _, hperm, hmin, _, _⟩ :=
    Pop_of_HeapSorted (run heapWorld cs) hp hh h2 h3 hne
  exact ⟨q, e, hperm.subset (List.mem_cons_self _ _), hmin⟩

/-! ## With a heap, popping everything returns the entries oldest first -/

theorem popMany_sorted (n : Nat) : ∀ (w : World) (hp : List Nat),
    w.cache.heap = some hp → hp.length = n → PtrsOK w.mem hp →
    IsHeap (timeOf w.mem) hp hp.length →
    (popMany n w).1.Perm hp
      ∧ ((popMany n w).1.map (timeOf w.mem)).Pairwise (fun a b => a ≤ b)
      ∧ (popMany n w).2.cache.heap = some []
      ∧ SameBodies w.mem (popMany n w).2.mem
      ∧ wrapInt (popMany n w).2.cache.size
          = wrapInt (w.cache.size - ((popMany n w).1.map (sizeAt w.mem)).sum) := by
  induction n with
  | zero =>
    intro w hp hh hl _ _
    have : hp = [] := List.length_eq_zero.mp hl
    subst this
    simp [popMany, hh, SameBodies_refl]
  | succ n ih =>
    intro w hp hh hl hok hs
    have hne : hp ≠ [] := by
      intro h0; rw [h0] at hl; simp at hl
    obtain ⟨q, f, hp1, e, eh, ef, esz, _, hperm, hmin, hb, hsorted⟩ :=
      Pop_of_HeapSorted w hp hh hok hs hne
    obtain ⟨hp2, g1, g2, g3⟩ := hsorted
    rw [eh] at g1
    simp only [Option.some.injEq] at g1
    subst g1
    have hl1 : hp1.length = n := by
      have := hperm.length_eq
      simp only [List.length_cons] at this
      omega
    obtain ⟨i1, i2, i3, i4, i5⟩ := ih (Pop w).2 hp1 eh hl1 g2 g3
    have ht : ∀ x, timeOf (Pop w).2.mem x = timeOf w.mem x := timeOf_of_bodies _ _ hb
    have hz : ∀ x, sizeAt (Pop w).2.mem x = sizeAt w.mem x := SameBodies_sizeAt _ _ hb
    have hq : sizeAt w.mem q = f.Size := by
      rw [← hz q]; exact sizeAt_of_get _ q f ef
    simp only [popMany, e]
    refine ⟨(List.Perm.cons q i1).trans hperm, ?_, i3, SameBodies_trans _ _ _ hb i4, ?_⟩
    · rw [List.map_cons, List.pairwise_cons]
      refine ⟨?_, ?_⟩
      · intro a ha
        obtain ⟨x, hx, rfl⟩ := List.mem_map.mp ha
        exact hmin x (hperm.subset (List.mem_cons_of_mem _ (i1.subset hx)))
      · have : (popMany n (Pop w).2).1.map (timeOf w.mem)
            = (popMany n (Pop w).2).1.map (timeOf (Pop w).2.mem) :=
          List.map_congr_left (fun x _ => (ht x).symm)
        rw [this]; exact i2
    · rw [i5, esz, wrapInt_wrapInt_sub]
      have : (popMany n (Pop w).2).1.map (sizeAt (Pop w).2.mem)
          = (popMany n (Pop w).2).1.map (sizeAt w.mem) :=
        List.map_congr_left (fun x _ => hz x)
      rw [this, List.map_cons, List.sum_cons, hq]
      congr 1
      omega

theorem addEntries_state (fs : List FileObject) : ∀ (w : World) (hp : List Nat),
    w.cache.heap = some hp → PtrsOK w.mem hp → IsHeap (timeOf w.mem) hp hp.length →
    (∀ f ∈ fs, tableGet w.cache.table f.Path = none) → (fs.map FileObject.Path).Nodup →
    ∃ hp1, (addEntries w fs).2.cache.heap = some hp1
      ∧ PtrsOK (addEntries w fs).2.mem hp1
      ∧ IsHeap (timeOf (addEntries w fs).2.mem) hp1 hp1.length
      ∧ hp1.Perm (hp ++ List.range' w.mem.length fs.length)
      ∧ (addEntries w fs).2.mem.map FileObject.body
          = w.mem.map FileObject.body ++ fs.map FileObject.body := by
  induction fs with
  | nil =>
    intro w hp hh hok hs _ _
    exact ⟨hp, hh, hok, hs, by simp, by simp [addEntries]⟩
  | cons f fs ih =>
    intro w hp hh hok hs hnt hnd
    have hm : ({ w with mem := w.mem ++ [f] } : World).mem[w.mem.length]? = some f := by
      simp
    have hsorted : HeapSorted ({ w with mem := w.mem ++ [f] } : World) :=
      HeapSorted_new w f ⟨hp, hh, hok, hs⟩
    obtain ⟨hp0, g1, g2, g3⟩ := hsorted
    have g1b : hp0 = hp := by
      have : some hp0 = some hp := by rw [← g1]; exact hh
      simpa using this
    subst g1b
    obtain ⟨m1, h1, hpush, e, _, hb, hok1⟩ := Add_with_heap { w with mem := w.mem ++ [f] }
      w.mem.length f hp0 hm (hnt f (List.mem_cons_self _ _)) hh g2
    have hq : ∀ q, timeOf (w.mem ++ [f]) q = timeOf m1 q := fun q =>
      (timeOf_of_bodies _ m1 hb q).symm
    have h4 : IsHeap (timeOf m1) hp0 hp0.length := by
      intro k hk hkn
      rw [← hq, ← hq]; exact g3 k hk hkn
    have h5 := heapPush_heap (timeOf m1) (w.mem ++ [f]) m1 hp0 h1 w.mem.length hq hpush h4
    simp only [List.map_cons, List.nodup_cons] at hnd
    have hnt1 : ∀ g ∈ fs, tableGet (tablePut w.cache.table f.Path w.mem.length) g.Path = none := by
      intro g hg
      rw [tableGet_tablePut]
      have hne : ¬ f.Path = g.Path := fun hfg => hnd.1 (by rw [hfg]; exact List.mem_map_of_mem _ hg)
      simp only [hne, if_false]
      exact hnt g (List.mem_cons_of_mem _ hg)
    obtain ⟨hp2, j1, j2, j3, j4, j5⟩ := ih { mem := m1, cache :=
        { size := wrapInt (w.cache.size + f.Size), heap := some h1,
          table := tablePut w.cache.table f.Path w.mem.length } } h1 rfl hok1 h5 hnt1 hnd.2
    have hl1 : m1.length = w.mem.length + 1 := by
      rw [SameBodies_length _ _ hb]; simp
    simp only [addEntries, e]
    refine ⟨hp2, j1, j2, j3, ?_, ?_⟩
    · refine j4.trans ?_
      simp only [hl1]
      have p1 := heapPush_perm _ m1 hp0 h1 w.mem.length hpush
      rw [List.length_cons, List.range'_succ]
      have := List.Perm.append_right (List.range' (w.mem.length + 1) fs.length) p1
      simpa using this
    · rw [j5]
      simp only
      rw [hb]
      simp

theorem map_sizeAt_range (m : Mem) :
    (List.range m.length).map (sizeAt m) = m.map FileObject.Size := by
  apply List.ext_getElem?
  intro k
  simp only [List.getElem?_map, List.getElem?_range']
  by_cases hk : k < m.length
  · rw [List.getElem?_range hk]
    simp [sizeAt, List.getElem?_eq_getElem hk]
  · rw [List.getElem?_eq_none (by simpa using hk), List.getElem?_eq_none (by simpa using hk)]
    simp

theorem sizes_of_bodies (m : Mem) (fs : List FileObject)
    (h : m.map FileObject.body = fs.map FileObject.body) :
    m.map FileObject.Size = fs.map FileObject.Size := by
  have := congrArg (List.map (fun b : Int × Int × String => b.1)) h
  simpa [List.map_map, Function.comp_def, FileObject.body] using this

theorem Pop_size_wrapped (w : World) (h : wrapInt w.cache.size = w.cache.size) :
    wrapInt (Pop w).2.cache.size = (Pop w).2.cache.size := by
  cases hh : w.cache.heap with
  | none => rw [Pop_nil_heap w hh]; exact h
  | some hp =>
    by_cases hne : hp = []
    · subst hne; rw [Pop_empty w hh]; exact h
    · cases hx : heapPop w.mem hp with
      | none => rw [Pop_heap_panics w hp hh hne hx]; exact h
      | some r =>
        obtain ⟨m1, h1, q⟩ := r
        cases hq : m1[q]? with
        | none => rw [Pop_nil_item w hp h1 m1 q hh hne hx hq]; exact h
        | some f => rw [Pop_popped w hp h1 m1 q f hh hne hx hq]; exact wrapInt_idem _

theorem popMany_size_wrapped (n : Nat) : ∀ w : World, wrapInt w.cache.size = w.cache.size →
    wrapInt (popMany n w).2.cache.size = (popMany n w).2.cache.size := by
  induction n with
  | zero => intro w h; exact h
  | succ n ih =>
    intro w h
    have h1 := Pop_size_wrapped w h
    simp only [popMany]
    cases (Pop w).1 with
    | ok q => exact ih _ h1
    | error e => exact h1
    | panic => exact h1

theorem addEntries_PathsOK (fs : List FileObject) : ∀ w : World, PathsOK w →
    PathsOK (addEntries w fs).2 := by
  induction fs with
  | nil => intro w h; exact h
  | cons f fs ih =>
    intro w h
    exact ih _ (PathsOK_Add _ _ (PathsOK_new w f h))

theorem popMany_PathsOK (n : Nat) : ∀ w : World, PathsOK w → PathsOK (popMany n w).2 := by
  induction n with
  | zero => intro w h; exact h
  | succ n ih =>
    intro w h
    have h1 := PathsOK_Pop w h
    simp only [popMany]
    cases (Pop w).1 with
    | ok q => exact ih _ h1
    | error e => exact h1
    | panic => exact h1

/-- On a cache like the one `NewCache` returns but with a heap: entries with
pairwise distinct paths are added (every `Add` succeeds, and the entries sit in
memory in the order of adding), and `Pop` is called as many times.  Every `Pop`
succeeds; the entries handed out are the added entries, each once, in
non-decreasing order of their times; and the cache ends with no table row,
`Count()` 0 and `Size()` 0. -/
theorem add_then_pop_all_with_heap (fs : List FileObject)
    (hnd : (fs.map FileObject.Path).Nodup) :
    (addEntries heapWorld fs).1 = List.replicate fs.length (.ok ())
    ∧ (addEntries heapWorld fs).2.mem.map FileObject.body = fs.map FileObject.body
    ∧ (popMany fs.length (addEntries heapWorld fs).2).1.Perm (List.range fs.length)
    ∧ ((popMany fs.length (addEntries heapWorld fs).2).1.map
        (timeOf (addEntries heapWorld fs).2.mem)).Pairwise (fun a b => a ≤ b)
    ∧ (popMany fs.length (addEntries heapWorld fs).2).2.cache.table = []
    ∧ Count (popMany fs.length (addEntries heapWorld fs).2).2 = .ok 0
    ∧ Size (popMany fs.length (addEntries heapWorld fs).2).2 = 0 := by
  obtain ⟨a1, a2, a3⟩ := addEntries_heapWorld fs hnd
  obtain ⟨hp1, b1, b2, b3, b4, b5⟩ := addEntries_state fs heapWorld [] rfl
    (fun q hq => by simp at hq) (fun k _ hk => by simp at hk) (fun f _ => rfl) hnd
  have hb5 : (addEntries heapWorld fs).2.mem.map FileObject.body = fs.map FileObject.body := by
    simpa [heapWorld] using b5
  have hb4 : hp1.Perm (List.range fs.length) := by
    simpa [heapWorld, List.range_eq_range'] using b4
  have hl : hp1.length = fs.length := by
    rw [hb4.length_eq]; simp
  have hml : (addEntries heapWorld fs).2.mem.length = fs.length := by
    have := congrArg List.length hb5
    simpa using this
  obtain ⟨c1, c2, c3, _, c5⟩ :=
    popMany_sorted fs.length (addEntries heapWorld fs).2 hp1 b1 hl b2 b3
  have hpok := popMany_PathsOK fs.length _
    (addEntries_PathsOK fs heapWorld PathsOK_heapWorld)
  obtain ⟨hp2, d1, _, d3, _⟩ := hpok
  rw [c3] at d1
  simp only [Option.some.injEq] at d1
  subst d1
  have htab : (popMany fs.length (addEntries heapWorld fs).2).2.cache.table = [] := by
    have := d3.length_eq
    simp only [List.map_nil, List.length_nil, List.length_map] at this
    exact List.length_eq_zero.mp this.symm
  refine ⟨a1, hb5, c1.trans hb4, c2, htab, by simp [Count, c3], ?_⟩
  have hw : wrapInt (addEntries heapWorld fs).2.cache.size
      = (addEntries heapWorld fs).2.cache.size := by
    have : (addEntries heapWorld fs).2.cache.size = wrapInt ((fs.map FileObject.Size).sum) := a3
    rw [this, wrapInt_idem]
  have hfin := popMany_size_wrapped fs.length _ hw
  have hsum : ((popMany fs.length (addEntries heapWorld fs).2).1.map
      (sizeAt (addEntries heapWorld fs).2.mem)).sum = (fs.map FileObject.Size).sum := by
    rw [((c1.trans hb4).map _).sum_eq, ← hml, map_sizeAt_range,
      sizes_of_bodies _ fs hb5]
  show (popMany fs.length (addEntries heapWorld fs).2).2.cache.size = 0
  rw [← hfin, c5, hsum]
  have : (addEntries heapWorld fs).2.cache.size = wrapInt ((fs.map FileObject.Size).sum) := a3
  rw [this, wrapInt_wrapInt_sub, sub_self, wrapInt_zero]

/-! ## With a heap, `Prune` evicts the oldest entries first, and no more than needed -/

theorem popMany_oldest_first (n : Nat) : ∀ (w : World) (hp : List Nat),
    w.cache.heap = some hp → n ≤ hp.length → PtrsOK w.mem hp →
    IsHeap (timeOf w.mem) hp hp.length →
    (popMany n w).1.length = n
      ∧ ((popMany n w).1.map (timeOf w.mem)).Pairwise (fun a b => a ≤ b)
      ∧ ∃ hp1, (popMany n w).2.cache.heap = some hp1
          ∧ ((popMany n w).1 ++ hp1).Perm hp
          ∧ (∀ x ∈ (popMany n w).1, ∀ y ∈ hp1, timeOf w.mem x ≤ timeOf w.mem y) := by
  induction n with
  | zero =>
    intro w hp hh _ _ _
    exact ⟨rfl, by simp [popMany], hp, hh, by simp [popMany], by simp [popMany]⟩
  | succ n ih =>
    intro w hp hh hl hok hs
    have hne : hp ≠ [] := by
      intro h0; rw [h0] at hl; simp at hl
    obtain ⟨q, f, hp1, e, eh, ef, esz, _, hperm, hmin, hb, hsorted⟩ :=
      Pop_of_HeapSorted w hp hh hok hs hne
    obtain ⟨hp2, g1, g2, g3⟩ := hsorted
    rw [eh] at g1
    simp only [Option.some.injEq] at g1
    subst g1
    have hl1 : n ≤ hp1.length := by
      have := hperm.length_eq
      simp only [List.length_cons] at this
      omega
    obtain ⟨i1, i2, hp3, i3, i4, i5⟩ := ih (Pop w).2 hp1 eh hl1 g2 g3
    have ht : ∀ x, timeOf (Pop w).2.mem x = timeOf w.mem x := timeOf_of_bodies _ _ hb
    simp only [popMany, e]
    refine ⟨by simp [i1], ?_, hp3, i3, ?_, ?_⟩
    · rw [List.map_cons, List.pairwise_cons]
      refine ⟨?_, ?_⟩
      · intro a ha
        obtain ⟨x, hx, rfl⟩ := List.mem_map.mp ha
        exact hmin x (hperm.subset (List.mem_cons_of_mem _
          (i4.subset (List.mem_append_left _ hx))))
      · have : (popMany n (Pop w).2).1.map (timeOf w.mem)
            = (popMany n (Pop w).2).1.map (timeOf (Pop w).2.mem) :=
          List.map_congr_left (fun x _ => (ht x).symm)
        rw [this]; exact i2
    · exact (List.Perm.cons q i4).trans hperm
    · intro x hx y hy
      simp only [List.mem_cons] at hx
      rcases hx with hx | hx
      · rw [hx]
        exact hmin y (hperm.subset (List.mem_cons_of_mem _
          (i4.subset (List.mem_append_right _ hy))))
      · rw [← ht x, ← ht y]
        exact i5 x hx y hy

theorem pruneLoop_pops (maxSize : Int) (fuel : Nat) : ∀ (w : World) (d : List String)
    (errs : List CacheError) (k : Nat), HeapSorted w → heapLen w < fuel →
    ∃ r j, pruneLoop logRemove maxSize false fuel w d errs k = some r
      ∧ r.panicked = false ∧ r.errors = errs ∧ r.evictions = k + j
      ∧ r.world = (popMany j w).2
      ∧ (popMany j w).1.length = j
      ∧ r.storage = d ++ (popMany j w).1.map (pathOf w.mem)
      ∧ (∀ i, i < j → underQuota (popMany i w).2 maxSize = .ok false)
      ∧ underQuota r.world maxSize = .ok true := by
  induction fuel with
  | zero => intro w d errs k _ hf; omega
  | succ fuel ih =>
    intro w d errs k hw hf
    obtain ⟨hp, hh, hok, hs⟩ := hw
    by_cases hne : hp = []
    · subst hne
      have hq := underQuota_empty w maxSize hh
      exact ⟨⟨false, errs, w, d, k⟩, 0, by simp [pruneLoop, hq], rfl, rfl, rfl, rfl, rfl,
        by simp [popMany], fun i hi => by omega, hq⟩
    · by_cases hsz : Size w ≤ maxSize
      · have hq := underQuota_under w maxSize hp hh hsz
        exact ⟨⟨false, errs, w, d, k⟩, 0, by simp [pruneLoop, hq], rfl, rfl, rfl, rfl, rfl,
          by simp [popMany], fun i hi => by omega, hq⟩
      · have hq := underQuota_over w maxSize hp hh hne hsz
        obtain ⟨q, f, hp1, e, eh, ef, _, _, hperm, _, hb, hsorted⟩ :=
          Pop_of_HeapSorted w hp hh hok hs hne
        have hlen : heapLen (Pop w).2 < fuel := by
          have h1 := heapLen_of w hp hh
          have h2 := heapLen_of (Pop w).2 hp1 eh
          have := hperm.length_eq
          simp only [List.length_cons] at this
          omega
        obtain ⟨r, j, e1, e2, e3, e4, e5, e6, e7, e8, e9⟩ :=
          ih (Pop w).2 (d ++ [f.Path]) errs (k + 1) hsorted hlen
        have hpath : pathOf w.mem q = f.Path := by
          rw [← pathOf_of_bodies w.mem _ hb q]; exact pathOf_of_get _ q f ef
        refine ⟨r, j + 1, ?_, e2, e3, by omega, ?_, ?_, ?_, ?_, e9⟩
        · simp only [pruneLoop, hq, prunePass_eq, e, ef, logRemove, Bool.false_eq_true,
            if_false]
          exact e1
        · simp only [popMany, e]; exact e5
        · simp only [popMany, e, List.length_cons, e6]
        · simp only [popMany, e, List.map_cons, hpath]
          rw [e7, List.append_assoc]
          congr 1
          simp only [List.singleton_append, List.cons.injEq, true_and]
          exact List.map_congr_left (fun x _ => pathOf_of_bodies w.mem _ hb x)
        · intro i hi
          cases i with
          | zero => exact hq
          | succ i =>
            simp only [popMany, e]
            exact e8 i (by omega)

/-- On a cache whose heap is in heap order, `Prune(maxSize, false)` with a
storage that records the removals returns nil after evicting the entries that
`Pop` hands out first, in non-decreasing order of their times and each not
younger than any entry it leaves; it removes their paths in that order; the
quota condition did not hold before any of the evictions, and holds at the
end. -/
theorem Prune_oldest_first (maxSize : Int) (w : World) (d : List String)
    (hw : HeapSorted w) :
    ∃ r, Prune logRemove maxSize false w d = some r
      ∧ r.panicked = false ∧ r.errors = []
      ∧ r.world = (popMany r.evictions w).2
      ∧ (popMany r.evictions w).1.length = r.evictions
      ∧ r.storage = d ++ (popMany r.evictions w).1.map (pathOf w.mem)
      ∧ ((popMany r.evictions w).1.map (timeOf w.mem)).Pairwise (fun a b => a ≤ b)
      ∧ (∀ hp1, r.world.cache.heap = some hp1 →
          ∀ x ∈ (popMany r.evictions w).1, ∀ y ∈ hp1, timeOf w.mem x ≤ timeOf w.mem y)
      ∧ (∀ i, i < r.evictions → underQuota (popMany i w).2 maxSize = .ok false)
      ∧ underQuota r.world maxSize = .ok true := by
  obtain ⟨r, j, e1, e2, e3, e4, e5, e6, e7, e8, e9⟩ :=
    pruneLoop_pops maxSize (heapLen w + 1) w d [] 0 hw (by omega)
  have hj : r.evictions = j := by omega
  subst hj
  obtain ⟨hp, hh, hok, hs⟩ := hw
  have hle : r.evictions ≤ hp.length := by
    obtain ⟨r2, f1, f2, f3, f4, f5⟩ :=
      Prune_with_heap_ends logRemove maxSize false w d ⟨hp, hh, hok⟩
    unfold Prune at f1
    rw [e1] at f1
    simp only [Option.some.injEq] at f1
    subst f1
    rw [heapLen_of w hp hh] at f4
    exact f4
  obtain ⟨_, g2, hp1, g3, _, g5⟩ := popMany_oldest_first r.evictions w hp hh hle hok hs
  refine ⟨r, e1, e2, e3, e5, e6, e7, g2, ?_, e8, e9⟩
  intro hp2 h2 x hx y hy
  rw [e5, g3] at h2
  simp only [Option.some.injEq] at h2
  subst h2
  exact g5 x hx y hy

/-- A cache built from one with an empty heap by adding entries with pairwise
distinct paths has a heap in heap order, so `Prune` evicts its oldest entries
first, and no more than needed (`Prune_oldest_first`). -/
theorem addEntries_HeapSorted (fs : List FileObject)
    (hnd : (fs.map FileObject.Path).Nodup) : HeapSorted (addEntries heapWorld fs).2 := by
  obtain ⟨hp1, b1, b2, b3, _, _⟩ := addEntries_state fs heapWorld [] rfl
    (fun q hq => by simp at hq) (fun k _ hk => by simp at hk) (fun f _ => rfl) hnd
  exact ⟨hp1, b1, b2, b3⟩

/-! ## With a heap and without `Update`, the table rows are the entries of the heap -/

theorem tableGet_of_mem_nodup (t : List (String × Nat)) (k : String) (v : Nat)
    (hn : (t.map Prod.fst).Nodup) (hm : (k, v) ∈ t) : tableGet t k = some v := by
  induction t with
  | nil => simp at hm
  | cons a t ih =>
    obtain ⟨k1, v1⟩ := a
    simp only [List.map_cons, List.nodup_cons] at hn
    simp only [List.mem_cons, Prod.mk.injEq] at hm
    rcases hm with hm | hm
    · obtain ⟨e1, e2⟩ := hm
      subst e1; subst e2
      simp [tableGet]
    · have hk : ¬ k1 = k := by
        intro e
        subst e
        exact hn.1 (List.mem_map.mpr ⟨(k1, v), hm, rfl⟩)
      simp only [tableGet, hk, if_false]
      exact ih hn.2 hm

theorem values_tableDelete (t : List (String × Nat)) (k : String) (v : Nat)
    (hn : (t.map Prod.fst).Nodup) (hg : tableGet t k = some v) :
    (t.map Prod.snd).Perm (v :: (tableDelete t k).map Prod.snd) := by
  induction t with
  | nil => simp [tableGet] at hg
  | cons a t ih =>
    obtain ⟨k1, v1⟩ := a
    simp only [List.map_cons, List.nodup_cons] at hn
    by_cases hk : k1 = k
    · subst hk
      simp only [tableGet, if_true, Option.some.injEq] at hg
      subst hg
      simp [tableDelete, tableDelete_of_not_mem t k1 hn.1]
    · simp only [tableGet, hk, if_false] at hg
      simp only [tableDelete, hk, if_false, List.map_cons]
      exact (List.Perm.cons v1 (ih hn.2 hg)).trans (List.Perm.swap v v1 _)

theorem mem_tableDelete (t : List (String × Nat)) (k : String) (kp : String × Nat)
    (h : kp ∈ tableDelete t k) : kp ∈ t := by
  induction t with
  | nil => simp [tableDelete] at h
  | cons a t ih =>
    obtain ⟨k1, v1⟩ := a
    by_cases hk : k1 = k
    · simp only [tableDelete, hk, if_true] at h
      exact List.mem_cons_of_mem _ (ih h)
    · simp only [tableDelete, hk, if_false, List.mem_cons] at h
      rcases h with h | h
      · simp [h]
      · exact List.mem_cons_of_mem _ (ih h)

theorem tableSizeSum_eq (m : Mem) (t : List (String × Nat)) :
    (t.map (fun kp => sizeAt m kp.2)).sum = ((t.map Prod.snd).map (sizeAt m)).sum := by
  simp [List.map_map, Function.comp_def]

theorem TableIsHeap_new (w : World) (f : FileObject) (h : TableIsHeap w) :
    TableIsHeap { w with mem := w.mem ++ [f] } := by
  obtain ⟨hp, h1, h2, h3, h4, h5, h6⟩ := h
  have hv : ∀ kp ∈ w.cache.table, kp.2 < w.mem.length := fun kp hkp =>
    h2 kp.2 (h3.subset (List.mem_map_of_mem _ hkp))
  refine ⟨hp, h1, ?_, h3, ?_, h5, ?_⟩
  · intro q hq
    have := h2 q hq
    simp only [List.length_append, List.length_singleton]
    omega
  · intro kp hkp
    show pathOf (w.mem ++ [f]) kp.2 = kp.1
    rw [pathOf_append w.mem f kp.2 (hv kp hkp)]
    exact h4 kp hkp
  · show w.cache.size = wrapInt ((w.cache.table.map (fun kp => sizeAt (w.mem ++ [f]) kp.2)).sum)
    rw [sum_sizes_congr (sizeAt (w.mem ++ [f])) (sizeAt w.mem) w.cache.table
      (fun kp hkp => sizeAt_append w.mem f kp.2 (hv kp hkp))]
    exact h6

theorem TableIsHeap_Add (w : World) (p : Nat) (h : TableIsHeap w) :
    TableIsHeap (Add w p).2 := by
  obtain ⟨hp, h1, h2, h3, h4, h5, h6⟩ := h
  cases hm : w.mem[p]? with
  | none => rw [Add_nil_entry w p hm]; exact ⟨hp, h1, h2, h3, h4, h5, h6⟩
  | some f =>
    cases ht : tableGet w.cache.table f.Path with
    | some e1 => rw [Add_tracked w p f e1 hm ht]; exact ⟨hp, h1, h2, h3, h4, h5, h6⟩
    | none =>
      obtain ⟨m1, hp1, hpush, e, _, hb, hok⟩ := Add_with_heap w p f hp hm ht h1 h2
      rw [e]
      have hput := tablePut_of_get_none w.cache.table f.Path p ht
      refine ⟨hp1, rfl, hok, ?_, ?_, ?_, ?_⟩
      · show ((tablePut w.cache.table f.Path p).map Prod.snd).Perm hp1
        rw [hput, List.map_append]
        exact (List.Perm.append_right _ h3).trans (heapPush_perm w.mem m1 hp hp1 p hpush).symm
      · intro kp hkp
        show pathOf m1 kp.2 = kp.1
        rw [pathOf_of_bodies w.mem m1 hb]
        have hkp1 : kp ∈ tablePut w.cache.table f.Path p := hkp
        rw [hput, List.mem_append] at hkp1
        rcases hkp1 with hk | hk
        · exact h4 kp hk
        · simp only [List.mem_singleton] at hk
          rw [hk]
          exact pathOf_of_get w.mem p f hm
      · show ((tablePut w.cache.table f.Path p).map Prod.fst).Nodup
        rw [keys_tablePut_new _ _ _ ht, List.nodup_append]
        refine ⟨h5, by simp, ?_⟩
        intro a ha hb2
        simp only [List.mem_singleton] at hb2
        subst hb2
        exact not_mem_keys_of_get_none _ _ ht ha
      · show wrapInt (w.cache.size + f.Size)
          = wrapInt (((tablePut w.cache.table f.Path p).map (fun kp => sizeAt m1 kp.2)).sum)
        rw [sum_sizes_congr (sizeAt m1) (sizeAt w.mem) _
          (fun kp _ => SameBodies_sizeAt w.mem m1 hb kp.2), hput, h6]
        simp only [List.map_append, List.sum_append, List.map_cons, List.map_nil,
          List.sum_cons, List.sum_nil, add_zero, sizeAt_of_get w.mem p f hm]
        exact wrapInt_wrapInt_add _ _

theorem TableIsHeap_Pop (w : World) (h : TableIsHeap w) : TableIsHeap (Pop w).2 := by
  obtain ⟨hp, h1, h2, h3, h4, h5, h6⟩ := h
  by_cases hne : hp = []
  · subst hne; rw [Pop_empty w h1]; exact ⟨[], h1, h2, h3, h4, h5, h6⟩
  · obtain ⟨m1, hp1, q, f, hpop, e, hf, hok⟩ := Pop_with_heap w hp h1 h2 hne
    rw [e]
    have hb := heapPop_bodies w.mem m1 hp hp1 q hpop
    have hperm := heapPop_perm w.mem m1 hp hp1 q hpop
    have hqp : pathOf w.mem q = f.Path := by
      rw [← pathOf_of_bodies w.mem m1 hb q]; exact pathOf_of_get m1 q f hf
    have hqs : sizeAt w.mem q = f.Size := by
      rw [← SameBodies_sizeAt w.mem m1 hb q]; exact sizeAt_of_get m1 q f hf
    have hqv : q ∈ w.cache.table.map Prod.snd :=
      h3.symm.subset (hperm.subset (List.mem_cons_self _ _))
    obtain ⟨kp, hkp, hkq⟩ := List.mem_map.mp hqv
    have hk1 : kp.1 = f.Path := by
      rw [← h4 kp hkp, hkq]; exact hqp
    have hrow : (f.Path, q) ∈ w.cache.table := by
      rw [← hk1, ← hkq]; exact hkp
    have hget := tableGet_of_mem_nodup _ _ _ h5 hrow
    have hval := values_tableDelete _ _ _ h5 hget
    refine ⟨hp1, rfl, hok, ?_, ?_, ?_, ?_⟩
    · show ((tableDelete w.cache.table f.Path).map Prod.snd).Perm hp1
      have : (q :: (tableDelete w.cache.table f.Path).map Prod.snd).Perm (q :: hp1) :=
        hval.symm.trans (h3.trans hperm.symm)
      exact this.cons_inv
    · intro kp2 hkp2
      show pathOf m1 kp2.2 = kp2.1
      rw [pathOf_of_bodies w.mem m1 hb]
      exact h4 kp2 (mem_tableDelete _ _ _ hkp2)
    · show ((tableDelete w.cache.table f.Path).map Prod.fst).Nodup
      rw [keys_tableDelete _ _ h5]
      exact h5.erase _
    · show wrapInt (w.cache.size - f.Size)
        = wrapInt (((tableDelete w.cache.table f.Path).map (fun kp => sizeAt m1 kp.2)).sum)
      rw [sum_sizes_congr (sizeAt m1) (sizeAt w.mem) _
        (fun kp _ => SameBodies_sizeAt w.mem m1 hb kp.2), h6]
      have hs : tableSizeSum w
          = f.Size + ((tableDelete w.cache.table f.Path).map (fun kp => sizeAt w.mem kp.2)).sum := by
        unfold tableSizeSum
        rw [tableSizeSum_eq, tableSizeSum_eq, (hval.map (sizeAt w.mem)).sum_eq,
          List.map_cons, List.sum_cons, hqs]
      rw [wrapInt_wrapInt_sub, hs]
      congr 1
      omega

theorem TableIsHeap_run (cs : List Call) : ∀ w : World, TableIsHeap w →
    (∀ c ∈ cs, c.isUpdate = false) → TableIsHeap (run w cs) := by
  induction cs with
  | nil => intro w h _; exact h
  | cons c cs ih =>
    intro w h hc
    have hrest : ∀ c1 ∈ cs, c1.isUpdate = false := fun c1 h1 =>
      hc c1 (List.mem_cons_of_mem _ h1)
    have hhead := hc c (List.mem_cons_self _ _)
    cases c with
    | new f => exact ih _ (TableIsHeap_new w f h) hrest
    | add p => exact ih _ (TableIsHeap_Add w p h) hrest
    | update p => simp [Call.isUpdate] at hhead
    | pop => exact ih _ (TableIsHeap_Pop w h) hrest

theorem TableIsHeap_heapWorld : TableIsHeap heapWorld :=
  ⟨[], rfl, fun q hq => by simp at hq, List.Perm.refl _, fun kp hkp => by
    simp [heapWorld, NewCache] at hkp, List.nodup_nil, by
    simp [heapWorld, NewCache, tableSizeSum, wrapInt_zero]⟩

/-! ## From `NewCache` no call ever succeeds -/

theorem Update_not_ok_of_nil_heap (w : World) (p : Nat) (hn : w.cache.heap = none) :
    (Update w p).1 ≠ .ok () := by
  cases hm : w.mem[p]? with
  | none => rw [Update_nil_entry _ p hm]; simp
  | some f =>
    cases ht : tableGet w.cache.table f.Path with
    | none => rw [Update_untracked _ p f hm ht]; simp
    | some e1 =>
      cases he : w.mem[e1]? with
      | none => rw [Update_nil_existing _ p f e1 hm ht he]; simp
      | some x => rw [Update_nil_heap _ p f e1 x hm ht he hn]; simp

theorem lastPassed_of_NilInv (cs : List Call) : ∀ (w : World) (g : String → Option Nat),
    NilInv w → ∀ k, lastPassed w cs g k = g k := by
  induction cs with
  | nil => intro w g _ k; rfl
  | cons c cs ih =>
    intro w g hw k
    have hnext := NilInv_exec w c hw
    simp only [lastPassed]
    rw [ih _ _ hnext k]
    cases c with
    | new f => rfl
    | add p =>
      have hno := Add_not_ok_of_nil_heap w p hw.1
      simp only [exec]
      cases ho : (Add w p).1 with
      | ok u => exact absurd ho hno
      | error e => rfl
      | panic => rfl
    | update p =>
      have hno := Update_not_ok_of_nil_heap w p hw.1
      simp only [exec]
      cases ho : (Update w p).1 with
      | ok u => exact absurd ho hno
      | error e => rfl
      | panic => rfl
    | pop =>
      have hp : (Pop w).1 = .panic := by rw [Pop_nil_heap w hw.1]
      simp only [exec]
      cases ho : (Pop w).1 with
      | ok q => rw [hp] at ho; simp at ho
      | error e => rfl
      | panic => rfl

/-! ## `Get` after calls that do not panic -/

/-- Start from a cache whose table is empty (the one `NewCache` returns, or
one with a heap) and make any calls that build entries and call `Add`,
`Update` and `Pop`, none of which panics.  Then `Get(path)` fails exactly when
the successful calls leave `path` untracked (never added, or added and since
popped), it returns otherwise the entry most recently passed to a successful
`Add` or `Update` for `path`, and it leaves the whole state as it was. -/
theorem get_follows_successful_calls (m : Mem) (c0 : LruCache) (cs : List Call)
    (path : String) (hc : c0.table = [])
    (hnp : ∀ o ∈ outcomes ⟨m, c0⟩ cs, o ≠ .panic) :
    Get (run ⟨m, c0⟩ cs) path =
      (match lastPassed ⟨m, c0⟩ cs (fun _ => none) path with
        | some p => .ok p
        | none => .error .notInCache,
       run ⟨m, c0⟩ cs) := by
  have h := tableGet_run_eq_lastPassed cs ⟨m, c0⟩ (fun _ => none)
    (fun k => by simp [hc, tableGet]) hnp path
  unfold Get
  rw [h]
  cases lastPassed ⟨m, c0⟩ cs (fun _ => none) path <;> rfl

theorem get_follows_successful_calls_example :
    heapWorld.cache.table = []
    ∧ (∀ o ∈ outcomes ⟨[], heapWorld.cache⟩ getCalls, o ≠ .panic)
    ∧ Get (run ⟨[], heapWorld.cache⟩ getCalls) "b" =
      (match lastPassed ⟨[], heapWorld.cache⟩ getCalls (fun _ => none) "b" with
        | some p => .ok p
        | none => .error .notInCache,
       run ⟨[], heapWorld.cache⟩ getCalls) :=
  ⟨by decide, by decide,
    get_follows_successful_calls [] heapWorld.cache getCalls "b" (by decide) (by decide)⟩

/-! ## The claims -/

/-- C1 (defect in the code).  `NewCache` leaves the heap pointer nil, so in
every state reached from it `Pop` panics, also in the state where `Add` has
recorded the entry "a" in the table before panicking itself.  On a cache
with a heap, `Update` gives the new entry to the table only: after adding a
(time 5) and b (time 3) and updating a to time 1, `Get` reports time 1 for a,
and `Pop` hands out b, of time 3. -/
theorem pop_panics_or_misses_oldest :
    (∀ cs : List Call, (Pop (run newWorld cs)).1 = .panic)
    ∧ (Add (run newWorld [.new ⟨1, 1, "a", 0⟩]) 0).1 = .panic
    ∧ (Get addedWorld "a").1 = .ok 0
    ∧ (Pop addedWorld).1 = .panic
    ∧ outcomes heapWorld olderCalls = List.replicate 6 (.ok none)
    ∧ (Get (run heapWorld olderCalls) "a").1 = .ok 2
    ∧ timeAt (run heapWorld olderCalls).mem 2 = some 1
    ∧ (Pop (run heapWorld olderCalls)).1 = .ok 1
    ∧ timeAt (Pop (run heapWorld olderCalls)).2.mem 1 = some 3 := by
  refine ⟨fun cs => ?_, by decide, by decide, by decide, by decide, by decide, by decide,
    by decide, by decide⟩
  rw [Pop_nil_heap _ (NilInv_run cs newWorld NilInv_newWorld).1]

/-- Sizes that overflow: two entries of sizes 9223372036854775807 (the largest
`int`) and 1 are added.  On the cache that `NewCache` returns both calls of
`Add` panic after recording their entry, on a cache with a heap both succeed;
either way `c.size += f.Size` wraps around, and `Size()` is -9223372036854775808
while the sizes of the two entries in the table sum to 9223372036854775808.
(On a cache with a heap the two also part without overflow, once `Update` is
followed by `Pop`: after an entry of size 5 is added, updated to size 7 and
popped, the table is empty and `Size()` is 2.) -/
theorem size_is_not_the_exact_sum :
    outcomes newWorld overflowCalls = [.ok none, .panic, .ok none, .panic]
    ∧ (run newWorld overflowCalls).cache.table = [("a", 0), ("b", 1)]
    ∧ Size (run newWorld overflowCalls) = -9223372036854775808
    ∧ tableSizeSum (run newWorld overflowCalls) = 9223372036854775808
    ∧ Size (run newWorld overflowCalls) ≠ tableSizeSum (run newWorld overflowCalls)
    ∧ outcomes heapWorld overflowCalls = List.replicate 4 (.ok none)
    ∧ Size (run heapWorld overflowCalls) ≠ tableSizeSum (run heapWorld overflowCalls)
    ∧ outcomes heapWorld resizeCalls = [.ok none, .ok none, .ok none, .ok none, .ok (some 0)]
    ∧ (run heapWorld resizeCalls).cache.table = []
    ∧ Size (run heapWorld resizeCalls) = 2 := by
  refine ⟨by decide, by decide, by decide, by decide, by decide, by decide, by decide,
    by decide, by decide, by decide⟩

/-- C2 (amended).  In every state reached from `NewCache` by calls that build
entries and call `Add`, `Update` and `Pop` (whatever their outcome), `Size()`
is the sum of the sizes of the entries in the table as `int` arithmetic
computes it, that is, reduced to the 64-bit range; it is the exact sum whenever
that sum fits in an `int`.  The same equation holds in every state reached
from a cache with an empty heap by calls that build entries and call `Add` and
`Pop` (there the calls succeed, and `Pop` takes the size of the entry it hands
out off the total). -/
theorem size_is_table_sum_in_int_arithmetic (cs : List Call) :
    Size (run newWorld cs) = wrapInt (tableSizeSum (run newWorld cs))
    ∧ (-(2 ^ 63) ≤ tableSizeSum (run newWorld cs) → tableSizeSum (run newWorld cs) < 2 ^ 63 →
        Size (run newWorld cs) = tableSizeSum (run newWorld cs))
    ∧ ((∀ c ∈ cs, c.isUpdate = false) →
        Size (run heapWorld cs) = wrapInt (tableSizeSum (run heapWorld cs))) := by
  have h1 : Size (run newWorld cs) = wrapInt (tableSizeSum (run newWorld cs)) :=
    (NilInv_run cs newWorld NilInv_newWorld).2.2
  refine ⟨h1, fun a b => ?_, fun hc => ?_⟩
  · rw [h1]; exact wrapInt_of_range _ a b
  · obtain ⟨_, _, _, _, _, _, h6⟩ := TableIsHeap_run cs heapWorld TableIsHeap_heapWorld hc
    exact h6

theorem size_is_table_sum_in_int_arithmetic_witness :
    (-(2 ^ 63) ≤ tableSizeSum (run newWorld quotaCalls)
      ∧ tableSizeSum (run newWorld quotaCalls) < 2 ^ 63
      ∧ Size (run newWorld quotaCalls) = tableSizeSum (run newWorld quotaCalls))
    ∧ tableSizeSum (run newWorld quotaCalls) = 30
    ∧ (∀ c ∈ quotaCalls ++ [Call.pop], c.isUpdate = false)
    ∧ Size (run heapWorld (quotaCalls ++ [Call.pop]))
        = wrapInt (tableSizeSum (run heapWorld (quotaCalls ++ [Call.pop])))
    ∧ outcomes heapWorld (quotaCalls ++ [Call.pop])
        = [.ok none, .ok none, .ok none, .ok none, .ok (some 0)]
    ∧ tableSizeSum (run heapWorld (quotaCalls ++ [Call.pop])) = 20 :=
  ⟨⟨by decide, by decide,
      (size_is_table_sum_in_int_arithmetic quotaCalls).2.1 (by decide) (by decide)⟩,
    by decide, by decide,
    (size_is_table_sum_in_int_arithmetic (quotaCalls ++ [Call.pop])).2.2 (by decide),
    by decide, by decide⟩

/-- C3 (defect in the code).  `NewCache` leaves the heap pointer nil: the first
`Add` of any entry panics at `c.heap.Push(f)`, no `Add` ever returns success in
a state reached from `NewCache`, and `Count()` panics in all of them. -/
theorem add_to_new_cache_panics :
    (∀ f : FileObject, (Add (run newWorld [.new f]) 0).1 = .panic)
    ∧ (∀ (cs : List Call) (p : Nat), (Add (run newWorld cs) p).1 ≠ .ok ())
    ∧ (∀ cs : List Call, Count (run newWorld cs) = .panic) := by
  refine ⟨fun f => ?_, fun cs p => ?_, fun cs => ?_⟩
  · have hm : (run newWorld [.new f]).mem[0]? = some f := rfl
    rw [Add_nil_heap _ 0 f hm rfl rfl]
  · have hn := (NilInv_run cs newWorld NilInv_newWorld).1
    cases hm : (run newWorld cs).mem[p]? with
    | none => rw [Add_nil_entry _ p hm]; simp
    | some f =>
      cases ht : tableGet (run newWorld cs).cache.table f.Path with
      | some e1 => rw [Add_tracked _ p f e1 hm ht]; simp
      | none => rw [Add_nil_heap _ p f hm ht hn]; simp
  · have hn := (NilInv_run cs newWorld NilInv_newWorld).1
    simp [Count, hn]

/-- C4.  In every state, `Add` of an entry whose path the table already holds
returns an error and leaves the whole state (size, table, heap, entries) as it
was; so does any number of repetitions of that call. -/
theorem add_tracked_path_rejected (w : World) (p : Nat) (f : FileObject) (e : Nat)
    (hm : w.mem[p]? = some f) (ht : tableGet w.cache.table f.Path = some e) :
    Add w p = (.error .alreadyExists, w)
    ∧ ∀ n : Nat, run w (List.replicate n (.add p)) = w := by
  have h1 := Add_tracked w p f e hm ht
  refine ⟨h1, fun n => ?_⟩
  induction n with
  | zero => rfl
  | succ n ih =>
    simp only [List.replicate_succ, run, exec, h1]
    exact ih

theorem add_tracked_path_rejected_witness :
    (run heapWorld [.new ⟨5, 1, "x", 0⟩, .new ⟨5, 2, "x", 0⟩, .add 0]).mem[1]?
        = some ⟨5, 2, "x", 0⟩
    ∧ tableGet (run heapWorld [.new ⟨5, 1, "x", 0⟩, .new ⟨5, 2, "x", 0⟩, .add 0]).cache.table
        (FileObject.mk 5 2 "x" 0).Path = some 0
    ∧ (Add (run heapWorld [.new ⟨5, 1, "x", 0⟩, .new ⟨5, 2, "x", 0⟩, .add 0]) 1
        = (.error .alreadyExists,
            run heapWorld [.new ⟨5, 1, "x", 0⟩, .new ⟨5, 2, "x", 0⟩, .add 0])
      ∧ ∀ n : Nat,
          run (run heapWorld [.new ⟨5, 1, "x", 0⟩, .new ⟨5, 2, "x", 0⟩, .add 0])
            (List.replicate n (.add 1))
          = run heapWorld [.new ⟨5, 1, "x", 0⟩, .new ⟨5, 2, "x", 0⟩, .add 0]) :=
  ⟨by decide, by decide,
    add_tracked_path_rejected _ 1 ⟨5, 2, "x", 0⟩ 0 (by decide) (by decide)⟩

/-- C5 (defect in the code).  From `NewCache` no `Update` ever returns success:
the heap pointer is nil, and `Update` of the path that a panicking `Add` left
in the table panics at `heap.Fix`.  On a cache with a heap, `Update` leaves the
old entry in the heap, so the index kept in the table goes stale: after adding
a and b, updating b and popping a, a second `Update` of the tracked path b
indexes the heap out of range and panics. -/
theorem update_of_tracked_path_panics :
    (∀ (cs : List Call) (p : Nat), (Update (run newWorld cs) p).1 ≠ .ok ())
    ∧ tableGet (run newWorld [.new ⟨1, 1, "a", 0⟩, .new ⟨2, 2, "a", 0⟩, .add 0]).cache.table "a"
        = some 0
    ∧ (Update (run newWorld [.new ⟨1, 1, "a", 0⟩, .new ⟨2, 2, "a", 0⟩, .add 0]) 1).1 = .panic
    ∧ outcomes heapWorld staleCalls
        = [.ok none, .ok none, .ok none, .ok none, .ok none, .ok none, .ok none, .ok (some 0)]
    ∧ (Get (run heapWorld staleCalls) "b").1 = .ok 2
    ∧ (Update (run heapWorld staleCalls) 3).1 = .panic := by
  refine ⟨fun cs p => ?_, by decide, by decide, by decide, by decide, by decide⟩
  have hn := (NilInv_run cs newWorld NilInv_newWorld).1
  cases hm : (run newWorld cs).mem[p]? with
  | none => rw [Update_nil_entry _ p hm]; simp
  | some f =>
    cases ht : tableGet (run newWorld cs).cache.table f.Path with
    | none => rw [Update_untracked _ p f hm ht]; simp
    | some e1 =>
      cases he : (run newWorld cs).mem[e1]? with
      | none => rw [Update_nil_existing _ p f e1 hm ht he]; simp
      | some x => rw [Update_nil_heap _ p f e1 x hm ht he hn]; simp

/-- C6.  In every state, `Update` of an entry whose path the table does not
hold returns an error and leaves the whole state (size, table, heap, entries)
as it was, and `Get` still fails for that path afterwards. -/
theorem update_untracked_path_rejected (w : World) (p : Nat) (f : FileObject)
    (hm : w.mem[p]? = some f) (ht : tableGet w.cache.table f.Path = none) :
    Update w p = (.error .doesNotExist, w)
    ∧ (Get (Update w p).2 f.Path).1 = .error .notInCache := by
  have h1 := Update_untracked w p f hm ht
  refine ⟨h1, ?_⟩
  rw [h1]
  simp [Get, ht]

theorem update_untracked_path_rejected_witness :
    (run heapWorld [.new ⟨5, 1, "x", 0⟩, .new ⟨3, 2, "y", 0⟩, .add 0]).mem[1]?
        = some ⟨3, 2, "y", 0⟩
    ∧ tableGet (run heapWorld [.new ⟨5, 1, "x", 0⟩, .new ⟨3, 2, "y", 0⟩, .add 0]).cache.table
        (FileObject.mk 3 2 "y" 0).Path = none
    ∧ (Update (run heapWorld [.new ⟨5, 1, "x", 0⟩, .new ⟨3, 2, "y", 0⟩, .add 0]) 1
        = (.error .doesNotExist,
            run heapWorld [.new ⟨5, 1, "x", 0⟩, .new ⟨3, 2, "y", 0⟩, .add 0])
      ∧ (Get (Update (run heapWorld [.new ⟨5, 1, "x", 0⟩, .new ⟨3, 2, "y", 0⟩, .add 0]) 1).2
          (FileObject.mk 3 2 "y" 0).Path).1 = .error .notInCache) :=
  ⟨by decide, by decide,
    update_untracked_path_rejected _ 1 ⟨3, 2, "y", 0⟩ (by decide) (by decide)⟩

/-- C7 (defect in the code).  On the cache that `NewCache` returns, which tracks
no entry, `Pop` does not return an error: it panics at `c.heap.Len()`, the heap
pointer being nil, and `Count()` panics as well instead of returning 0. -/
theorem pop_on_new_cache_panics :
    (Pop newWorld).1 = .panic ∧ Count newWorld = .panic ∧ Size newWorld = 0 := by
  decide

/-- C8 (defect in the code).  On the cache that `NewCache` returns (no entry, no
`Pop` to make) `Count()` panics instead of returning 0, and no `Pop` succeeds in
any state reached from it.  On a cache with a heap, adding an entry of size 5,
updating it to size 7 and popping it (all three succeed) leaves `Count()` at 0
but `Size()` at 2: `Pop` subtracts the size of the old entry the heap kept. -/
theorem pops_do_not_empty_the_cache :
    Count newWorld = .panic
    ∧ (∀ cs : List Call, (Pop (run newWorld cs)).1 ≠ .ok 0 ∧ (Pop (run newWorld cs)).1 = .panic)
    ∧ outcomes heapWorld resizeCalls = [.ok none, .ok none, .ok none, .ok none, .ok (some 0)]
    ∧ (run heapWorld resizeCalls).cache.table = []
    ∧ Count (run heapWorld resizeCalls) = .ok 0
    ∧ Size (run heapWorld resizeCalls) = 2 := by
  refine ⟨by decide, fun cs => ?_, by decide, by decide, by decide, by decide⟩
  rw [Pop_nil_heap _ (NilInv_run cs newWorld NilInv_newWorld).1]
  simp

/-- C9 (defect in the code).  On the cache that `NewCache` returns, `Add` of an
entry "a" panics at `c.heap.Push(f)` after it has written the table row.  No
call made from `NewCache` is ever successful, so the successful calls leave
every path untracked; yet `Get("a")` then returns the entry of the panicked
`Add` instead of failing (it leaves the state as it was).  On a cache with a
heap, a second `Update` of b panics in `heap.Fix` after writing the table:
`Get("b")` returns the entry of the panicked `Update` (pointer 3), not the one
most recently passed to a successful `Update` (pointer 2).  What does hold in
every state: `Get` changes nothing, and it fails exactly when the table has no
row for the path. -/
theorem get_returns_entry_of_panicked_call :
    outcomes newWorld [.new ⟨1, 1, "a", 0⟩, .add 0] = [.ok none, .panic]
    ∧ (∀ (cs : List Call) (path : String),
        lastPassed newWorld cs (fun _ => none) path = none)
    ∧ (Get addedWorld "a").1 = .ok 0
    ∧ (Get addedWorld "a").2 = addedWorld
    ∧ outcomes heapWorld (staleCalls ++ [.update 3])
        = [.ok none, .ok none, .ok none, .ok none, .ok none, .ok none, .ok none,
           .ok (some 0), .panic]
    ∧ lastPassed heapWorld (staleCalls ++ [.update 3]) (fun _ => none) "b" = some 2
    ∧ (Get (run heapWorld (staleCalls ++ [.update 3])) "b").1 = .ok 3
    ∧ (∀ (w : World) (path : String), (Get w path).2 = w)
    ∧ (∀ (w : World) (path : String),
        (Get w path).1 = .error .notInCache ↔ tableGet w.cache.table path = none) := by
  refine ⟨by decide, fun cs path => ?_, by decide, by decide, by decide, by decide, by decide,
    fun w path => ?_, fun w path => ?_⟩
  · exact lastPassed_of_NilInv cs newWorld (fun _ => none) NilInv_newWorld path
  · unfold Get; cases tableGet w.cache.table path <;> rfl
  · unfold Get; cases tableGet w.cache.table path <;> simp

/-- C10 (defect in the code).  In every state reached from `NewCache`, for
every `maxSize`, both values of `dryRun` and every storage, `Prune` does not
return: its first step, `underQuota`, calls `Count()`, which dereferences the
nil heap pointer and panics, before any eviction. -/
theorem prune_from_new_cache_panics {D : Type} (remove : D → String → Bool × D)
    (maxSize : Int) (dryRun : Bool) (cs : List Call) (d : D) :
    Prune remove maxSize dryRun (run newWorld cs) d
      = some ⟨true, [], run newWorld cs, d, 0⟩ := by
  have hn := (NilInv_run cs newWorld NilInv_newWorld).1
  simp [Prune, pruneLoop, underQuota_nil _ maxSize hn]

/-- C11 (defect in the code).  The scenario of the specification, Add("a",
size 10, t = 1), Add("b", size 20, t = 2), Prune(15, false): on the cache that
`NewCache` returns both calls of `Add` panic (the heap pointer is nil) after
recording their entry, and `Prune` panics in `underQuota` without evicting
anything, leaving both rows and size 30.  On a cache with a heap the scenario
runs as the specification says: a is removed, then b, and the cache ends with
count 0 and size 0; with `maxSize` 25 only a is removed, with 30 nothing. -/
theorem prune_scenario_panics_on_new_cache :
    outcomes newWorld quotaCalls = [.ok none, .panic, .ok none, .panic]
    ∧ PruneEnd.view (Prune logRemove 15 false (run newWorld quotaCalls) [])
        = some (true, [], [], 0, ⟨30, none, [("a", 0), ("b", 1)]⟩)
    ∧ outcomes heapWorld quotaCalls = List.replicate 4 (.ok none)
    ∧ PruneEnd.view (Prune logRemove 15 false (run heapWorld quotaCalls) [])
        = some (false, [], ["a", "b"], 2, ⟨0, some [], []⟩)
    ∧ PruneEnd.view (Prune logRemove 25 false (run heapWorld quotaCalls) [])
        = some (false, [], ["a"], 1, ⟨20, some [1], [("b", 1)]⟩)
    ∧ PruneEnd.view (Prune logRemove 30 false (run heapWorld quotaCalls) [])
        = some (false, [], [], 0, ⟨30, some [0, 1], [("a", 0), ("b", 1)]⟩) := by
  refine ⟨by decide, by decide, by decide, by decide, by decide, by decide⟩

/-- C12 (defect in the code).  In every state reached from `NewCache`, for
every `maxSize` and every storage, `Prune(maxSize, true)` does not return nil:
it panics in `underQuota`, at `Count()`, the heap pointer being nil.  It leaves
the storage and the cache as they were. -/
theorem dry_run_from_new_cache_panics {D : Type} (remove : D → String → Bool × D)
    (maxSize : Int) (cs : List Call) (d : D) :
    PruneEnd.view (Prune remove maxSize true (run newWorld cs) d)
      = some (true, [], d, 0, (run newWorld cs).cache) := by
  have hn := (NilInv_run cs newWorld NilInv_newWorld).1
  simp [PruneEnd.view, Prune, pruneLoop, underQuota_nil _ maxSize hn]

/-- C13 (defect in the code).  In every state reached from `NewCache`, for
every `maxSize` and every behaviour of the removal, `Prune(maxSize, false)`
attempts no removal and does not return success: it panics in `underQuota`,
at `Count()`, the heap pointer being nil.  On a cache with a heap, in the
scenario of the specification with a removal that always fails, `Prune`
goes on to the second entry, records both errors and leaves the cache as
with a removal that succeeds. -/
theorem prune_from_new_cache_returns_nothing :
    (∀ (remove : List String → String → Bool × List String) (maxSize : Int)
        (cs : List Call) (d : List String),
      PruneEnd.view (Prune remove maxSize false (run newWorld cs) d)
        = some (true, [], d, 0, (run newWorld cs).cache))
    ∧ PruneEnd.view (Prune failRemove 15 false (run heapWorld quotaCalls) [])
        = some (false, [.removeFailed, .removeFailed], ["a", "b"], 2, ⟨0, some [], []⟩)
    ∧ PruneEnd.view (Prune logRemove 15 false (run heapWorld quotaCalls) [])
        = some (false, [], ["a", "b"], 2, ⟨0, some [], []⟩) := by
  refine ⟨fun remove maxSize cs d => ?_, by decide, by decide⟩
  have hn := (NilInv_run cs newWorld NilInv_newWorld).1
  simp [PruneEnd.view, Prune, pruneLoop, underQuota_nil _ maxSize hn]

/-- C14 (defect in the code).  On the cache that `NewCache` returns `Count()`
panics instead of giving the number of table rows (zero), and after
`Add` of an entry "a" the table holds the path "a" while there is no heap. -/
theorem table_and_heap_differ_from_new_cache :
    Count newWorld = .panic
    ∧ newWorld.cache.table.length = 0
    ∧ (Add (run newWorld [.new ⟨1, 1, "a", 0⟩]) 0).1 = .panic
    ∧ addedWorld.cache.table = [("a", 0)]
    ∧ addedWorld.cache.heap = none
    ∧ Count addedWorld = .panic := by
  decide

/-- C15 (defect in the code).  The cache that `NewCache` returns has no table
row and size 0, but its heap pointer is nil, not a heap of length 0:
`Count()` panics instead of returning 0. -/
theorem new_cache_count_panics :
    Count newWorld = .panic
    ∧ NewCache.heap = none
    ∧ NewCache.table = []
    ∧ Size newWorld = 0 := by
  decide

/-- C16 (defect in the code).  On the cache that `NewCache` returns,
`AddStat("foo", stat)` with a valid stat of a plain file and an untracked path
does not add the entry and return nil: it panics in `Add`, at
`c.heap.Push(f)`, after recording the size and the table row; no call of
`AddStat` with a stat ever returns success in a state reached from
`NewCache`. -/
theorem add_stat_on_new_cache_panics :
    AddStat newWorld "foo" (some ⟨3, 1, false⟩) none
      = (.panic, ⟨[⟨3, 1, "foo", 0⟩], ⟨3, none, [("foo", 0)]⟩⟩)
    ∧ (∀ (cs : List Call) (fn : String) (stat : Option FileStat) (dir : Option Int),
        (AddStat (run newWorld cs) fn stat dir).1 ≠ .ok ()) := by
  refine ⟨by decide, fun cs fn stat dir => ?_⟩
  have hn := NilInv_run cs newWorld NilInv_newWorld
  cases stat with
  | none => simp [AddStat]
  | some st =>
    unfold AddStat
    by_cases hd : st.isDir = true
    · cases dir with
      | none => simp [hd]
      | some sz =>
        simp only [hd, if_true]
        exact Add_not_ok_of_nil_heap _ _ (NilInv_new _ _ hn).1
    · simp only [hd, if_false]
      exact Add_not_ok_of_nil_heap _ _ (NilInv_new _ _ hn).1

/-- C17 (defect in the code).  Already one thread adding one entry to the
cache that `NewCache` returns fails: its `Add` panics.  Whatever the number of
entries and the order in which their calls of `Add` take the lock, none of the
calls returns success. -/
theorem adds_to_new_cache_never_succeed :
    (∀ f : FileObject, (addEntries newWorld [f]).1 = [.panic])
    ∧ (∀ fs : List FileObject, ∀ o ∈ (addEntries newWorld fs).1, o ≠ .ok ()) := by
  refine ⟨fun f => ?_, fun fs => (addEntries_of_NilInv fs newWorld NilInv_newWorld).1⟩
  have hm : ({ newWorld with mem := newWorld.mem ++ [f] } : World).mem[0]? = some f := rfl
  have h := Add_nil_heap { newWorld with mem := newWorld.mem ++ [f] } 0 f hm rfl rfl
  simp only [addEntries]
  rw [show newWorld.mem.length = 0 from rfl, h]

/-- C18 (defect in the code).  From `NewCache`, `Update` of the tracked path
"a" panics and there is no heap to hold the entry.  On a cache with a heap,
after adding an entry of size 5 and time 1 and updating it with an entry of
size 7 and time 9 (both calls succeed), the table holds the new entry and the
heap still the old one: `Get` reports size 7 and time 9, and `Pop` returns the
entry of size 5 and time 1. -/
theorem update_leaves_old_entry_in_heap :
    (Update (run newWorld [.new ⟨5, 1, "a", 0⟩, .new ⟨7, 9, "a", 0⟩, .add 0]) 1).1 = .panic
    ∧ (run newWorld [.new ⟨5, 1, "a", 0⟩, .new ⟨7, 9, "a", 0⟩, .add 0, .update 1]).cache.heap
        = none
    ∧ outcomes heapWorld updatedCalls = List.replicate 4 (.ok none)
    ∧ (run heapWorld updatedCalls).cache.heap = some [0]
    ∧ (Get (run heapWorld updatedCalls) "a").1 = .ok 1
    ∧ (run heapWorld updatedCalls).mem[1]? = some ⟨7, 9, "a", 0⟩
    ∧ (Pop (run heapWorld updatedCalls)).1 = .ok 0
    ∧ (Pop (run heapWorld updatedCalls)).2.mem[0]? = some ⟨5, 1, "a", 0⟩ := by
  decide

/-- C19 (defect in the code).  From `NewCache`, after `Add` of "a" the table
tracks "a" with index 0 while `Count()` panics and there is no heap position
at all.  On a cache with a heap, after adding a and b, updating b and popping
a (all calls succeed), the table entry of the tracked path b records index 1
while the heap has a single slot: the index is not below `Count()`. -/
theorem table_index_is_not_a_heap_position :
    (Get addedWorld "a").1 = .ok 0
    ∧ Count addedWorld = .panic
    ∧ addedWorld.cache.heap = none
    ∧ outcomes heapWorld staleCalls
        = [.ok none, .ok none, .ok none, .ok none, .ok none, .ok none, .ok none, .ok (some 0)]
    ∧ (Get (run heapWorld staleCalls) "b").1 = .ok 2
    ∧ (run heapWorld staleCalls).mem[2]? = some ⟨1, 2, "b", 1⟩
    ∧ (run heapWorld staleCalls).cache.heap = some [1]
    ∧ Count (run heapWorld staleCalls) = .ok 1 := by
  decide

set_option maxRecDepth 4000 in
/-- C20 (defect in the code).  On the cache that `NewCache` returns, adding
three entries with distinct paths and popping three times, every `Add` and
every `Pop` panics: no entry is returned.  On a cache with a heap the same
calls succeed and the entries come back once each, oldest first (times 1, 2,
3). -/
theorem add_then_pop_panics_on_new_cache :
    outcomes newWorld sortCalls
      = [.ok none, .panic, .ok none, .panic, .ok none, .panic, .panic, .panic, .panic]
    ∧ outcomes heapWorld sortCalls
      = [.ok none, .ok none, .ok none, .ok none, .ok none, .ok none,
         .ok (some 1), .ok (some 2), .ok (some 0)]
    ∧ (run heapWorld sortCalls).cache = ⟨0, some [], []⟩ := by
  refine ⟨by decide, by decide, by decide⟩

end Lru
